import Mathlib

/-!
# Blaze: the symmetric sparse adaptor and the sparse-vector/dense-matrix product

A shallow embedding of

* `blaze/math/adaptors/symmetricmatrix/SparseNumeric.h`
  (`SymmetricMatrix<MT,false,true>`, the adaptor for sparse matrices with numeric elements),
* `blaze/math/expressions/TSVecTDMatMultExpr.h`
  (the expression node of a sparse row vector times a column-major dense matrix),

together with the properties of these components stated in the specification.

Element values are exact integers (`ElementType = int`).  The adapted storage type `MT`,
the sparse vector operand and the dense matrix operand are collaborators whose sources are
not part of the translated files; they are modelled from their documented interface.
-/

namespace blaze

/-! ## Sparse elements and sparse lines -/

/-- Modelled from the spec: the value-index pair of the sparse containers (the type behind
`it->index()` and `it->value()`); the class `SparseElement` is not among the sources. -/
structure Element where
  index : Nat
  value : Int
deriving DecidableEq, Repr

/-- Modelled from the spec: `find` on one row/column of the sparse storage — the position of
the element with index `j`, or the end position (the length) when there is none. -/
def Line.find : List Element → Nat → Nat
  | [], _ => 0
  | e :: l, j => if e.index = j then 0 else Line.find l j + 1

/-- Modelled from the spec: `lowerBound` — the position of the first element whose index is
not less than `j`, the end position otherwise. -/
def Line.lowerBound : List Element → Nat → Nat
  | [], _ => 0
  | e :: l, j => if e.index < j then Line.lowerBound l j + 1 else 0

/-- Modelled from the spec: `upperBound` — the position of the first element whose index is
greater than `j`, the end position otherwise. -/
def Line.upperBound : List Element → Nat → Nat
  | [], _ => 0
  | e :: l, j => if e.index ≤ j then Line.upperBound l j + 1 else 0

/-- The element stored under index `j` in a line, if there is one. -/
def Line.stored : List Element → Nat → Option Int
  | [], _ => none
  | e :: l, j => if e.index = j then some e.value else Line.stored l j

/-- Modelled from the spec: constant element access on sparse storage — the stored value,
or the additive identity `ElementType()` when no element is stored under the index. -/
def Line.get (l : List Element) (j : Nat) : Int :=
  (Line.stored l j).getD 0

/-- Modelled from the spec: `set` on one line — the element with index `j` is overwritten if
it exists, otherwise a new element is inserted at its sorted position. -/
def Line.set : List Element → Nat → Int → List Element
  | [], j, v => [⟨j, v⟩]
  | e :: l, j, v =>
    if e.index = j then ⟨j, v⟩ :: l
    else if j < e.index then ⟨j, v⟩ :: e :: l
    else e :: Line.set l j v

/-- Modelled from the spec: insertion of a new element (index `j` not yet present) at its
sorted position in a line. -/
def Line.insert : List Element → Nat → Int → List Element
  | [], j, v => [⟨j, v⟩]
  | e :: l, j, v => if j < e.index then ⟨j, v⟩ :: e :: l else e :: Line.insert l j v

/-- Modelled from the spec: erasing the element at iterator position `pos` of a line; the
end position erases nothing. -/
def Line.erase (l : List Element) (pos : Nat) : List Element :=
  l.eraseIdx pos

/-- Modelled from the spec: erasing the iterator range `[first, last)` of a line. -/
def Line.eraseRange (l : List Element) (first last : Nat) : List Element :=
  if first < last then l.take first ++ l.drop last else l

/-- The storage invariant of one line of a sparse container: indices strictly ascending
and below the line's dimension. -/
def Line.WF (bound : Nat) (l : List Element) : Prop :=
  l.Pairwise (fun a b => a.index < b.index) ∧ ∀ e ∈ l, e.index < bound

instance (bound : Nat) (l : List Element) : Decidable (Line.WF bound l) := by
  unfold Line.WF; infer_instance

/-! ## Sparse row vector and dense matrix operands -/

/-- Modelled from the spec: the sparse row vector operand (`VT`), a size and the sequence of
its stored elements in ascending index order; iterators are positions in that sequence. -/
structure CompressedVector where
  size : Nat
  elems : List Element
deriving DecidableEq, Repr

namespace CompressedVector

/-- The class invariant of the sparse vector. -/
def WF (x : CompressedVector) : Prop := Line.WF x.size x.elems

instance (x : CompressedVector) : Decidable x.WF := by
  unfold WF; infer_instance

/-- Iterator to the first stored element. -/
def begin (_x : CompressedVector) : Nat := 0

/-- Iterator just past the last stored element. -/
def end_ (x : CompressedVector) : Nat := x.elems.length

/-- Iterator to the first element with index not less than `k`. -/
def lowerBound (x : CompressedVector) (k : Nat) : Nat := Line.lowerBound x.elems k

/-- Iterator to the first element with index greater than `k`. -/
def upperBound (x : CompressedVector) (k : Nat) : Nat := Line.upperBound x.elems k

/-- Number of stored elements. -/
def nonZeros (x : CompressedVector) : Nat := x.elems.length

/-- Subscript of the sparse vector: the stored value or zero. -/
def get (x : CompressedVector) (i : Nat) : Int := Line.get x.elems i

end CompressedVector

/-- Modelled from the spec: the structure traits of the dense matrix type `MT`
(`IsLower<MT>::value`, `IsStrictlyLower<MT>::value`, `IsUpper<MT>::value`,
`IsStrictlyUpper<MT>::value`); the trait classes are not among the sources. -/
structure StructureFlags where
  IsLower : Bool
  IsStrictlyLower : Bool
  IsUpper : Bool
  IsStrictlyUpper : Bool
deriving DecidableEq, Repr

/-- Modelled from the spec: the column-major dense matrix operand, observed through
`rows()`, `columns()` and the element access `mat(i,j)`, with the structure traits of its
type. -/
structure DenseMatrix where
  flags : StructureFlags
  rows : Nat
  columns : Nat
  get : Nat → Nat → Int

/-- The entries outside the triangle declared by the structure traits are zero (the
diagonal included when the trait is strict): what a lower/upper matrix type guarantees. -/
def DenseMatrix.RespectsFlags (A : DenseMatrix) : Prop :=
  (A.flags.IsLower = true → ∀ i k, i < k → A.get i k = 0) ∧
  (A.flags.IsStrictlyLower = true → ∀ i k, i ≤ k → A.get i k = 0) ∧
  (A.flags.IsUpper = true → ∀ i k, k < i → A.get i k = 0) ∧
  (A.flags.IsStrictlyUpper = true → ∀ i k, k ≤ i → A.get i k = 0)

/-! ## TSVecTDMatMultExpr -/

/-- The expression node `TSVecTDMatMultExpr<VT,MT>`: its two operands. -/
structure TSVecTDMatMultExpr where
  vec_ : CompressedVector
  mat_ : DenseMatrix

namespace TSVecTDMatMultExpr

/-- Member `size()`: the number of columns of the matrix operand. -/
def size (e : TSVecTDMatMultExpr) : Nat := e.mat_.columns

/-- The end iterator chosen by `operator[]`. -/
def endPos (e : TSVecTDMatMultExpr) (index : Nat) : Nat :=
  if e.mat_.flags.IsUpper then
    (if e.mat_.flags.IsStrictlyUpper then e.vec_.lowerBound index else e.vec_.upperBound index)
  else e.vec_.end_

/-- The start iterator chosen by `operator[]`. -/
def startPos (e : TSVecTDMatMultExpr) (index : Nat) : Nat :=
  if e.mat_.flags.IsLower then
    (if e.mat_.flags.IsStrictlyLower then e.vec_.upperBound index else e.vec_.lowerBound index)
  else e.vec_.begin

/-- The accumulation of `operator[]` over the elements from `element` up to `end`: the first
product initialises `res`, every further element is added with `+=`; an empty range leaves
`res = ElementType()`. -/
def accumulate (A : DenseMatrix) (index : Nat) : List Element → Int
  | [] => 0
  | first :: rest =>
    rest.foldl (fun res el => res + el.value * A.get el.index index)
      (first.value * A.get first.index index)

/-- Operator `operator[](index)`.  The result is `none` when the start iterator lies behind the end
iterator: the loop `element != end` then leaves the element range, which is undefined. -/
def subscript (e : TSVecTDMatMultExpr) (index : Nat) : Option Int :=
  let x := e.vec_
  let end_ := e.endPos index
  let element := e.startPos index
  if end_ < element then none
  else some (accumulate e.mat_ index ((x.elems.drop element).take (end_ - element)))

end TSVecTDMatMultExpr

/-- The mathematical product the expression stands for: the sum over all `i` of
`x[i] * A(i,k)`. -/
def dotColumn (x : CompressedVector) (A : DenseMatrix) (k : Nat) : Int :=
  ∑ i in Finset.range x.size, x.get i * A.get i k


/-! ## Exceptions -/

/-- The exception type thrown by the translated code. -/
inductive Exception where
  | invalid_argument (what : String)
deriving DecidableEq, Repr

/-- The outcome of a member function that may throw: either it returned, or
`std::invalid_argument` propagated to the caller; in both cases the state in which the
object was left is recorded. -/
inductive Outcome (σ : Type) where
  | ok (state : σ)
  | invalid_argument (state : σ)
deriving DecidableEq, Repr

/-- The object state after the call, whether it returned or threw. -/
def Outcome.state {σ : Type} : Outcome σ → σ
  | .ok s => s
  | .invalid_argument s => s

/-- Whether the call threw `std::invalid_argument`. -/
def Outcome.threw {σ : Type} : Outcome σ → Bool
  | .ok _ => false
  | .invalid_argument _ => true

/-! ## The adapted sparse matrix storage `MT` -/

/-- Modelled from the spec: the adapted sparse matrix type `MT` (the external storage
collaborator of the adaptor: `rows/columns/reset/clear/set/insert/erase/resize/find/scale/
scaleDiagonal/begin/end` and the row-major-vs-column-major trait).  `rmm` is
`IsRowMajorMatrix<MT>::value`; `lines` holds one sparse line per row (row-major) or per
column (column-major), each the sequence of its stored elements in ascending index order.
Capacities (`reserve`, `trim`) are not part of the state. -/
structure CompressedMatrix where
  rmm : Bool
  m : Nat
  n : Nat
  lines : List (List Element)
deriving DecidableEq, Repr

namespace CompressedMatrix

/-- Number of lines: rows of a row-major, columns of a column-major matrix. -/
def lineCount (M : CompressedMatrix) : Nat := if M.rmm then M.m else M.n

/-- Dimension of one line: the bound on the indices stored in it. -/
def lineBound (M : CompressedMatrix) : Nat := if M.rmm then M.n else M.m

/-- The line (row or column) number `k`. -/
def line (M : CompressedMatrix) (k : Nat) : List Element := M.lines.getD k []

/-- Replacing line `k`. -/
def setLine (M : CompressedMatrix) (k : Nat) (l : List Element) : CompressedMatrix :=
  { M with lines := M.lines.set k l }

/-- The class invariant of the storage: one line per row/column, each line well-formed. -/
def WF (M : CompressedMatrix) : Prop :=
  M.lines.length = M.lineCount ∧ ∀ l ∈ M.lines, Line.WF M.lineBound l

instance (M : CompressedMatrix) : Decidable M.WF := by
  unfold WF; infer_instance

/-- Member `rows()`. -/
def rows (M : CompressedMatrix) : Nat := M.m

/-- Member `columns()`. -/
def columns (M : CompressedMatrix) : Nat := M.n

/-- The line holding element `(i,j)`. -/
def lineOf (M : CompressedMatrix) (i j : Nat) : Nat := if M.rmm then i else j

/-- The index of element `(i,j)` within its line. -/
def indexOf (M : CompressedMatrix) (i j : Nat) : Nat := if M.rmm then j else i

/-- The element stored in line `k` under index `x`, if any. -/
def cell (M : CompressedMatrix) (k x : Nat) : Option Int := Line.stored (M.line k) x

/-- The element stored at row `i`, column `j`, if any. -/
def stored (M : CompressedMatrix) (i j : Nat) : Option Int :=
  M.cell (M.lineOf i j) (M.indexOf i j)

/-- Operator `operator()(i,j) const`: the stored value, or zero when no element is stored. -/
def get (M : CompressedMatrix) (i j : Nat) : Int := (M.stored i j).getD 0

/-- Member `nonZeros()`: the number of stored elements. -/
def nonZeros (M : CompressedMatrix) : Nat := (M.lines.map List.length).sum

/-- Member `begin(k)`: iterator to the first element of line `k`. -/
def begin (_M : CompressedMatrix) (_k : Nat) : Nat := 0

/-- Member `end(k)`: iterator just past the last element of line `k`. -/
def end_ (M : CompressedMatrix) (k : Nat) : Nat := (M.line k).length

/-- Member `find(i,j)`: iterator (within the line of `(i,j)`) to the element, `end` if absent. -/
def find (M : CompressedMatrix) (i j : Nat) : Nat :=
  Line.find (M.line (M.lineOf i j)) (M.indexOf i j)

/-- Member `set(i,j,value)`: overwrite the element or insert a new one. -/
def set (M : CompressedMatrix) (i j : Nat) (value : Int) : CompressedMatrix :=
  M.setLine (M.lineOf i j) (Line.set (M.line (M.lineOf i j)) (M.indexOf i j) value)

/-- Member `insert(i,j,value)`: throws `std::invalid_argument` when an element is already stored at
`(i,j)`, before anything is modified; otherwise inserts the new element. -/
def insert (M : CompressedMatrix) (i j : Nat) (value : Int) : Except Exception CompressedMatrix :=
  if M.find i j ≠ M.end_ (M.lineOf i j) then
    .error (.invalid_argument "Bad access index")
  else
    .ok (M.setLine (M.lineOf i j) (Line.insert (M.line (M.lineOf i j)) (M.indexOf i j) value))

/-- Member `erase(k,pos)`: erase the element at iterator `pos` of line `k`. -/
def erasePos (M : CompressedMatrix) (k pos : Nat) : CompressedMatrix :=
  M.setLine k (Line.erase (M.line k) pos)

/-- Member `erase(i,j)`: erase the element at row `i`, column `j`, if there is one. -/
def erase (M : CompressedMatrix) (i j : Nat) : CompressedMatrix :=
  M.erasePos (M.lineOf i j) (M.find i j)

/-- Member `erase(k,first,last)`: erase the iterator range `[first,last)` of line `k`. -/
def eraseRange (M : CompressedMatrix) (k first last : Nat) : CompressedMatrix :=
  M.setLine k (Line.eraseRange (M.line k) first last)

/-- Writing the element of line `k` with index `x` (what `set` does in line coordinates). -/
def setCell (M : CompressedMatrix) (k x : Nat) (value : Int) : CompressedMatrix :=
  M.setLine k (Line.set (M.line k) x value)

/-- Inserting a new element into line `k` under index `x`. -/
def insertCell (M : CompressedMatrix) (k x : Nat) (value : Int) : CompressedMatrix :=
  M.setLine k (Line.insert (M.line k) x value)

/-- Erasing the element of line `k` with index `x`, if there is one. -/
def eraseCell (M : CompressedMatrix) (k x : Nat) : CompressedMatrix :=
  M.erasePos k (Line.find (M.line k) x)

/-- Member `reset()`: all elements removed, the dimensions kept. -/
def reset (M : CompressedMatrix) : CompressedMatrix :=
  { M with lines := M.lines.map (fun _ => []) }

/-- Member `reset(k)`: all elements of line `k` removed. -/
def resetLine (M : CompressedMatrix) (k : Nat) : CompressedMatrix :=
  M.setLine k []

/-- Member `clear()`: the matrix returns to its default state, the 0 × 0 matrix. -/
def clear (M : CompressedMatrix) : CompressedMatrix :=
  { M with m := 0, n := 0, lines := [] }

/-- Member `resize(m,n,preserve)`: the new dimensions; with `preserve` the elements inside the new
dimensions are kept, without it the matrix is empty. -/
def resize (M : CompressedMatrix) (m n : Nat) (preserve : Bool) : CompressedMatrix :=
  { rmm := M.rmm, m := m, n := n,
    lines := (List.range (if M.rmm then m else n)).map (fun k =>
      if preserve then (M.line k).filter (fun e => decide (e.index < (if M.rmm then n else m)))
      else []) }

/-- Applying `f` to the value of every stored element. -/
def mapValues (M : CompressedMatrix) (f : Int → Int) : CompressedMatrix :=
  { M with lines := M.lines.map (fun l => l.map (fun e => ⟨e.index, f e.value⟩)) }

/-- Member `scale(scalar)`: every stored value is multiplied by the scalar. -/
def scale (M : CompressedMatrix) (scalar : Int) : CompressedMatrix :=
  M.mapValues (fun v => v * scalar)

/-- Operator `operator*=(scalar)`. -/
def mulScalar (M : CompressedMatrix) (rhs : Int) : CompressedMatrix :=
  M.mapValues (fun v => v * rhs)

/-- Operator `operator/=(scalar)`: the truncating division of the integer element type. -/
def divScalar (M : CompressedMatrix) (rhs : Int) : CompressedMatrix :=
  M.mapValues (fun v => Int.tdiv v rhs)

/-- Member `scaleDiagonal(scalar)`: the stored diagonal elements are multiplied by the scalar. -/
def scaleDiagonal (M : CompressedMatrix) (scalar : Int) : CompressedMatrix :=
  { M with lines := (List.range M.lines.length).map (fun k =>
      (M.line k).map (fun e => if e.index = k then ⟨e.index, e.value * scalar⟩ else e)) }

/-- Function `isSquare(M)`. -/
def isSquare (M : CompressedMatrix) : Bool := decide (M.m = M.n)

/-- Modelled from the spec: the runtime symmetry check `isSymmetric` on the storage — the
matrix is square and `M(i,j) == M(j,i)` for all `i`, `j`. -/
def isSymmetric (M : CompressedMatrix) : Bool :=
  decide (M.m = M.n ∧ ∀ i < M.m, ∀ j < M.m, M.get i j = M.get j i)

end CompressedMatrix

/-! ## Foreign matrix operands -/

/-- Modelled from the spec: a foreign matrix operand `Matrix<MT2,SO>` of a conversion or an
assignment, observed through its dimensions and element values, with the traits of its type
`MT2` that the adaptor inspects (`IsLower`, `IsUpper`, `IsSymmetric`, `IsComputation`). -/
structure Matrix where
  IsLower : Bool
  IsUpper : Bool
  IsSymmetric : Bool
  IsComputation : Bool
  rows : Nat
  columns : Nat
  get : Nat → Nat → Int

/-- Modelled from the spec: the runtime symmetry check `isSymmetric` on a foreign matrix —
square with `M(i,j) == M(j,i)`. -/
def Matrix.isSymmetric (M : Matrix) : Bool :=
  decide (M.rows = M.columns ∧ ∀ i < M.rows, ∀ j < M.rows, M.get i j = M.get j i)

/-- The static `IsSymmetric` trait is sound: a type flagged symmetric holds a symmetric
matrix. -/
def Matrix.TraitSound (M : Matrix) : Prop :=
  M.IsSymmetric = true → M.isSymmetric = true

/-- The sparse line of the values `f x`, `x` ranging over `xs`: the non-default values. -/
def Line.ofValues (f : Nat → Int) (xs : List Nat) : List Element :=
  xs.filterMap (fun x => if f x = 0 then none else some ⟨x, f x⟩)

namespace CompressedMatrix

/-- The storage of the given dimensions holding the non-default values of `f`. -/
def ofValues (rmm : Bool) (m n : Nat) (f : Nat → Nat → Int) : CompressedMatrix :=
  { rmm := rmm, m := m, n := n,
    lines := (List.range (if rmm then m else n)).map (fun k =>
      Line.ofValues (fun x => if rmm then f k x else f x k)
        (List.range (if rmm then n else m))) }

/-- Modelled from the spec: construction of the storage from a foreign matrix, `MT( ~m )`;
the storage takes the dimensions of the source and stores its non-default element values. -/
def ofMatrix (rmm : Bool) (src : Matrix) : CompressedMatrix :=
  ofValues rmm src.rows src.columns src.get

/-- Modelled from the spec: `matrix_ = ~rhs`, assignment of a foreign matrix (the storage is
resized to the source). -/
def assign (M : CompressedMatrix) (rhs : Matrix) : CompressedMatrix :=
  ofMatrix M.rmm rhs

/-- Modelled from the spec: `matrix_ += ~rhs`; as documented for the adaptor's `+=`, sizes
that do not match raise `std::invalid_argument`. -/
def addAssign (M : CompressedMatrix) (rhs : Matrix) : Except Exception CompressedMatrix :=
  if rhs.rows ≠ M.m ∨ rhs.columns ≠ M.n then .error (.invalid_argument "Matrix sizes do not match")
  else .ok (ofValues M.rmm M.m M.n (fun i j => M.get i j + rhs.get i j))

/-- Modelled from the spec: `matrix_ -= ~rhs`. -/
def subAssign (M : CompressedMatrix) (rhs : Matrix) : Except Exception CompressedMatrix :=
  if rhs.rows ≠ M.m ∨ rhs.columns ≠ M.n then .error (.invalid_argument "Matrix sizes do not match")
  else .ok (ofValues M.rmm M.m M.n (fun i j => M.get i j - rhs.get i j))

/-- Modelled from the spec: `MT tmp( matrix_ * ~rhs )`, the matrix product evaluated into a
new storage; sizes that do not match raise `std::invalid_argument`. -/
def mult (M : CompressedMatrix) (rhs : Matrix) : Except Exception CompressedMatrix :=
  if M.n ≠ rhs.rows then .error (.invalid_argument "Matrix sizes do not match")
  else .ok (ofValues M.rmm M.m rhs.columns
    (fun i j => ∑ k in Finset.range M.n, M.get i k * rhs.get k j))

end CompressedMatrix

namespace CompressedMatrix

/-- Modelled from the spec: the default constructor `MT()`, the 0 × 0 matrix. -/
def default (rmm : Bool) : CompressedMatrix :=
  { rmm := rmm, m := 0, n := 0, lines := [] }

/-- Modelled from the spec: the sizing constructors `MT(m,n)`, `MT(m,n,nonzeros)`: the
`m × n` zero matrix (the capacity arguments do not affect the state). -/
def sized (rmm : Bool) (m n : Nat) : CompressedMatrix :=
  { rmm := rmm, m := m, n := n, lines := List.replicate (if rmm then m else n) [] }

end CompressedMatrix

/-! ## SymmetricMatrix<MT,false,true> -/

/-- The adaptor `SymmetricMatrix<MT,false,true>`: its single member `matrix_`. -/
structure SymmetricMatrix where
  matrix_ : CompressedMatrix
deriving DecidableEq, Repr

namespace SymmetricMatrix

/-- The structural invariant of the adaptor: the storage is well-formed and square, and an
element is stored at `(i,j)` exactly when one is stored at `(j,i)`, with an equal value. -/
def Inv (A : SymmetricMatrix) : Prop :=
  A.matrix_.WF ∧ A.matrix_.m = A.matrix_.n ∧
    ∀ i < A.matrix_.n, ∀ j < A.matrix_.n, A.matrix_.stored i j = A.matrix_.stored j i

instance (A : SymmetricMatrix) : Decidable A.Inv := by
  unfold Inv; infer_instance

/-- Constructor `SymmetricMatrix()`. -/
def default (rmm : Bool) : SymmetricMatrix := ⟨CompressedMatrix.default rmm⟩

/-- Constructor `SymmetricMatrix( size_t n )`: `matrix_( n, n )`. -/
def sized (rmm : Bool) (n : Nat) : SymmetricMatrix := ⟨CompressedMatrix.sized rmm n n⟩

/-- Constructor `SymmetricMatrix( size_t n, size_t nonzeros )`: `matrix_( n, n, nonzeros )`. -/
def sizedNonzeros (rmm : Bool) (n : Nat) (_nonzeros : Nat) : SymmetricMatrix :=
  ⟨CompressedMatrix.sized rmm n n⟩

/-- Constructor `SymmetricMatrix( size_t n, const std::vector<size_t>& nonzeros )`. -/
def sizedNonzerosPerLine (rmm : Bool) (n : Nat) (_nonzeros : List Nat) : SymmetricMatrix :=
  ⟨CompressedMatrix.sized rmm n n⟩

/-- Constructor `SymmetricMatrix( const SymmetricMatrix& m )`: `matrix_( m.matrix_ )`. -/
def copy (m : SymmetricMatrix) : SymmetricMatrix := ⟨m.matrix_⟩

/-- Constructor `SymmetricMatrix( const Matrix<MT2,SO>& m )`: `matrix_( ~m )`, then the check of the
traits and of the runtime symmetry of `matrix_`; a throwing constructor leaves no object. -/
def ofMatrix (rmm : Bool) (m : Matrix) : Except Exception SymmetricMatrix :=
  let matrix_ := CompressedMatrix.ofMatrix rmm m
  if m.IsLower || m.IsUpper || (!m.IsSymmetric && !matrix_.isSymmetric) then
    .error (.invalid_argument "Invalid setup of symmetric matrix")
  else
    .ok ⟨matrix_⟩

/-- Operator `operator()(i,j) const`: `matrix_(i,j)`. -/
def get (A : SymmetricMatrix) (i j : Nat) : Int := A.matrix_.get i j

/-- Member `rows()`. -/
def rows (A : SymmetricMatrix) : Nat := A.matrix_.rows

/-- Member `columns()`. -/
def columns (A : SymmetricMatrix) : Nat := A.matrix_.columns

/-- Member `nonZeros()`. -/
def nonZeros (A : SymmetricMatrix) : Nat := A.matrix_.nonZeros

/-- Operator `operator=( const SymmetricMatrix& rhs )`: `matrix_ = rhs.matrix_`. -/
def assignCopy (_A : SymmetricMatrix) (rhs : SymmetricMatrix) : SymmetricMatrix :=
  ⟨rhs.matrix_⟩

/-- Operator `operator=( const Matrix<MT2,SO>& rhs )`, the overload for plain matrices
(`DisableIf< IsComputation<MT2> >`). -/
def assignPlain (A : SymmetricMatrix) (rhs : Matrix) : Outcome SymmetricMatrix :=
  if rhs.IsLower || rhs.IsUpper || (!rhs.IsSymmetric && !rhs.isSymmetric) then
    .invalid_argument A
  else
    .ok ⟨A.matrix_.assign rhs⟩

/-- Operator `operator=( const Matrix<MT2,SO>& rhs )`, the overload for matrix computations
(`EnableIf< IsComputation<MT2> >`). -/
def assignComputation (A : SymmetricMatrix) (rhs : Matrix) : Outcome SymmetricMatrix :=
  if rhs.IsLower || rhs.IsUpper then
    .invalid_argument A
  else if rhs.IsSymmetric then
    .ok ⟨A.matrix_.assign rhs⟩
  else
    let tmp := CompressedMatrix.ofMatrix A.matrix_.rmm rhs
    if !tmp.isSymmetric then
      .invalid_argument A
    else
      .ok ⟨tmp⟩

/-- Operator `operator=( const Matrix<MT2,SO>& rhs )`: overload selection by `IsComputation<MT2>`. -/
def assign (A : SymmetricMatrix) (rhs : Matrix) : Outcome SymmetricMatrix :=
  if rhs.IsComputation then A.assignComputation rhs else A.assignPlain rhs

/-- Running a storage operation that may throw inside a member function of the adaptor: on
a throw `matrix_` is what it was before the storage call. -/
def commit (A : SymmetricMatrix) (r : Except Exception CompressedMatrix) :
    Outcome SymmetricMatrix :=
  match r with
  | .error _ => .invalid_argument A
  | .ok M => .ok ⟨M⟩

/-- Operator `operator+=( const Matrix<MT2,SO>& rhs )`, plain matrices. -/
def addAssignPlain (A : SymmetricMatrix) (rhs : Matrix) : Outcome SymmetricMatrix :=
  if rhs.IsLower || rhs.IsUpper || (!rhs.IsSymmetric && !rhs.isSymmetric) then
    .invalid_argument A
  else
    A.commit (A.matrix_.addAssign rhs)

/-- Operator `operator+=( const Matrix<MT2,SO>& rhs )`, matrix computations; `tmp` is the evaluated
right-hand side. -/
def addAssignComputation (A : SymmetricMatrix) (rhs : Matrix) : Outcome SymmetricMatrix :=
  if rhs.IsLower || rhs.IsUpper then
    .invalid_argument A
  else if rhs.IsSymmetric then
    A.commit (A.matrix_.addAssign rhs)
  else
    let tmp := rhs
    if !tmp.isSymmetric then
      .invalid_argument A
    else
      A.commit (A.matrix_.addAssign tmp)

/-- Operator `operator+=`: overload selection by `IsComputation<MT2>`. -/
def addAssign (A : SymmetricMatrix) (rhs : Matrix) : Outcome SymmetricMatrix :=
  if rhs.IsComputation then A.addAssignComputation rhs else A.addAssignPlain rhs

/-- Operator `operator-=( const Matrix<MT2,SO>& rhs )`, plain matrices. -/
def subAssignPlain (A : SymmetricMatrix) (rhs : Matrix) : Outcome SymmetricMatrix :=
  if rhs.IsLower || rhs.IsUpper || (!rhs.IsSymmetric && !rhs.isSymmetric) then
    .invalid_argument A
  else
    A.commit (A.matrix_.subAssign rhs)

/-- Operator `operator-=( const Matrix<MT2,SO>& rhs )`, matrix computations. -/
def subAssignComputation (A : SymmetricMatrix) (rhs : Matrix) : Outcome SymmetricMatrix :=
  if rhs.IsLower || rhs.IsUpper then
    .invalid_argument A
  else if rhs.IsSymmetric then
    A.commit (A.matrix_.subAssign rhs)
  else
    let tmp := rhs
    if !tmp.isSymmetric then
      .invalid_argument A
    else
      A.commit (A.matrix_.subAssign tmp)

/-- Operator `operator-=`: overload selection by `IsComputation<MT2>`. -/
def subAssign (A : SymmetricMatrix) (rhs : Matrix) : Outcome SymmetricMatrix :=
  if rhs.IsComputation then A.subAssignComputation rhs else A.subAssignPlain rhs

/-- Operator `operator*=( const Matrix<MT2,SO>& rhs )`: `MT tmp( matrix_ * ~rhs )`, the symmetry
check of `tmp`, then `move( matrix_, tmp )`. -/
def multAssign (A : SymmetricMatrix) (rhs : Matrix) : Outcome SymmetricMatrix :=
  match A.matrix_.mult rhs with
  | .error _ => .invalid_argument A
  | .ok tmp =>
    if !tmp.isSymmetric then
      .invalid_argument A
    else
      .ok ⟨tmp⟩

/-- Operator `operator*=( Other rhs )`: `matrix_ *= rhs`. -/
def mulScalar (A : SymmetricMatrix) (rhs : Int) : SymmetricMatrix :=
  ⟨A.matrix_.mulScalar rhs⟩

/-- Operator `operator/=( Other rhs )`: `matrix_ /= rhs`. -/
def divScalar (A : SymmetricMatrix) (rhs : Int) : SymmetricMatrix :=
  ⟨A.matrix_.divScalar rhs⟩

/-- Member `reset()`: `matrix_.reset()`. -/
def reset (A : SymmetricMatrix) : SymmetricMatrix := ⟨A.matrix_.reset⟩

/-- One iteration of the loop of `reset( size_t i )` at an element of line `i` with index
`j`: the diagonal element is skipped, otherwise the mirrored element is located with `find`
and erased from line `j`. -/
def resetStep (i : Nat) (M : CompressedMatrix) (it : Element) : CompressedMatrix :=
  let j := it.index
  if i = j then M
  else if M.rmm then
    let pos := M.find j i
    M.erasePos j pos
  else
    let pos := M.find i j
    M.erasePos j pos

/-- Member `reset( size_t i )`: the loop over the elements of line `i`, then `matrix_.reset( i )`.
The loop erases only from lines `j ≠ i`, so the traversed line `i` is the same sequence at
every iteration and the loop is the fold of `resetStep` over it. -/
def resetIndex (A : SymmetricMatrix) (i : Nat) : SymmetricMatrix :=
  ⟨((A.matrix_.line i).foldl (resetStep i) A.matrix_).resetLine i⟩

/-- Member `clear()`. -/
def clear (A : SymmetricMatrix) : SymmetricMatrix := ⟨A.matrix_.clear⟩

/-- Member `set( i, j, value )`: `matrix_.set( j, i, value )` when `i != j`, then
`matrix_.set( i, j, value )` (the returned iterator is not part of the state). -/
def set (A : SymmetricMatrix) (i j : Nat) (value : Int) : SymmetricMatrix :=
  let M1 := if i ≠ j then A.matrix_.set j i value else A.matrix_
  ⟨M1.set i j value⟩

/-- Member `insert( i, j, value )`: `matrix_.insert( j, i, value )` when `i != j`, then
`matrix_.insert( i, j, value )`; either storage call may throw, and a throw of the second
leaves the first insertion in place. -/
def insert (A : SymmetricMatrix) (i j : Nat) (value : Int) : Outcome SymmetricMatrix :=
  if i ≠ j then
    match A.matrix_.insert j i value with
    | .error _ => .invalid_argument A
    | .ok M1 =>
      match M1.insert i j value with
      | .error _ => .invalid_argument ⟨M1⟩
      | .ok M2 => .ok ⟨M2⟩
  else
    match A.matrix_.insert i j value with
    | .error _ => .invalid_argument A
    | .ok M2 => .ok ⟨M2⟩

/-- Member `erase( size_t i, size_t j )`. -/
def erase (A : SymmetricMatrix) (i j : Nat) : SymmetricMatrix :=
  let M1 := A.matrix_.erase i j
  ⟨if i ≠ j then M1.erase j i else M1⟩

/-- The index of the element at iterator position `pos` of line `k` (`pos->index()`). -/
def indexAt (M : CompressedMatrix) (k pos : Nat) : Nat :=
  ((M.line k).getD pos ⟨0, 0⟩).index

/-- Member `erase( size_t i, Iterator pos )`; `pos` is the position `pos.base()` in line `i`. -/
def erasePos (A : SymmetricMatrix) (i : Nat) (pos : Nat) : SymmetricMatrix :=
  let base := pos
  if base = A.matrix_.end_ i then A
  else
    let j := indexAt A.matrix_ i base
    if i = j then
      ⟨A.matrix_.erasePos i base⟩
    else if A.matrix_.rmm then
      let M1 := A.matrix_.erasePos j (A.matrix_.find j i)
      ⟨M1.erasePos i base⟩
    else
      let M1 := A.matrix_.erasePos j (A.matrix_.find i j)
      ⟨M1.erasePos i base⟩

/-- One iteration of the loop of `erase( size_t i, Iterator first, Iterator last )`. -/
def eraseRangeStep (i : Nat) (M : CompressedMatrix) (it : Element) : CompressedMatrix :=
  let j := it.index
  if i = j then M
  else if M.rmm then M.erase j i
  else M.erase i j

/-- Member `erase( size_t i, Iterator first, Iterator last )`: the loop over the elements of line
`i` in `[first,last)` erasing the mirrored elements (from lines `j ≠ i`, so the traversed
range is the same sequence at every iteration), then the erasure of the range. -/
def eraseRange (A : SymmetricMatrix) (i first last : Nat) : SymmetricMatrix :=
  let range := ((A.matrix_.line i).drop first).take (last - first)
  ⟨(range.foldl (eraseRangeStep i) A.matrix_).eraseRange i first last⟩

/-- Member `resize( size_t n, bool preserve )`: `matrix_.resize( n, n, true )`; `preserve` is an
unused parameter. -/
def resize (A : SymmetricMatrix) (n : Nat) (_preserve : Bool) : SymmetricMatrix :=
  ⟨A.matrix_.resize n n true⟩

/-- Member `transpose()`: returns `*this`. -/
def transpose (A : SymmetricMatrix) : SymmetricMatrix := A

/-- Member `scale( scalar )`. -/
def scale (A : SymmetricMatrix) (scalar : Int) : SymmetricMatrix :=
  ⟨A.matrix_.scale scalar⟩

/-- Member `scaleDiagonal( scalar )`. -/
def scaleDiagonal (A : SymmetricMatrix) (scalar : Int) : SymmetricMatrix :=
  ⟨A.matrix_.scaleDiagonal scalar⟩

/-- Member `swap( SymmetricMatrix& m )`: the two storages are exchanged. -/
def swap (A m : SymmetricMatrix) : SymmetricMatrix × SymmetricMatrix :=
  (⟨m.matrix_⟩, ⟨A.matrix_⟩)

end SymmetricMatrix

/-- Modelled from the spec: the proxy `NumericProxy<MT>` returned by the mutable
`operator()(i,j)` (the class is not among the sources): it refers to the storage and the
position, and on assignment writes the value to both `(i,j)` and `(j,i)`, skipping the
duplicate write when `i == j`. -/
structure NumericProxy where
  matrix_ : CompressedMatrix
  row_ : Nat
  column_ : Nat

/-- Modelled from the spec: assignment through the proxy; the storage after the write. -/
def NumericProxy.assign (p : NumericProxy) (value : Int) : CompressedMatrix :=
  let M1 := p.matrix_.set p.row_ p.column_ value
  if p.row_ ≠ p.column_ then M1.set p.column_ p.row_ value else M1

/-- The mutable `operator()(i,j)`: `Reference( matrix_, i, j )`. -/
def SymmetricMatrix.call (A : SymmetricMatrix) (i j : Nat) : NumericProxy :=
  ⟨A.matrix_, i, j⟩

/-- The statement `A(i,j) = v`: the adaptor after assigning through the proxy. -/
def SymmetricMatrix.assignElement (A : SymmetricMatrix) (i j : Nat) (v : Int) :
    SymmetricMatrix :=
  ⟨(A.call i j).assign v⟩

/-- The adaptor states reachable from a constructor by the member functions of the adaptor,
each called within its documented preconditions (indices in range, iterators of the line
they are passed with, a non-zero divisor).  A member function that may throw contributes the
state in which it leaves the object, whether it returned or threw.  Foreign operands whose
type is flagged symmetric hold a symmetric matrix (`TraitSound`). -/
inductive Reachable : SymmetricMatrix → Prop
  | default (rmm : Bool) : Reachable (SymmetricMatrix.default rmm)
  | sized (rmm : Bool) (n : Nat) : Reachable (SymmetricMatrix.sized rmm n)
  | sizedNonzeros (rmm : Bool) (n nonzeros : Nat) :
      Reachable (SymmetricMatrix.sizedNonzeros rmm n nonzeros)
  | sizedNonzerosPerLine (rmm : Bool) (n : Nat) (nonzeros : List Nat) :
      Reachable (SymmetricMatrix.sizedNonzerosPerLine rmm n nonzeros)
  | copy {A : SymmetricMatrix} : Reachable A → Reachable (SymmetricMatrix.copy A)
  | ofMatrix (rmm : Bool) (src : Matrix) (A : SymmetricMatrix) :
      src.TraitSound → SymmetricMatrix.ofMatrix rmm src = .ok A → Reachable A
  | set {A : SymmetricMatrix} (i j : Nat) (v : Int) :
      Reachable A → i < A.rows → j < A.columns → Reachable (A.set i j v)
  | insert {A : SymmetricMatrix} (i j : Nat) (v : Int) :
      Reachable A → i < A.rows → j < A.columns → Reachable (A.insert i j v).state
  | erase {A : SymmetricMatrix} (i j : Nat) :
      Reachable A → i < A.rows → j < A.columns → Reachable (A.erase i j)
  | erasePos {A : SymmetricMatrix} (i pos : Nat) :
      Reachable A → i < A.rows → pos ≤ A.matrix_.end_ i → Reachable (A.erasePos i pos)
  | eraseRange {A : SymmetricMatrix} (i first last : Nat) :
      Reachable A → i < A.rows → first ≤ last → last ≤ A.matrix_.end_ i →
      Reachable (A.eraseRange i first last)
  | reset {A : SymmetricMatrix} : Reachable A → Reachable A.reset
  | resetIndex {A : SymmetricMatrix} (i : Nat) :
      Reachable A → i < A.rows → Reachable (A.resetIndex i)
  | clear {A : SymmetricMatrix} : Reachable A → Reachable A.clear
  | resize {A : SymmetricMatrix} (n : Nat) (preserve : Bool) :
      Reachable A → Reachable (A.resize n preserve)
  | scale {A : SymmetricMatrix} (scalar : Int) : Reachable A → Reachable (A.scale scalar)
  | scaleDiagonal {A : SymmetricMatrix} (scalar : Int) :
      Reachable A → Reachable (A.scaleDiagonal scalar)
  | mulScalar {A : SymmetricMatrix} (rhs : Int) : Reachable A → Reachable (A.mulScalar rhs)
  | divScalar {A : SymmetricMatrix} (rhs : Int) :
      Reachable A → rhs ≠ 0 → Reachable (A.divScalar rhs)
  | transpose {A : SymmetricMatrix} : Reachable A → Reachable A.transpose
  | swapLeft {A B : SymmetricMatrix} : Reachable A → Reachable B → Reachable (A.swap B).1
  | swapRight {A B : SymmetricMatrix} : Reachable A → Reachable B → Reachable (A.swap B).2
  | assignCopy {A rhs : SymmetricMatrix} :
      Reachable A → Reachable rhs → Reachable (A.assignCopy rhs)
  | assign {A : SymmetricMatrix} (rhs : Matrix) :
      Reachable A → rhs.TraitSound → Reachable (A.assign rhs).state
  | addAssign {A : SymmetricMatrix} (rhs : Matrix) :
      Reachable A → rhs.TraitSound → Reachable (A.addAssign rhs).state
  | subAssign {A : SymmetricMatrix} (rhs : Matrix) :
      Reachable A → rhs.TraitSound → Reachable (A.subAssign rhs).state
  | multAssign {A : SymmetricMatrix} (rhs : Matrix) :
      Reachable A → Reachable (A.multAssign rhs).state

/-! ## Example inputs -/

/-- A sparse row vector of size 4 with three stored entries. -/
def exampleVector : CompressedVector := ⟨4, [⟨0, 2⟩, ⟨2, 3⟩, ⟨3, -1⟩]⟩

/-- A 4 × 4 upper triangular dense matrix. -/
def exampleUpper : DenseMatrix :=
  ⟨⟨false, false, true, false⟩, 4, 4, fun i k => if k < i then 0 else (i : Int) + 10 * k + 1⟩

/-- The 5 × 5 matrix of the documentation of `reset( size_t i )`, as rows of values. -/
def docRows : List (List Int) :=
  [[0, 2, 5, -4, 0], [2, 1, -3, 7, 0], [5, -3, 8, -1, -2], [-4, 7, -1, 0, -6], [0, 0, -2, -6, 1]]

/-- The documented matrix after `reset( 1UL )`. -/
def docRowsReset : List (List Int) :=
  [[0, 0, 5, -4, 0], [0, 0, 0, 0, 0], [5, 0, 8, -1, -2], [-4, 0, -1, 0, -6], [0, 0, -2, -6, 1]]

/-- A foreign 5 × 5 matrix with the given rows of values. -/
def matrixOfRows (rws : List (List Int)) : Matrix :=
  ⟨false, false, false, false, 5, 5, fun i j => (rws.getD i []).getD j 0⟩

/-- The adaptor holding the documented 5 × 5 matrix. -/
def docMatrix (rmm : Bool) : SymmetricMatrix :=
  ⟨CompressedMatrix.ofMatrix rmm (matrixOfRows docRows)⟩

/-- A state reached from the sizing constructor by `set`, `insert`, `scale` and `reset( i )`. -/
def exampleReachable : SymmetricMatrix :=
  ((((SymmetricMatrix.sized false 3).set 0 2 7).insert 1 2 4).state.scale 3).resetIndex 0

/-! ## Low-level append -/

/-- Modelled from the spec: `isDefault( value )` for the numeric element type — the value
is the default (zero) value. -/
def isDefault (value : Int) : Bool := value == 0

/-- Modelled from the spec: the low-level `append( i, j, value, check )` of the storage —
the element is appended at the end of the line of `(i,j)` without any search; with `check`
a default value is not appended. -/
def CompressedMatrix.append (M : CompressedMatrix) (i j : Nat) (value : Int) (check : Bool) :
    CompressedMatrix :=
  if check && isDefault value then M
  else M.setLine (M.lineOf i j) (M.line (M.lineOf i j) ++ [⟨M.indexOf i j, value⟩])

/-- Member `append( i, j, value, check )`: `matrix_.append( i, j, value, check )`, then
`matrix_.insert( j, i, value )` when `i != j && ( !check || !isDefault( value ) )`; a throw
of the insertion leaves the appended element in place. -/
def SymmetricMatrix.append (A : SymmetricMatrix) (i j : Nat) (value : Int) (check : Bool) :
    Outcome SymmetricMatrix :=
  let M1 := A.matrix_.append i j value check
  if i ≠ j ∧ (!check || !isDefault value) then
    match M1.insert j i value with
    | .error _ => .invalid_argument ⟨M1⟩
    | .ok M2 => .ok ⟨M2⟩
  else
    .ok ⟨M1⟩

/-- The documented preconditions of `append( i, j, value, check )`: the indices are in
range and the index of the new element is strictly larger than the largest index stored in
the line it is appended to (free capacity is not part of the model). -/
def SymmetricMatrix.AppendPre (A : SymmetricMatrix) (i j : Nat) : Prop :=
  i < A.rows ∧ j < A.rows ∧
    ∀ e ∈ A.matrix_.line (A.matrix_.lineOf i j), e.index < A.matrix_.indexOf i j

instance (A : SymmetricMatrix) (i j : Nat) : Decidable (A.AppendPre i j) := by
  unfold SymmetricMatrix.AppendPre; infer_instance

/-- The matrix product of the storage with a foreign matrix, as a new storage: the value
that `MT tmp( matrix_ * ~rhs )` holds when the sizes match. -/
def CompressedMatrix.product (M : CompressedMatrix) (rhs : Matrix) : CompressedMatrix :=
  CompressedMatrix.ofValues M.rmm M.m rhs.columns
    (fun i j => ∑ k in Finset.range M.n, M.get i k * rhs.get k j)

/-- The zero matrix of the given size, of a plain unflagged type. -/
def zeroMatrix (rows columns : Nat) : Matrix :=
  ⟨false, false, false, false, rows, columns, fun _ _ => 0⟩

/-- The adaptor built by the documented example of `append`: a 3 × 3 row-major adaptor
after `append( 0, 1, 1 )`, `append( 1, 1, 2 )`, `append( 2, 0, 3 )`. -/
def docAppend : SymmetricMatrix :=
  ((((SymmetricMatrix.sized true 3).append 0 1 1 false).state.append 1 1 2 false).state.append
    2 0 3 false).state

/-! ## The multiplication operators of sparse row vector and dense matrix -/

/-- Modelled from the spec: `trans( mat )`, the transpose of a dense matrix — rows and
columns exchanged, `trans(A)(i,j) = A(j,i)`, lower and upper structure exchanged. -/
def DenseMatrix.trans (A : DenseMatrix) : DenseMatrix :=
  { flags := ⟨A.flags.IsUpper, A.flags.IsStrictlyUpper, A.flags.IsLower, A.flags.IsStrictlyLower⟩,
    rows := A.columns, columns := A.rows, get := fun i j => A.get j i }

/-- What a matrix type flagged `IsSymmetric` guarantees: the matrix is square and
`A(i,j) == A(j,i)`. -/
def DenseMatrix.Symmetric (A : DenseMatrix) : Prop :=
  A.rows = A.columns ∧ ∀ i < A.rows, ∀ j < A.rows, A.get i j = A.get j i

/-- The general overload of `operator*( vec, mat )` for a sparse row vector and a
column-major dense matrix (selected when `T2` is neither symmetric nor a matrix product). -/
def operatorMul (vec : CompressedVector) (mat : DenseMatrix) :
    Except Exception TSVecTDMatMultExpr :=
  if vec.size ≠ mat.rows then
    .error (.invalid_argument "Vector and matrix sizes do not match")
  else
    .ok ⟨vec, mat⟩

/-- Modelled from the spec: the expression node of a sparse row vector and a row-major dense
matrix, which `vec * trans( mat )` builds (the class `TSVecDMatMultExpr` is not among the
sources). -/
structure TSVecDMatMultExpr where
  vec_ : CompressedVector
  mat_ : DenseMatrix

/-- Modelled from the spec: `size()` of the row-major node, the number of columns of the
matrix operand. -/
def TSVecDMatMultExpr.size (e : TSVecDMatMultExpr) : Nat := e.mat_.columns

/-- Modelled from the spec: `operator[]` of the row-major node — one output element is the
sparse dot product of the vector against matrix column `index`, with the element loop
bounded by the triangular structure as in the column-major node. -/
def TSVecDMatMultExpr.subscript (e : TSVecDMatMultExpr) (index : Nat) : Option Int :=
  TSVecTDMatMultExpr.subscript ⟨e.vec_, e.mat_⟩ index

/-- Modelled from the spec: `operator*( vec, mat )` for a sparse row vector and a row-major
dense matrix — the public multiply operator signals incompatible dimensions when the vector
length differs from the matrix row count. -/
def operatorMulRowMajor (vec : CompressedVector) (mat : DenseMatrix) :
    Except Exception TSVecDMatMultExpr :=
  if vec.size ≠ mat.rows then
    .error (.invalid_argument "Vector and matrix sizes do not match")
  else
    .ok ⟨vec, mat⟩

/-- The restructuring overload of `operator*( vec, mat )` for a symmetric column-major dense
matrix (selected by `IsSymmetric<T2>`): the size check, then `(~vec) * trans( ~mat )`. -/
def operatorMulSymmetric (vec : CompressedVector) (mat : DenseMatrix) :
    Except Exception TSVecDMatMultExpr :=
  if vec.size ≠ mat.rows then
    .error (.invalid_argument "Vector and matrix sizes do not match")
  else
    operatorMulRowMajor vec mat.trans

/-- A symmetric 4 × 4 dense matrix of an unflagged type. -/
def exampleSymmetric : DenseMatrix :=
  ⟨⟨false, false, false, false⟩, 4, 4, fun i k => (i : Int) * k + i + k⟩

/-! ## ThreadPool -/

/-- Modelled from the spec: a task of the task queue — a type-erased zero-argument callable,
identified here by a number (the class `threadpool::Task` is not among the sources). -/
abbrev Task := Nat

/-- Modelled from the spec: the control state of a managed worker thread (the class `Thread`
is not among the sources; it calls `executeTask()` repeatedly until that returns `false`).
`ready`: about to enter `executeTask()` — freshly created or between two tasks — and counted
in `active_`; `waiting`: blocked in `waitForTask_.wait( lock )`; `executing task`: running
`task()` outside the lock; `terminated`: `executeTask()` has returned `false`. -/
inductive WorkerState where
  | ready
  | waiting
  | executing (task : Task)
  | terminated
deriving DecidableEq, Repr

/-- Whether a worker in this state is counted in `active_`. -/
def WorkerState.isActive : WorkerState → Bool
  | .ready => true
  | .executing _ => true
  | _ => false

/-- Whether `hasTerminated()` holds for the thread. -/
def WorkerState.hasTerminated : WorkerState → Bool
  | .terminated => true
  | _ => false

/-- The task a worker is executing, if any. -/
def WorkerState.task : WorkerState → Option Task
  | .executing t => some t
  | _ => none

/-- The state of a `ThreadPool`: the three counters, the thread container (one control
state per managed thread) and the task queue (modelled from the spec as a FIFO sequence;
the class `TaskQueue` is not among the sources).  `destructing` records that the destructor
has started.  The last three fields are history, not members: the tasks scheduled, popped
and completed so far, in order. -/
structure ThreadPool where
  total_ : Nat
  expected_ : Nat
  active_ : Nat
  threads_ : List WorkerState
  taskqueue_ : List Task
  destructing : Bool
  scheduled : List Task
  popped : List Task
  executed : List Task
deriving DecidableEq, Repr

namespace ThreadPool

/-- The decrement `--x` of a `size_t` counter: 0 wraps around to `2^64 - 1`.  (Increments
are taken not to overflow: a pool cannot hold `2^64` threads.) -/
def decrement (x : Nat) : Nat := if x = 0 then 2 ^ 64 - 1 else x - 1

/-- The member initialisers of the constructor: all counters 0, no thread, no task. -/
def initial : ThreadPool :=
  { total_ := 0, expected_ := 0, active_ := 0, threads_ := [], taskqueue_ := [],
    destructing := false, scheduled := [], popped := [], executed := [] }

/-- Member `createThread()`: a new managed thread is added and the three counters are
incremented. -/
def createThread (s : ThreadPool) : ThreadPool :=
  { s with threads_ := s.threads_ ++ [WorkerState.ready], total_ := s.total_ + 1,
           expected_ := s.expected_ + 1, active_ := s.active_ + 1 }

/-- The loop `for( size_t i=expected_; i<n; ++i ) createThread();` with `count` iterations
left (`count = n - i`). -/
def createThreads : Nat → ThreadPool → ThreadPool
  | 0, s => s
  | count + 1, s => createThreads count (createThread s)

/-- The part of `resize( n )` that runs under the lock, for `n != 0`: new threads are
created while `n > expected_`, otherwise `expected_ = n` and all idle threads are
notified. -/
def resizeLocked (s : ThreadPool) (n : Nat) : ThreadPool :=
  if n > s.expected_ then createThreads (n - s.expected_) s
  else { s with expected_ := n }

/-- The housekeeping at the end of `resize( n )`: every terminated thread is joined and
erased from the thread container. -/
def joinTerminated (s : ThreadPool) : ThreadPool :=
  { s with threads_ := s.threads_.filter (fun w => !w.hasTerminated) }

/-- Member `resize( n )`. -/
def resize (s : ThreadPool) (n : Nat) : Outcome ThreadPool :=
  if n = 0 then .invalid_argument s
  else .ok (joinTerminated (resizeLocked s n))

/-- Constructor `ThreadPool( n )`: the member initialisers, then `resize( n )`; a throwing
constructor leaves no object. -/
def create (n : Nat) : Except Exception ThreadPool :=
  match resize initial n with
  | .ok s => .ok s
  | .invalid_argument _ => .error (.invalid_argument "Invalid number of threads")

/-- Member `isEmpty()`. -/
def isEmpty (s : ThreadPool) : Bool := s.taskqueue_.isEmpty

/-- Member `size()`: returns `expected_`. -/
def size (s : ThreadPool) : Nat := s.expected_

/-- Member `active()`: returns `active_`. -/
def active (s : ThreadPool) : Nat := s.active_

/-- Member `ready()`: returns `expected_ - active_`, a subtraction of `size_t` values. -/
def ready (s : ThreadPool) : Nat := (s.expected_ + 2 ^ 64 - s.active_) % 2 ^ 64

/-- Member `schedule( func )`: the task is pushed at the tail of the queue (and one idle
thread is notified). -/
def schedule (s : ThreadPool) (t : Task) : ThreadPool :=
  { s with taskqueue_ := s.taskqueue_ ++ [t], scheduled := s.scheduled ++ [t] }

/-- Member `clear()`: `taskqueue_.clear()`. -/
def clear (s : ThreadPool) : ThreadPool :=
  { s with taskqueue_ := [] }

/-- The loop condition of `wait()`: `!taskqueue_.isEmpty() || active_ > 0`; while it holds
the caller blocks on `waitForThread_`. -/
def waitBlocks (s : ThreadPool) : Bool :=
  !s.taskqueue_.isEmpty || decide (s.active_ > 0)

/-- The call `wait()` returns in state `s`: its loop condition is false. -/
def waitReturns (s : ThreadPool) : Prop := s.waitBlocks = false

instance (s : ThreadPool) : Decidable s.waitReturns := by
  unfold waitReturns; infer_instance

/-- One evaluation, under the lock, of the loop `while( taskqueue_.isEmpty() )` of
`executeTask()` by thread `k`, which is counted in `active_`.  With a task available the
head of the queue is popped and the thread leaves the lock to execute it.  With an empty
queue `active_` is decremented and `waitForThread_` notified; then the thread terminates
(`--total_; return false`) if `total_ > expected_`, and blocks in `waitForTask_.wait`
otherwise. -/
def acquire (s : ThreadPool) (k : Nat) : ThreadPool :=
  match s.taskqueue_ with
  | [] =>
    if s.total_ > s.expected_ then
      { s with active_ := decrement s.active_, total_ := decrement s.total_,
               threads_ := s.threads_.set k WorkerState.terminated }
    else
      { s with active_ := decrement s.active_,
               threads_ := s.threads_.set k WorkerState.waiting }
  | t :: rest =>
    { s with taskqueue_ := rest, threads_ := s.threads_.set k (WorkerState.executing t),
             popped := s.popped ++ [t] }

/-- Thread `k` returns from `waitForTask_.wait( lock )`: `++active_`, then the loop
condition is evaluated again. -/
def wake (s : ThreadPool) (k : Nat) : ThreadPool :=
  acquire { s with active_ := s.active_ + 1 } k

/-- Thread `k` completes `task()`; `executeTask()` returns `true` and the thread is about
to call it again. -/
def finish (s : ThreadPool) (k : Nat) (t : Task) : ThreadPool :=
  { s with threads_ := s.threads_.set k WorkerState.ready, executed := s.executed ++ [t] }

/-- The destructor up to its waiting loop: the queue is cleared, `expected_ = 0`, all idle
threads are notified. -/
def destructorBegin (s : ThreadPool) : ThreadPool :=
  { s with taskqueue_ := [], expected_ := 0, destructing := true }

/-- The loop condition of the destructor: `total_ != 0`. -/
def destructorBlocks (s : ThreadPool) : Bool := decide (s.total_ ≠ 0)

/-- The end of the destructor, once `total_ == 0`: all threads are joined and destroyed. -/
def destructorEnd (s : ThreadPool) : ThreadPool :=
  { s with threads_ := [] }

/-- The atomic steps of the pool: the calls of the public interface (each runs under the
mutex) and the steps of the worker threads. -/
inductive Action where
  | schedule (t : Task)
  | resize (n : Nat)
  | join
  | clear
  | acquire (k : Nat)
  | wake (k : Nat)
  | finish (k : Nat)
  | destroy
deriving DecidableEq, Repr

/-- The step relation of the pool as a function: the state after an enabled step, `none`
for a step that is not enabled.  The interface is not called once the destructor has
started; `resize` is the locked part of `resize( n )` for `n != 0` and `join` its
housekeeping; a waiting thread may wake at any time (notified or spuriously). -/
def step (s : ThreadPool) : Action → Option ThreadPool
  | .schedule t => if s.destructing then none else some (s.schedule t)
  | .resize n => if s.destructing || n == 0 then none else some (s.resizeLocked n)
  | .join => some s.joinTerminated
  | .clear => if s.destructing then none else some s.clear
  | .acquire k =>
    if s.threads_[k]? = some WorkerState.ready then some (s.acquire k) else none
  | .wake k =>
    if s.threads_[k]? = some WorkerState.waiting then some (s.wake k) else none
  | .finish k =>
    match s.threads_[k]? with
    | some (WorkerState.executing t) => some (s.finish k t)
    | _ => none
  | .destroy => if s.destructing then none else some s.destructorBegin

/-- Running a sequence of steps. -/
def run (s : ThreadPool) : List Action → Option ThreadPool
  | [] => some s
  | a :: rest =>
    match s.step a with
    | some s1 => run s1 rest
    | none => none

/-- The tasks handed to `schedule` along a sequence of steps. -/
def scheduledBy : List Action → List Task
  | [] => []
  | .schedule t :: rest => t :: scheduledBy rest
  | _ :: rest => scheduledBy rest

/-- The tasks in execution. -/
def executing (s : ThreadPool) : List Task :=
  s.threads_.filterMap WorkerState.task

/-- The states reachable from a constructed pool by steps of the step relation. -/
def Reachable (s : ThreadPool) : Prop :=
  ∃ n s0 acts, create n = .ok s0 ∧ run s0 acts = some s

end ThreadPool

/-- A run of a pool of two threads: two tasks are scheduled and executed, then both threads
go idle. -/
def exampleRun : List ThreadPool.Action :=
  [.schedule 7, .acquire 0, .schedule 8, .acquire 1, .finish 1, .finish 0, .acquire 0,
    .acquire 1]

/-! ## Iterator, SymmetricElement and SymmetricValue of the adaptor -/

/-- Modelled from the spec: an iterator `MT::Iterator` of the storage — a pointer to a
stored element, identified by the line it points into and the position within that line
(the storage class is not among the sources). -/
structure StorageIterator where
  line : Nat
  pos : Nat
deriving DecidableEq, Repr

/-- The element an iterator of the storage points to (`*it`), when it is dereferenceable. -/
def CompressedMatrix.elementAt (M : CompressedMatrix) (it : StorageIterator) : Element :=
  (M.line it.line).getD it.pos ⟨0, 0⟩

/-- Updating the value of the element at position `pos` of a line; the index is kept. -/
def Line.update : List Element → Nat → (Int → Int) → List Element
  | [], _, _ => []
  | e :: rest, 0, f => ⟨e.index, f e.value⟩ :: rest
  | e :: rest, pos + 1, f => e :: Line.update rest pos f

/-- Modelled from the spec: a write through an iterator of the storage, `*it = f( *it )`:
the assignment operators of the value-index pair change its value and keep its index. -/
def CompressedMatrix.updateAt (M : CompressedMatrix) (it : StorageIterator) (f : Int → Int) :
    CompressedMatrix :=
  M.setLine it.line (Line.update (M.line it.line) it.pos f)

/-- Class `SymmetricElement`: the two represented sparse elements `e1_` and `e2_`. -/
structure SymmetricElement where
  e1_ : StorageIterator
  e2_ : StorageIterator
deriving DecidableEq, Repr

namespace SymmetricElement

/-- Operator `operator=( const T& v )`: `*e1_ = v; if( e1_ != e2_ ) *e2_ = v;`. -/
def assign (e : SymmetricElement) (matrix : CompressedMatrix) (v : Int) : CompressedMatrix :=
  let M1 := matrix.updateAt e.e1_ (fun _ => v)
  if e.e1_ ≠ e.e2_ then M1.updateAt e.e2_ (fun _ => v) else M1

/-- Member `index()`: `e1_->index()`. -/
def index (e : SymmetricElement) (matrix : CompressedMatrix) : Nat :=
  (matrix.elementAt e.e1_).index

end SymmetricElement

/-- Class `Iterator` of the adaptor: the position `pos_` within row/column `index_`; the
member `matrix_` (a pointer to the adapted storage) is passed to the operations instead. -/
structure Iterator where
  pos_ : Nat
  index_ : Nat
deriving DecidableEq, Repr

namespace Iterator

/-- Operator `operator++()`: `++pos_`. -/
def increment (it : Iterator) : Iterator := { it with pos_ := it.pos_ + 1 }

/-- Member `base()`. -/
def base (it : Iterator) : Nat := it.pos_

/-- Operator `operator*()`: the mirror element is searched with `find` in row/column
`pos_->index()`; `none` stands for a failure of the assertion
`pos2 != matrix_->end( pos_->index() )`. -/
def dereference (it : Iterator) (matrix_ : CompressedMatrix) : Option SymmetricElement :=
  let idx := SymmetricMatrix.indexAt matrix_ it.index_ it.pos_
  let pos2 := if matrix_.rmm then matrix_.find idx it.index_ else matrix_.find it.index_ idx
  if pos2 ≠ matrix_.end_ idx then some ⟨⟨it.index_, it.pos_⟩, ⟨idx, pos2⟩⟩ else none

end Iterator

/-- Member `begin( size_t i )` (mutable): `Iterator( matrix_.begin(i), matrix_, i )`. -/
def SymmetricMatrix.begin (A : SymmetricMatrix) (i : Nat) : Iterator :=
  ⟨A.matrix_.begin i, i⟩

/-- Member `end( size_t i )` (mutable): `Iterator( matrix_.end(i), matrix_, i )`. -/
def SymmetricMatrix.end_ (A : SymmetricMatrix) (i : Nat) : Iterator :=
  ⟨A.matrix_.end_ i, i⟩

/-- The memory a `SymmetricValue` points into: the element value at each address. -/
abbrev Memory := Nat → Int

/-- A write `*a = v`. -/
def Memory.write (mem : Memory) (a : Nat) (v : Int) : Memory :=
  fun b => if b = a then v else mem b

/-- Class `SymmetricValue`: the pointers `v1_` and `v2_` to the two represented values. -/
structure SymmetricValue where
  v1_ : Nat
  v2_ : Nat
deriving DecidableEq, Repr

namespace SymmetricValue

/-- Operator `operator=( const T& v )`: `*v1_ = v; if( v1_ != v2_ ) *v2_ = v;`. -/
def assign (sv : SymmetricValue) (mem : Memory) (v : Int) : Memory :=
  let m1 := mem.write sv.v1_ v
  if sv.v1_ ≠ sv.v2_ then m1.write sv.v2_ v else m1

/-- Operator `operator+=( const T& v )`: `*v1_ += v; if( v1_ != v2_ ) *v2_ += v;`.  The
operand is a reference: `v` is the address of the value it refers to, and that value is
read again for the second update, after the first one has been written. -/
def addAssign (sv : SymmetricValue) (mem : Memory) (v : Nat) : Memory :=
  let m1 := mem.write sv.v1_ (mem sv.v1_ + mem v)
  if sv.v1_ ≠ sv.v2_ then m1.write sv.v2_ (m1 sv.v2_ + m1 v) else m1

/-- Operator `operator-=( const T& v )`: `*v1_ -= v; if( v1_ != v2_ ) *v2_ -= v;`, the
operand read through its reference at each update. -/
def subAssign (sv : SymmetricValue) (mem : Memory) (v : Nat) : Memory :=
  let m1 := mem.write sv.v1_ (mem sv.v1_ - mem v)
  if sv.v1_ ≠ sv.v2_ then m1.write sv.v2_ (m1 sv.v2_ - m1 v) else m1

/-- Operator `operator*=( const T& v )`: `*v1_ *= v; if( v1_ != v2_ ) *v2_ *= v;`, the
operand read through its reference at each update. -/
def mulAssign (sv : SymmetricValue) (mem : Memory) (v : Nat) : Memory :=
  let m1 := mem.write sv.v1_ (mem sv.v1_ * mem v)
  if sv.v1_ ≠ sv.v2_ then m1.write sv.v2_ (m1 sv.v2_ * m1 v) else m1

/-- Operator `operator/=( const T& v )`: `*v1_ /= v; if( v1_ != v2_ ) *v2_ /= v;`, the
operand read through its reference at each update, with the truncating division of the
integer element type; `none` stands for a division by zero, which is undefined. -/
def divAssign (sv : SymmetricValue) (mem : Memory) (v : Nat) : Option Memory :=
  if mem v = 0 then none
  else
    let m1 := mem.write sv.v1_ (Int.tdiv (mem sv.v1_) (mem v))
    if sv.v1_ ≠ sv.v2_ then
      (if m1 v = 0 then none else some (m1.write sv.v2_ (Int.tdiv (m1 sv.v2_) (m1 v))))
    else some m1

/-- Conversion `operator ElementType()`: `*v1_`. -/
def toElement (sv : SymmetricValue) (mem : Memory) : Int := mem sv.v1_

/-- Copy assignment `operator=( const SymmetricValue& sv )`:
`*v1_ = *sv.v1_; if( v1_ != v2_ ) v2_ = *sv.v2_;`.  The second statement assigns to the
pointer member `v2_` itself, not to the value it points to; `toPointer` is the conversion
from the element type to a pointer that this statement applies (for the built-in numeric
element types there is none, and the statement is rejected when the operator is
instantiated).  The result is the memory and the assigned object. -/
def assignCopy (sv1 : SymmetricValue) (mem : Memory) (sv : SymmetricValue)
    (toPointer : Int → Nat) : Memory × SymmetricValue :=
  let m1 := mem.write sv1.v1_ (mem sv.v1_)
  if sv1.v1_ ≠ sv1.v2_ then (m1, { sv1 with v2_ := toPointer (m1 sv.v2_) })
  else (m1, sv1)

end SymmetricValue

/-- A memory of four values: addresses 0 and 1 hold 5, addresses 2 and 3 hold 9. -/
def exampleMemory : Memory := fun a => if a < 2 then 5 else 9

/-! ## Evaluation strategy flags of the expression node -/

/-- The compile-time properties of the operand types `VT` and `MT` that the flags of
`TSVecTDMatMultExpr<VT,MT>` are computed from (the traits `IsComputation` and
`RequiresEvaluation` and the operands' `smpAssignable` flags are taken as parameters). -/
structure OperandTraits where
  vtIsComputation : Bool
  vtRequiresEvaluation : Bool
  mtRequiresEvaluation : Bool
  vtSmpAssignable : Bool
  mtSmpAssignable : Bool
deriving DecidableEq, Repr

namespace OperandTraits

/-- Flag `evaluateVector = IsComputation<VT>::value || RequiresEvaluation<VT>::value`. -/
def evaluateVector (t : OperandTraits) : Bool := t.vtIsComputation || t.vtRequiresEvaluation

/-- Flag `evaluateMatrix = RequiresEvaluation<MT>::value`. -/
def evaluateMatrix (t : OperandTraits) : Bool := t.mtRequiresEvaluation

/-- Flag `useAssign = ( evaluateVector || evaluateMatrix )`. -/
def useAssign (t : OperandTraits) : Bool := t.evaluateVector || t.evaluateMatrix

/-- Helper `UseAssign<VT2>::value = useAssign`. -/
def UseAssign (t : OperandTraits) : Bool := t.useAssign

/-- Helper `UseSMPAssign<T1>::value = useAssign`. -/
def UseSMPAssign (t : OperandTraits) : Bool := t.useAssign

/-- Flag `smpAssignable = !evaluateVector && VT::smpAssignable && !evaluateMatrix &&
MT::smpAssignable`. -/
def smpAssignable (t : OperandTraits) : Bool :=
  !t.evaluateVector && t.vtSmpAssignable && !t.evaluateMatrix && t.mtSmpAssignable

end OperandTraits

/-- Operands of which the sparse vector is a computation: an expression to be evaluated. -/
def exampleTraits : OperandTraits := ⟨true, false, false, true, true⟩

/-! ## ThreadPool: destruction -/

/-- The destructor returns in state `s`: its loop condition `total_ != 0` is false. -/
def ThreadPool.destructorReturns (s : ThreadPool) : Prop := s.destructorBlocks = false

instance (s : ThreadPool) : Decidable s.destructorReturns := by
  unfold ThreadPool.destructorReturns; infer_instance

/-- A run of a pool of two threads up to its destruction: tasks 7, 8 and 9 are scheduled,
7 is in execution and 8 and 9 are queued when the destructor starts; then the idle thread
terminates, task 7 completes and its thread terminates. -/
def exampleDestruction : List ThreadPool.Action :=
  [.schedule 7, .acquire 0, .acquire 1, .schedule 8, .schedule 9, .destroy, .wake 1,
    .finish 0, .acquire 0]

/-- A run of a pool of three threads: three tasks are scheduled and taken into execution,
then the pool is shrunk to one thread while all three threads are busy. -/
def exampleShrink : List ThreadPool.Action :=
  [.schedule 1, .schedule 2, .schedule 3, .acquire 0, .acquire 1, .acquire 2, .resize 1]

/-! ## Bulk assignment kernels of the expression node -/

/-- Member `canSMPAssign()`: `size() > SMP_TSVECTDMATMULT_THRESHOLD`.  The threshold
constant is not among the sources and is taken as a parameter. -/
def TSVecTDMatMultExpr.canSMPAssign (e : TSVecTDMatMultExpr) (threshold : Nat) : Bool :=
  decide (e.size > threshold)

/-- Modelled from the spec: a dense row vector, the target of the assignment kernels — its
elements in order (the dense vector classes are not among the sources). -/
abbrev DenseVector := List Int

/-- Modelled from the spec: `reset( ~lhs )` on a dense vector sets every element to the
default value. -/
def reset (lhs : DenseVector) : DenseVector := lhs.map (fun _ => 0)

namespace TSVecTDMatMultExpr

/-- The product `x * A` of the evaluated operands `LT x( serial( rhs.vec_ ) )` and
`RT A( serial( rhs.mat_ ) )`: the operands hold the same values; the structure traits are
those of the evaluated matrix type `RT`, given by `flags`. -/
def evaluated (rhs : TSVecTDMatMultExpr) (flags : StructureFlags) : TSVecTDMatMultExpr :=
  ⟨rhs.vec_, { rhs.mat_ with flags := flags }⟩

/-- Modelled from the spec: the default assignment of a dense vector expression without a
kernel of its own, element by element through `operator[]`, from index `k` on:
`lhs[k] = op( lhs[k], rhs[k] )`.  The result is `none` when an element access is
undefined. -/
def elementwise (op : Int → Int → Int) (rhs : TSVecTDMatMultExpr) :
    Nat → DenseVector → Option DenseVector
  | _, [] => some []
  | k, v :: rest =>
    match rhs.subscript k, elementwise op rhs (k + 1) rest with
    | some r, some tl => some (op v r :: tl)
    | _, _ => none

/-- Kernel `assign( DenseVector& lhs, const TSVecTDMatMultExpr& rhs )`: the vector operand
is evaluated; without stored elements the target is reset; otherwise the matrix operand is
evaluated and `assign( ~lhs, x * A )` runs on the evaluated operands. -/
def assign (flags : StructureFlags) (lhs : DenseVector) (rhs : TSVecTDMatMultExpr) :
    Option DenseVector :=
  let x := rhs.vec_
  if x.nonZeros = 0 then some (reset lhs)
  else elementwise (fun _ r => r) (rhs.evaluated flags) 0 lhs

/-- Kernel `addAssign( DenseVector& lhs, const TSVecTDMatMultExpr& rhs )`. -/
def addAssign (flags : StructureFlags) (lhs : DenseVector) (rhs : TSVecTDMatMultExpr) :
    Option DenseVector :=
  let x := rhs.vec_
  if x.nonZeros = 0 then some lhs
  else elementwise (fun v r => v + r) (rhs.evaluated flags) 0 lhs

/-- Kernel `subAssign( DenseVector& lhs, const TSVecTDMatMultExpr& rhs )`. -/
def subAssign (flags : StructureFlags) (lhs : DenseVector) (rhs : TSVecTDMatMultExpr) :
    Option DenseVector :=
  let x := rhs.vec_
  if x.nonZeros = 0 then some lhs
  else elementwise (fun v r => v - r) (rhs.evaluated flags) 0 lhs

/-- Kernel `multAssign( DenseVector& lhs, const TSVecTDMatMultExpr& rhs )`:
`const ResultType tmp( serial( rhs ) ); multAssign( ~lhs, tmp );` — the expression is
assigned to a new vector of its size, which is then multiplied into the target element by
element. -/
def multAssign (flags : StructureFlags) (lhs : DenseVector) (rhs : TSVecTDMatMultExpr) :
    Option DenseVector :=
  match assign flags (List.replicate rhs.size 0) rhs with
  | some tmp => some (List.zipWith (fun v r => v * r) lhs tmp)
  | none => none

end TSVecTDMatMultExpr

/-- A dense matrix type that is both strictly lower and strictly upper. -/
def exampleStrict : DenseMatrix :=
  ⟨⟨true, true, true, true⟩, 4, 4, fun _ _ => 0⟩

/-! ## Lemmas on sparse lines -/

namespace Line

theorem lowerBound_le_length (l : List Element) (k : Nat) : lowerBound l k ≤ l.length := by
  induction l with
  | nil => simp [lowerBound]
  | cons e l ih => simp only [lowerBound]; split <;> (simp; try omega)

theorem upperBound_le_length (l : List Element) (k : Nat) : upperBound l k ≤ l.length := by
  induction l with
  | nil => simp [upperBound]
  | cons e l ih => simp only [upperBound]; split <;> (simp; try omega)

theorem lowerBound_le_upperBound (l : List Element) (k : Nat) :
    lowerBound l k ≤ upperBound l k := by
  induction l with
  | nil => simp [lowerBound]
  | cons e l ih =>
    simp only [lowerBound, upperBound]
    split
    · rw [if_pos (by omega)]; omega
    · omega

theorem take_lowerBound_lt (l : List Element) (k : Nat) :
    ∀ e ∈ l.take (lowerBound l k), e.index < k := by
  induction l with
  | nil => simp
  | cons a l ih =>
    simp only [lowerBound]
    split
    · intro e he
      simp only [List.take_succ_cons, List.mem_cons] at he
      rcases he with rfl | he
      · assumption
      · exact ih e he
    · simp

theorem take_upperBound_le (l : List Element) (k : Nat) :
    ∀ e ∈ l.take (upperBound l k), e.index ≤ k := by
  induction l with
  | nil => simp
  | cons a l ih =>
    simp only [upperBound]
    split
    · intro e he
      simp only [List.take_succ_cons, List.mem_cons] at he
      rcases he with rfl | he
      · assumption
      · exact ih e he
    · simp

theorem drop_lowerBound_ge (l : List Element)
    (hs : l.Pairwise (fun a b => a.index < b.index)) (k : Nat) :
    ∀ e ∈ l.drop (lowerBound l k), k ≤ e.index := by
  induction l with
  | nil => simp
  | cons a l ih =>
    rw [List.pairwise_cons] at hs
    simp only [lowerBound]
    split
    · intro e he
      simp only [List.drop_succ_cons] at he
      exact ih hs.2 e he
    · intro e he
      simp only [List.drop_zero, List.mem_cons] at he
      rcases he with rfl | he
      · omega
      · have := hs.1 e he
        omega

theorem drop_upperBound_gt (l : List Element)
    (hs : l.Pairwise (fun a b => a.index < b.index)) (k : Nat) :
    ∀ e ∈ l.drop (upperBound l k), k < e.index := by
  induction l with
  | nil => simp
  | cons a l ih =>
    rw [List.pairwise_cons] at hs
    simp only [upperBound]
    split
    · intro e he
      simp only [List.drop_succ_cons] at he
      exact ih hs.2 e he
    · intro e he
      simp only [List.drop_zero, List.mem_cons] at he
      rcases he with rfl | he
      · omega
      · have := hs.1 e he
        omega

theorem stored_eq_none_of_forall_ne (l : List Element) (j : Nat)
    (h : ∀ e ∈ l, e.index ≠ j) : stored l j = none := by
  induction l with
  | nil => rfl
  | cons a l ih =>
    simp only [stored]
    rw [if_neg (h a (List.mem_cons_self _ _))]
    exact ih (fun e he => h e (List.mem_cons_of_mem _ he))

theorem stored_cons_self_tail (a : Element) (l : List Element)
    (hs : (a :: l).Pairwise (fun a b => a.index < b.index)) : stored l a.index = none := by
  rw [List.pairwise_cons] at hs
  exact stored_eq_none_of_forall_ne l a.index (fun e he => by have := hs.1 e he; omega)

/-- The sum of the products over the stored elements of a well-formed line equals the dense
sum over all indices below the bound. -/
theorem sum_map_eq_sum_range (f : Nat → Int) (n : Nat) (l : List Element) (h : WF n l) :
    (l.map (fun e => e.value * f e.index)).sum = ∑ i in Finset.range n, get l i * f i := by
  induction l with
  | nil => simp [get, stored]
  | cons a l ih =>
    have hs := h.1
    have hb := h.2
    have htail : WF n l := ⟨(List.pairwise_cons.mp hs).2, fun e he => hb e (List.mem_cons_of_mem _ he)⟩
    have hnone := stored_cons_self_tail a l hs
    have ha : a.index < n := hb a (List.mem_cons_self _ _)
    have hpt : ∀ i ∈ Finset.range n, get (a :: l) i * f i
        = (if a.index = i then a.value * f i else 0) + get l i * f i := by
      intro i _
      simp only [get, stored]
      by_cases hi : a.index = i
      · subst hi
        simp [hnone]
      · simp [hi]
    rw [List.map_cons, List.sum_cons, ih htail, Finset.sum_congr rfl hpt, Finset.sum_add_distrib,
      Finset.sum_ite_eq]
    simp [ha]

end Line

/-! ## Lemmas on the expression node -/

namespace TSVecTDMatMultExpr

theorem foldl_add_eq (g : Element → Int) (rest : List Element) (init : Int) :
    rest.foldl (fun res el => res + g el) init = init + (rest.map g).sum := by
  induction rest generalizing init with
  | nil => simp
  | cons a l ih => simp [List.foldl_cons, ih, add_assoc]

theorem accumulate_eq_sum (A : DenseMatrix) (k : Nat) (l : List Element) :
    accumulate A k l = (l.map (fun e => e.value * A.get e.index k)).sum := by
  cases l with
  | nil => rfl
  | cons a l => simp [accumulate, foldl_add_eq (fun el => el.value * A.get el.index k)]

theorem sum_map_eq_zero (A : DenseMatrix) (k : Nat) (l : List Element)
    (h : ∀ e ∈ l, A.get e.index k = 0) :
    (l.map (fun e => e.value * A.get e.index k)).sum = 0 := by
  induction l with
  | nil => rfl
  | cons a l ih =>
    rw [List.map_cons, List.sum_cons, ih (fun e he => h e (List.mem_cons_of_mem _ he)),
      h a (List.mem_cons_self _ _)]
    simp

/-- Splitting a list at two positions `s ≤ t`. -/
theorem split_three (l : List Element) (s t : Nat) (h : s ≤ t) :
    l = l.take s ++ ((l.drop s).take (t - s) ++ l.drop t) := by
  have h1 : (l.drop s).drop (t - s) = l.drop t := by
    rw [List.drop_drop]; congr 1; omega
  rw [← h1, List.take_append_drop, List.take_append_drop]

/-- The value of `operator[]` once the start position is known not to lie behind the end
position: the sum of the products over all stored elements, provided the skipped elements
pair with zero matrix entries. -/
theorem subscript_eq_of_skipped_zero (x : CompressedVector) (A : DenseMatrix) (k : Nat)
    (hx : x.WF) (hle : startPos ⟨x, A⟩ k ≤ endPos ⟨x, A⟩ k)
    (hfront : ∀ e ∈ x.elems.take (startPos ⟨x, A⟩ k), A.get e.index k = 0)
    (hback : ∀ e ∈ x.elems.drop (endPos ⟨x, A⟩ k), A.get e.index k = 0) :
    subscript ⟨x, A⟩ k = some (dotColumn x A k) := by
  unfold subscript
  simp only
  rw [if_neg (by omega)]
  congr 1
  rw [accumulate_eq_sum, dotColumn]
  have hsum := Line.sum_map_eq_sum_range (fun i => A.get i k) x.size x.elems hx
  simp only [CompressedVector.get]
  rw [← hsum]
  conv_rhs => rw [split_three x.elems _ _ hle]
  rw [List.map_append, List.map_append, List.sum_append, List.sum_append,
    sum_map_eq_zero A k _ hfront, sum_map_eq_zero A k _ hback]
  simp

end TSVecTDMatMultExpr

/-! ## Claims on the expression node -/

/-- C4: for a sparse row vector `x` of size `n`, a column-major dense matrix `A` (`n × m`)
whose type carries no lower/upper structure flag and `k < m`, `operator[](k)` returns the
sum over all `i` of `x[i] * A(i,k)`; when `x` has no stored entries the result is the
additive identity `0`. -/
theorem C4_subscript_unstructured (x : CompressedVector) (A : DenseMatrix) (k : Nat)
    (hx : x.WF) (hsize : x.size = A.rows) (_hk : k < A.columns)
    (hL : A.flags.IsLower = false) (hU : A.flags.IsUpper = false) :
    TSVecTDMatMultExpr.subscript ⟨x, A⟩ k
        = some (∑ i in Finset.range A.rows, x.get i * A.get i k)
      ∧ (x.nonZeros = 0 → TSVecTDMatMultExpr.subscript ⟨x, A⟩ k = some 0) := by
  have hs : TSVecTDMatMultExpr.startPos ⟨x, A⟩ k = 0 := by
    simp [TSVecTDMatMultExpr.startPos, hL, CompressedVector.begin]
  have he : TSVecTDMatMultExpr.endPos ⟨x, A⟩ k = x.elems.length := by
    simp [TSVecTDMatMultExpr.endPos, hU, CompressedVector.end_]
  have main := TSVecTDMatMultExpr.subscript_eq_of_skipped_zero x A k hx
    (by rw [hs]; exact Nat.zero_le _) (by rw [hs]; simp) (by rw [he]; simp)
  refine ⟨by rw [main, dotColumn, hsize], ?_⟩
  intro hz
  have hnil : x.elems = [] := List.length_eq_zero.mp hz
  simp [TSVecTDMatMultExpr.subscript, TSVecTDMatMultExpr.startPos, TSVecTDMatMultExpr.endPos,
    hL, hU, CompressedVector.begin, CompressedVector.end_, hnil,
    TSVecTDMatMultExpr.accumulate]

/-- C4 at a concrete input: a vector with three stored entries against a 4 × 2 matrix. -/
theorem C4_subscript_unstructured_witness :
    TSVecTDMatMultExpr.subscript
        ⟨⟨4, [⟨0, 2⟩, ⟨2, 3⟩, ⟨3, -1⟩]⟩, ⟨⟨false, false, false, false⟩, 4, 2, fun i j => (i : Int) + 10 * j⟩⟩ 1
        = some (∑ i in Finset.range 4,
            (CompressedVector.get ⟨4, [⟨0, 2⟩, ⟨2, 3⟩, ⟨3, -1⟩]⟩ i) * ((i : Int) + 10 * (1 : Nat)))
      ∧ ((CompressedVector.nonZeros ⟨4, [⟨0, 2⟩, ⟨2, 3⟩, ⟨3, -1⟩]⟩ = 0) →
          TSVecTDMatMultExpr.subscript
            ⟨⟨4, [⟨0, 2⟩, ⟨2, 3⟩, ⟨3, -1⟩]⟩, ⟨⟨false, false, false, false⟩, 4, 2, fun i j => (i : Int) + 10 * j⟩⟩ 1
            = some 0) :=
  C4_subscript_unstructured ⟨4, [⟨0, 2⟩, ⟨2, 3⟩, ⟨3, -1⟩]⟩
    ⟨⟨false, false, false, false⟩, 4, 2, fun i j => (i : Int) + 10 * j⟩ 1
    (by decide) rfl (by decide) rfl rfl

/-- C5: for a matrix whose entries outside the triangle declared by its structure flags are
zero (the diagonal included when the flag is strict), `operator[](k)` — which then sums only
the vector entries with index `<= k` (upper), `< k` (strictly upper), `>= k` (lower) or
`> k` (strictly lower) — returns the unrestricted sum over all `i` of `x[i] * A(i,k)`.  The
two strict flags are not both set. -/
theorem C5_subscript_structured (x : CompressedVector) (A : DenseMatrix) (k : Nat)
    (hx : x.WF) (hA : A.RespectsFlags)
    (hstrict : ¬ (A.flags.IsStrictlyLower = true ∧ A.flags.IsStrictlyUpper = true)) :
    TSVecTDMatMultExpr.subscript ⟨x, A⟩ k = some (dotColumn x A k) := by
  obtain ⟨hL, hSL, hU, hSU⟩ := hA
  have hlen1 := Line.lowerBound_le_length x.elems k
  have hlen2 := Line.upperBound_le_length x.elems k
  have hlu := Line.lowerBound_le_upperBound x.elems k
  apply TSVecTDMatMultExpr.subscript_eq_of_skipped_zero x A k hx
  · simp only [TSVecTDMatMultExpr.startPos, TSVecTDMatMultExpr.endPos,
      CompressedVector.lowerBound, CompressedVector.upperBound, CompressedVector.begin,
      CompressedVector.end_]
    split <;> split <;> (try split) <;> (try split) <;> simp_all
  · simp only [TSVecTDMatMultExpr.startPos, CompressedVector.lowerBound,
      CompressedVector.upperBound, CompressedVector.begin]
    intro e he
    split at he
    · split at he
      · rename_i _ h2
        exact hSL h2 _ _ (Line.take_upperBound_le x.elems k e he)
      · rename_i h1 _
        exact hL h1 _ _ (Line.take_lowerBound_lt x.elems k e he)
    · simp at he
  · simp only [TSVecTDMatMultExpr.endPos, CompressedVector.lowerBound,
      CompressedVector.upperBound, CompressedVector.end_]
    intro e he
    split at he
    · split at he
      · rename_i _ h2
        exact hSU h2 _ _ (Line.drop_lowerBound_ge x.elems hx.1 k e he)
      · rename_i h1 _
        exact hU h1 _ _ (Line.drop_upperBound_gt x.elems hx.1 k e he)
    · simp at he

/-- C5 at a concrete input: an upper triangular 4 × 4 matrix, column 2. -/
theorem C5_subscript_structured_witness :
    TSVecTDMatMultExpr.subscript ⟨exampleVector, exampleUpper⟩ 2
      = some (dotColumn exampleVector exampleUpper 2) :=
  C5_subscript_structured exampleVector exampleUpper 2 (by decide)
    ⟨(fun h => nomatch h), (fun h => nomatch h),
      (fun _ i k hik => by simp [exampleUpper, hik]), (fun h => nomatch h)⟩
    (by decide)

/-! ## Lemmas on the line primitives of the storage -/

namespace Line

theorem WF_nil (b : Nat) : WF b [] := ⟨List.Pairwise.nil, by simp⟩

theorem WF_tail {b : Nat} {e : Element} {l : List Element} (h : WF b (e :: l)) : WF b l :=
  ⟨(List.pairwise_cons.mp h.1).2, fun x hx => h.2 x (List.mem_cons_of_mem _ hx)⟩

theorem stored_eq_none_of_WF {b : Nat} {l : List Element} (h : WF b l) {x : Nat}
    (hx : b ≤ x) : stored l x = none :=
  stored_eq_none_of_forall_ne l x (fun e he => by have := h.2 e he; omega)

theorem stored_set (l : List Element) (j : Nat) (v : Int) (x : Nat) :
    stored (set l j v) x = if x = j then some v else stored l x := by
  induction l with
  | nil =>
    simp only [set, stored]
    by_cases h : j = x
    · simp [h]
    · rw [if_neg h, if_neg (fun h2 => h h2.symm)]
  | cons e l ih =>
    simp only [set]
    split
    · rename_i h1
      simp only [stored]
      by_cases h : j = x
      · simp [h]
      · rw [if_neg h, if_neg (fun h2 => h h2.symm), if_neg (by omega)]
    · split
      · simp only [stored]
        by_cases h : j = x
        · simp [h]
        · have h2 : ¬ x = j := fun h2 => h h2.symm
          simp [h, h2]
      · simp only [stored, ih]
        by_cases h : e.index = x
        · rw [if_pos h, if_pos h, if_neg (by omega)]
        · rw [if_neg h, if_neg h]

theorem mem_set {l : List Element} {j : Nat} {v : Int} {x : Element}
    (hx : x ∈ set l j v) : x = ⟨j, v⟩ ∨ x ∈ l := by
  induction l with
  | nil => simp only [set, List.mem_singleton] at hx; exact Or.inl hx
  | cons e l ih =>
    simp only [set] at hx
    split at hx
    · rcases List.mem_cons.mp hx with h | h
      · exact Or.inl h
      · exact Or.inr (List.mem_cons_of_mem _ h)
    · split at hx
      · rcases List.mem_cons.mp hx with h | h
        · exact Or.inl h
        · exact Or.inr h
      · rcases List.mem_cons.mp hx with h | h
        · exact Or.inr (h ▸ List.mem_cons_self _ _)
        · rcases ih h with h2 | h2
          · exact Or.inl h2
          · exact Or.inr (List.mem_cons_of_mem _ h2)

theorem WF_set {b : Nat} {l : List Element} (h : WF b l) {j : Nat} (hj : j < b) (v : Int) :
    WF b (set l j v) := by
  refine ⟨?_, ?_⟩
  · induction l with
    | nil => simp [set]
    | cons e l ih =>
      have hp := List.pairwise_cons.mp h.1
      simp only [set]
      split
      · rename_i h1
        exact List.pairwise_cons.mpr ⟨fun x hx => by have := hp.1 x hx; simp only; omega, hp.2⟩
      · split
        · rename_i h1 h2
          refine List.pairwise_cons.mpr ⟨fun x hx => ?_, h.1⟩
          rcases List.mem_cons.mp hx with rfl | hx
          · exact h2
          · have := hp.1 x hx
            simp only
            omega
        · rename_i h1 h2
          refine List.pairwise_cons.mpr ⟨fun x hx => ?_, ih (WF_tail h)⟩
          rcases mem_set hx with rfl | hx
          · simp only
            omega
          · exact hp.1 x hx
  · intro x hx
    rcases mem_set hx with rfl | hx
    · exact hj
    · exact h.2 x hx

theorem stored_insert (l : List Element) (j : Nat) (v : Int) (hn : stored l j = none)
    (x : Nat) : stored (insert l j v) x = if x = j then some v else stored l x := by
  induction l with
  | nil =>
    simp only [insert, stored]
    by_cases h : j = x
    · simp [h]
    · rw [if_neg h, if_neg (fun h2 => h h2.symm)]
  | cons e l ih =>
    simp only [stored] at hn
    split at hn
    · cases hn
    · rename_i hne
      simp only [insert]
      split
      · simp only [stored]
        by_cases h : j = x
        · simp [h]
        · have h2 : ¬ x = j := fun h2 => h h2.symm
          simp [h, h2]
      · simp only [stored, ih hn]
        by_cases h : e.index = x
        · rw [if_pos h, if_pos h, if_neg (by omega)]
        · rw [if_neg h, if_neg h]

theorem mem_insert {l : List Element} {j : Nat} {v : Int} {x : Element}
    (hx : x ∈ insert l j v) : x = ⟨j, v⟩ ∨ x ∈ l := by
  induction l with
  | nil => simp only [insert, List.mem_singleton] at hx; exact Or.inl hx
  | cons e l ih =>
    simp only [insert] at hx
    split at hx
    · rcases List.mem_cons.mp hx with h | h
      · exact Or.inl h
      · exact Or.inr h
    · rcases List.mem_cons.mp hx with h | h
      · exact Or.inr (h ▸ List.mem_cons_self _ _)
      · rcases ih h with h2 | h2
        · exact Or.inl h2
        · exact Or.inr (List.mem_cons_of_mem _ h2)

theorem WF_insert {b : Nat} {l : List Element} (h : WF b l) {j : Nat} (hj : j < b) (v : Int)
    (hn : stored l j = none) : WF b (insert l j v) := by
  refine ⟨?_, ?_⟩
  · induction l with
    | nil => simp [insert]
    | cons e l ih =>
      have hp := List.pairwise_cons.mp h.1
      simp only [stored] at hn
      split at hn
      · cases hn
      · rename_i hne
        simp only [insert]
        split
        · rename_i h2
          refine List.pairwise_cons.mpr ⟨fun x hx => ?_, h.1⟩
          rcases List.mem_cons.mp hx with rfl | hx
          · exact h2
          · have := hp.1 x hx
            simp only
            omega
        · rename_i h2
          refine List.pairwise_cons.mpr ⟨fun x hx => ?_, ih (WF_tail h) hn⟩
          rcases mem_insert hx with rfl | hx
          · simp only
            omega
          · exact hp.1 x hx
  · intro x hx
    rcases mem_insert hx with rfl | hx
    · exact hj
    · exact h.2 x hx

theorem find_le_length (l : List Element) (j : Nat) : find l j ≤ l.length := by
  induction l with
  | nil => simp [find]
  | cons e l ih => simp only [find]; split <;> (simp; try omega)

theorem find_eq_length_iff (l : List Element) (j : Nat) :
    find l j = l.length ↔ stored l j = none := by
  induction l with
  | nil => simp [find, stored]
  | cons e l ih =>
    simp only [find, stored]
    split
    · simp
    · simp [ih]

theorem stored_erase_find (l : List Element)
    (hs : l.Pairwise (fun a b => a.index < b.index)) (j x : Nat) :
    stored (erase l (find l j)) x = if x = j then none else stored l x := by
  induction l with
  | nil => simp [erase, find, stored]
  | cons e l ih =>
    have hp := List.pairwise_cons.mp hs
    simp only [find, erase]
    split
    · rename_i h1
      simp only [List.eraseIdx_cons_zero, stored]
      by_cases h : x = j
      · rw [if_pos h, h, ← h1]
        exact stored_cons_self_tail e l hs
      · rw [if_neg h, if_neg (by omega)]
    · rename_i h1
      simp only [List.eraseIdx_cons_succ, stored]
      have ih2 := ih hp.2
      simp only [erase] at ih2
      rw [ih2]
      by_cases h : e.index = x
      · rw [if_pos h, if_neg (by omega), if_pos h]
      · rw [if_neg h, if_neg h]

theorem WF_erase {b : Nat} {l : List Element} (h : WF b l) (p : Nat) : WF b (erase l p) :=
  ⟨h.1.sublist (List.eraseIdx_sublist l p),
    fun x hx => h.2 x ((List.eraseIdx_sublist l p).subset hx)⟩

theorem find_index_getD (l : List Element)
    (hs : l.Pairwise (fun a b => a.index < b.index)) (p : Nat) (hp : p < l.length)
    (d : Element) : find l (l.getD p d).index = p := by
  induction l generalizing p with
  | nil => simp at hp
  | cons e l ih =>
    have hpw := List.pairwise_cons.mp hs
    cases p with
    | zero => simp [find]
    | succ p =>
      have hp2 : p < l.length := by simpa using hp
      have hmem : l.getD p d ∈ l := by
        rw [List.getD_eq_getElem l d hp2]
        exact List.getElem_mem hp2
      have := hpw.1 _ hmem
      simp only [List.getD_cons_succ, find]
      rw [if_neg (by omega), ih hpw.2 p hp2]

theorem stored_append (a b : List Element) (x : Nat) :
    stored (a ++ b) x = (stored a x).orElse (fun _ => stored b x) := by
  induction a with
  | nil => simp [stored]
  | cons e a ih =>
    simp only [List.cons_append, stored]
    split
    · simp
    · exact ih

theorem stored_isSome_iff (l : List Element) (x : Nat) :
    (stored l x).isSome = true ↔ x ∈ l.map (fun e => e.index) := by
  induction l with
  | nil => simp [stored]
  | cons e l ih =>
    simp only [stored, List.map_cons, List.mem_cons]
    split
    · rename_i h; simp [h]
    · rename_i h
      rw [ih]
      constructor
      · exact Or.inr
      · rintro (h2 | h2)
        · exact absurd h2.symm h
        · exact h2

theorem stored_eq_none_iff (l : List Element) (x : Nat) :
    stored l x = none ↔ x ∉ l.map (fun e => e.index) := by
  rw [← stored_isSome_iff]
  cases stored l x <;> simp

theorem take_append_drop_sublist (l : List Element) (f t : Nat) (hft : f ≤ t) :
    (l.take f ++ l.drop t).Sublist l := by
  have h := TSVecTDMatMultExpr.split_three l f t hft
  conv_rhs => rw [h]
  exact List.Sublist.append (List.Sublist.refl _) (List.sublist_append_right _ _)

theorem WF_eraseRange {b : Nat} {l : List Element} (h : WF b l) (f t : Nat) :
    WF b (eraseRange l f t) := by
  unfold eraseRange
  split
  · rename_i hft
    have hsub := take_append_drop_sublist l f t (Nat.le_of_lt hft)
    exact ⟨h.1.sublist hsub, fun x hx => h.2 x (hsub.subset hx)⟩
  · exact h

theorem stored_eraseRange (l : List Element)
    (hs : l.Pairwise (fun a b => a.index < b.index)) (f t : Nat) (hft : f ≤ t) (x : Nat) :
    stored (eraseRange l f t) x
      = if x ∈ ((l.drop f).take (t - f)).map (fun e => e.index) then none else stored l x := by
  unfold eraseRange
  by_cases hlt : f < t
  · rw [if_pos hlt]
    have hsplit := TSVecTDMatMultExpr.split_three l f t hft
    rw [hsplit, List.pairwise_append] at hs
    obtain ⟨_, hBC, hA⟩ := hs
    rw [List.pairwise_append] at hBC
    obtain ⟨_, _, hB⟩ := hBC
    have hl : stored l x = (stored (l.take f) x).orElse (fun _ =>
        (stored ((l.drop f).take (t - f)) x).orElse (fun _ => stored (l.drop t) x)) := by
      conv_lhs => rw [hsplit]
      rw [stored_append, stored_append]
    rw [hl, stored_append]
    by_cases hx : x ∈ ((l.drop f).take (t - f)).map (fun e => e.index)
    · rw [if_pos hx]
      obtain ⟨eb, heb, rfl⟩ := List.mem_map.mp hx
      have h1 : stored (l.take f) eb.index = none :=
        stored_eq_none_of_forall_ne _ _ (fun a ha => by
          have := hA a ha eb (List.mem_append_left _ heb); omega)
      have h2 : stored (l.drop t) eb.index = none :=
        stored_eq_none_of_forall_ne _ _ (fun c hc => by
          have := hB eb heb c hc; omega)
      simp [h1, h2]
    · rw [if_neg hx]
      have h3 := (stored_eq_none_iff _ _).mpr hx
      simp [h3]
  · have hEq : t - f = 0 := by omega
    rw [if_neg hlt, hEq]
    simp

theorem stored_ofValues (f : Nat → Int) (xs : List Nat) (x : Nat) :
    stored (ofValues f xs) x = if x ∈ xs ∧ f x ≠ 0 then some (f x) else none := by
  induction xs with
  | nil => simp [ofValues, stored]
  | cons a xs ih =>
    unfold ofValues at ih ⊢
    rw [List.filterMap_cons]
    by_cases hz : f a = 0
    · simp only [hz, if_true, ih, List.mem_cons]
      by_cases hxa : x = a
      · subst hxa
        simp [hz]
      · simp [hxa]
    · simp only [hz, if_false, stored, ih, List.mem_cons]
      by_cases hxa : a = x
      · subst hxa
        simp [hz]
      · have hxa2 : ¬ x = a := fun h => hxa h.symm
        simp [hxa, hxa2]

theorem WF_ofValues (f : Nat → Int) (xs : List Nat) (b : Nat)
    (hs : xs.Pairwise (fun a c => a < c)) (hb : ∀ x ∈ xs, x < b) : WF b (ofValues f xs) := by
  refine ⟨?_, ?_⟩
  · unfold ofValues
    refine List.Pairwise.filterMap _ ?_ hs
    intro a c hac u hu w hw
    by_cases h1 : f a = 0
    · simp [h1] at hu
    · by_cases h2 : f c = 0
      · simp [h2] at hw
      · simp only [h1, h2, if_false, Option.mem_def, Option.some.injEq] at hu hw
        subst hu hw
        exact hac
  · intro e he
    unfold ofValues at he
    obtain ⟨a, ha, hfa⟩ := List.mem_filterMap.mp he
    by_cases h1 : f a = 0
    · simp [h1] at hfa
    · simp only [h1, if_false, Option.some.injEq] at hfa
      subst hfa
      exact hb a ha

theorem stored_filter (l : List Element) (b x : Nat) :
    stored (l.filter (fun e => decide (e.index < b))) x
      = if x < b then stored l x else none := by
  induction l with
  | nil => simp [stored]
  | cons e l ih =>
    rw [List.filter_cons]
    by_cases he : e.index < b
    · simp only [he, decide_True, if_true, stored, ih]
      by_cases hx : e.index = x
      · rw [if_pos hx, if_pos hx, if_pos (by omega)]
      · rw [if_neg hx, if_neg hx]
    · simp only [he, decide_False, stored, ih]
      by_cases hxb : x < b
      · have hx : ¬ e.index = x := by omega
        simp [hxb, hx, ih]
      · simp [hxb, ih]

theorem WF_filter {b : Nat} {l : List Element} (h : WF b l) (c : Nat) :
    WF c (l.filter (fun e => decide (e.index < c))) :=
  ⟨h.1.filter _, fun e he => by simpa using (List.mem_filter.mp he).2⟩

theorem WF_map {b : Nat} {l : List Element} (h : WF b l) (g : Element → Element)
    (hg : ∀ e, (g e).index = e.index) : WF b (l.map g) := by
  refine ⟨?_, ?_⟩
  · rw [List.pairwise_map]
    exact h.1.imp (fun {a c} hac => by rw [hg a, hg c]; exact hac)
  · intro e he
    obtain ⟨a, ha, rfl⟩ := List.mem_map.mp he
    rw [hg a]
    exact h.2 a ha

theorem stored_mapValues (l : List Element) (f : Int → Int) (x : Nat) :
    stored (l.map (fun e => (⟨e.index, f e.value⟩ : Element))) x = (stored l x).map f := by
  induction l with
  | nil => simp [stored]
  | cons e l ih =>
    simp only [List.map_cons, stored, ih]
    split <;> simp

theorem stored_mapDiagonal (l : List Element) (k : Nat) (s : Int) (x : Nat) :
    stored (l.map (fun e => if e.index = k then (⟨e.index, e.value * s⟩ : Element) else e)) x
      = if x = k then (stored l x).map (fun v => v * s) else stored l x := by
  induction l with
  | nil => simp [stored]
  | cons e l ih =>
    simp only [List.map_cons, stored, ih]
    by_cases hk : e.index = k
    · simp only [hk, if_true]
      by_cases hx : k = x
      · simp [hx]
      · have hx2 : ¬ x = k := fun h => hx h.symm
        simp [hx, hx2]
    · simp only [hk, if_false]
      by_cases hx : e.index = x
      · have hx2 : ¬ x = k := fun h => hk (hx.trans h)
        simp [hx, hx2]
      · simp [hx]

theorem set_eq_insert (l : List Element) (j : Nat) (v : Int)
    (hn : stored l j = none) : set l j v = insert l j v := by
  induction l with
  | nil => rfl
  | cons e l ih =>
    simp only [stored] at hn
    split at hn
    · cases hn
    · rename_i hne
      simp only [set, insert, if_neg hne, ih hn]

end Line
/-! ## Lemmas on the storage -/

namespace CompressedMatrix

theorem line_of_length_le (M : CompressedMatrix) (k : Nat) (hk : M.lines.length ≤ k) :
    M.line k = [] := by
  unfold line
  rw [List.getD_eq_getElem?_getD, List.getElem?_eq_none hk]
  rfl

theorem line_mem (M : CompressedMatrix) (k : Nat) (hk : k < M.lines.length) :
    M.line k ∈ M.lines := by
  unfold line
  rw [List.getD_eq_getElem _ _ hk]
  exact List.getElem_mem hk

theorem line_setLine (M : CompressedMatrix) (k : Nat) (l : List Element) (k2 : Nat) :
    (M.setLine k l).line k2 = if k2 = k ∧ k < M.lines.length then l else M.line k2 := by
  unfold line setLine
  simp only [List.getD_eq_getElem?_getD, List.getElem?_set]
  by_cases h : k = k2
  · subst h
    by_cases h2 : k < M.lines.length
    · simp [h2]
    · simp [h2, List.getElem?_eq_none (Nat.le_of_not_lt h2)]
  · have h3 : ¬ k2 = k := fun h3 => h h3.symm
    simp [h, h3]

theorem WF_line {M : CompressedMatrix} (h : M.WF) (k : Nat) :
    Line.WF M.lineBound (M.line k) := by
  by_cases hk : k < M.lines.length
  · exact h.2 _ (M.line_mem k hk)
  · rw [M.line_of_length_le k (by omega)]
    exact Line.WF_nil _

theorem WF_of_lines {M : CompressedMatrix} (hlen : M.lines.length = M.lineCount)
    (h : ∀ k, Line.WF M.lineBound (M.line k)) : M.WF := by
  refine ⟨hlen, fun l hl => ?_⟩
  obtain ⟨k, hk, rfl⟩ := List.getElem_of_mem hl
  have := h k
  unfold line at this
  rwa [List.getD_eq_getElem _ _ hk] at this

theorem WF_setLine {M : CompressedMatrix} (h : M.WF) (k : Nat) {l : List Element}
    (hl : Line.WF M.lineBound l) : (M.setLine k l).WF := by
  apply WF_of_lines
  · simpa [setLine, lineCount] using h.1
  · intro k2
    rw [line_setLine]
    split
    · exact hl
    · exact WF_line h k2

theorem cell_setLine (M : CompressedMatrix) (k : Nat) (l : List Element) (k2 x : Nat) :
    (M.setLine k l).cell k2 x
      = if k2 = k ∧ k < M.lines.length then Line.stored l x else M.cell k2 x := by
  unfold cell
  rw [line_setLine]
  split <;> rfl

theorem cell_of_line_ge {M : CompressedMatrix} (h : M.WF) (k x : Nat)
    (hk : M.lineCount ≤ k) : M.cell k x = none := by
  unfold cell
  rw [M.line_of_length_le k (by rw [h.1]; exact hk)]
  rfl

theorem cell_of_index_ge {M : CompressedMatrix} (h : M.WF) (k x : Nat)
    (hx : M.lineBound ≤ x) : M.cell k x = none :=
  Line.stored_eq_none_of_WF (WF_line h k) hx

theorem cell_of_lines_length_le (M : CompressedMatrix) (k x : Nat)
    (hk : M.lines.length ≤ k) : M.cell k x = none := by
  unfold cell
  rw [M.line_of_length_le k hk]
  rfl

/-! ### `set`, `insert`, `erase` in line coordinates -/

theorem cell_setCell (M : CompressedMatrix) (k x : Nat) (v : Int) (hk : k < M.lines.length)
    (k2 x2 : Nat) :
    (M.setCell k x v).cell k2 x2 = if k2 = k ∧ x2 = x then some v else M.cell k2 x2 := by
  unfold setCell
  rw [cell_setLine, Line.stored_set]
  by_cases h1 : k2 = k
  · subst h1
    by_cases h2 : x2 = x
    · simp [hk, h2]
    · simp [hk, h2, cell]
  · simp [h1]

theorem WF_setCell {M : CompressedMatrix} (h : M.WF) (k : Nat) {x : Nat}
    (hx : x < M.lineBound) (v : Int) : (M.setCell k x v).WF :=
  WF_setLine h k (Line.WF_set (WF_line h k) hx v)

theorem cell_insertCell (M : CompressedMatrix) (k x : Nat) (v : Int) (hk : k < M.lines.length)
    (hn : M.cell k x = none) (k2 x2 : Nat) :
    (M.insertCell k x v).cell k2 x2 = if k2 = k ∧ x2 = x then some v else M.cell k2 x2 := by
  unfold insertCell
  rw [cell_setLine, Line.stored_insert _ _ _ hn]
  by_cases h1 : k2 = k
  · subst h1
    by_cases h2 : x2 = x
    · simp [hk, h2]
    · simp [hk, h2, cell]
  · simp [h1]

theorem WF_insertCell {M : CompressedMatrix} (h : M.WF) (k : Nat) {x : Nat}
    (hx : x < M.lineBound) (v : Int) (hn : M.cell k x = none) : (M.insertCell k x v).WF :=
  WF_setLine h k (Line.WF_insert (WF_line h k) hx v hn)

theorem cell_eraseCell {M : CompressedMatrix} (h : M.WF) (k x k2 x2 : Nat) :
    (M.eraseCell k x).cell k2 x2 = if k2 = k ∧ x2 = x then none else M.cell k2 x2 := by
  unfold eraseCell erasePos
  rw [cell_setLine, Line.stored_erase_find _ (WF_line h k).1]
  by_cases h1 : k2 = k
  · subst h1
    by_cases hk : k2 < M.lines.length
    · by_cases h2 : x2 = x
      · simp [hk, h2]
      · simp [hk, h2, cell]
    · have hnone := M.cell_of_lines_length_le k2 x2 (by omega)
      simp [hk, hnone]
  · simp [h1]

theorem WF_erasePos {M : CompressedMatrix} (h : M.WF) (k pos : Nat) : (M.erasePos k pos).WF :=
  WF_setLine h k (Line.WF_erase (WF_line h k) pos)

theorem WF_eraseCell {M : CompressedMatrix} (h : M.WF) (k x : Nat) : (M.eraseCell k x).WF :=
  WF_erasePos h k _

theorem set_eq (M : CompressedMatrix) (i j : Nat) (v : Int) :
    M.set i j v = M.setCell (M.lineOf i j) (M.indexOf i j) v := rfl

theorem erase_eq (M : CompressedMatrix) (i j : Nat) :
    M.erase i j = M.eraseCell (M.lineOf i j) (M.indexOf i j) := rfl

theorem insert_eq (M : CompressedMatrix) (i j : Nat) (v : Int) :
    M.insert i j v = if M.stored i j = none
      then .ok (M.insertCell (M.lineOf i j) (M.indexOf i j) v)
      else .error (.invalid_argument "Bad access index") := by
  unfold insert find end_ stored cell insertCell
  by_cases h : Line.stored (M.line (M.lineOf i j)) (M.indexOf i j) = none
  · rw [if_pos h, if_neg]
    rw [ne_eq, not_not]
    exact (Line.find_eq_length_iff _ _).mpr h
  · rw [if_neg h, if_pos]
    exact fun h2 => h ((Line.find_eq_length_iff _ _).mp h2)

/-- The dimensions and the storage order are those of the original after `setLine`. -/
theorem setLine_dims (M : CompressedMatrix) (k : Nat) (l : List Element) :
    (M.setLine k l).rmm = M.rmm ∧ (M.setLine k l).m = M.m ∧ (M.setLine k l).n = M.n
      ∧ (M.setLine k l).lines.length = M.lines.length := by
  simp [setLine]

end CompressedMatrix
/-! ## The structural invariant in line coordinates -/

namespace CompressedMatrix

@[simp] theorem setLine_rmm (M : CompressedMatrix) (k : Nat) (l : List Element) :
    (M.setLine k l).rmm = M.rmm := rfl

@[simp] theorem setLine_m (M : CompressedMatrix) (k : Nat) (l : List Element) :
    (M.setLine k l).m = M.m := rfl

@[simp] theorem setLine_n (M : CompressedMatrix) (k : Nat) (l : List Element) :
    (M.setLine k l).n = M.n := rfl

@[simp] theorem setLine_length (M : CompressedMatrix) (k : Nat) (l : List Element) :
    (M.setLine k l).lines.length = M.lines.length := by simp [setLine]

@[simp] theorem setLine_lineBound (M : CompressedMatrix) (k : Nat) (l : List Element) :
    (M.setLine k l).lineBound = M.lineBound := rfl

@[simp] theorem setLine_lineOf (M : CompressedMatrix) (k : Nat) (l : List Element) (i j : Nat) :
    (M.setLine k l).lineOf i j = M.lineOf i j := rfl

@[simp] theorem setLine_indexOf (M : CompressedMatrix) (k : Nat) (l : List Element)
    (i j : Nat) : (M.setLine k l).indexOf i j = M.indexOf i j := rfl

theorem stored_eq (M : CompressedMatrix) (i j : Nat) :
    M.stored i j = if M.rmm then M.cell i j else M.cell j i := by
  unfold stored lineOf indexOf
  cases M.rmm <;> rfl

/-- A square well-formed storage has as many lines as rows, each of that dimension. -/
theorem square_dims {M : CompressedMatrix} (h : M.WF) (hsq : M.m = M.n) :
    M.lines.length = M.n ∧ M.lineBound = M.n ∧ M.lineCount = M.n := by
  have h1 := h.1
  unfold lineCount at h1
  unfold lineBound lineCount
  cases hr : M.rmm <;> simp [hr] at h1 ⊢ <;> omega

theorem lineOf_lt {M : CompressedMatrix} {i j : Nat} (hi : i < M.n)
    (hj : j < M.n) : M.lineOf i j < M.n ∧ M.indexOf i j < M.n := by
  unfold lineOf indexOf
  cases M.rmm <;> simp [hi, hj]

end CompressedMatrix

namespace SymmetricMatrix

open CompressedMatrix

/-- The invariant in line coordinates: symmetry of the stored elements at all positions. -/
theorem Inv_iff (A : SymmetricMatrix) :
    A.Inv ↔ A.matrix_.WF ∧ A.matrix_.m = A.matrix_.n ∧
      ∀ k x, A.matrix_.cell k x = A.matrix_.cell x k := by
  constructor
  · rintro ⟨hwf, hsq, hsym⟩
    refine ⟨hwf, hsq, fun k x => ?_⟩
    obtain ⟨_, hb, hc⟩ := square_dims hwf hsq
    by_cases hk : k < A.matrix_.n
    · by_cases hx : x < A.matrix_.n
      · have h := hsym k hk x hx
        rw [stored_eq, stored_eq] at h
        cases hr : A.matrix_.rmm
        · simp only [hr] at h
          exact h.symm
        · simp only [hr, if_true] at h
          exact h
      · rw [cell_of_index_ge hwf k x (by omega), cell_of_line_ge hwf x k (by omega)]
    · rw [cell_of_line_ge hwf k x (by omega), cell_of_index_ge hwf x k (by omega)]
  · rintro ⟨hwf, hsq, hsym⟩
    refine ⟨hwf, hsq, fun i _ j _ => ?_⟩
    rw [stored_eq, stored_eq]
    split
    · exact hsym i j
    · exact hsym j i

theorem Inv_of_cell {A : SymmetricMatrix} (hwf : A.matrix_.WF)
    (hsq : A.matrix_.m = A.matrix_.n)
    (hsym : ∀ k x, A.matrix_.cell k x = A.matrix_.cell x k) : A.Inv :=
  (Inv_iff A).mpr ⟨hwf, hsq, hsym⟩

/-- Element access in terms of the cells, for a matrix satisfying the invariant. -/
theorem get_eq_cell {A : SymmetricMatrix} (h : A.Inv) (i j : Nat) :
    A.get i j = (A.matrix_.cell i j).getD 0 := by
  have hsym := ((Inv_iff A).mp h).2.2
  unfold get CompressedMatrix.get
  rw [stored_eq]
  split
  · rfl
  · rw [hsym j i]

/-! ### `set` -/

theorem set_matrix (A : SymmetricMatrix) (i j : Nat) (v : Int) :
    (A.set i j v).matrix_
      = if i = j then A.matrix_.setCell i i v
        else if A.matrix_.rmm then (A.matrix_.setCell j i v).setCell i j v
        else (A.matrix_.setCell i j v).setCell j i v := by
  obtain ⟨⟨r, m, n, ls⟩⟩ := A
  cases r <;> by_cases h : i = j <;>
    simp [SymmetricMatrix.set, CompressedMatrix.set, setCell, lineOf, indexOf, h]

theorem set_WF {A : SymmetricMatrix} (hwf : A.matrix_.WF) (hsq : A.matrix_.m = A.matrix_.n)
    {i j : Nat} (hi : i < A.matrix_.n) (hj : j < A.matrix_.n) (v : Int) :
    (A.set i j v).matrix_.WF := by
  obtain ⟨_, hb, _⟩ := square_dims hwf hsq
  rw [set_matrix]
  split
  · exact WF_setCell hwf _ (by omega) v
  · split
    · exact WF_setCell (WF_setCell hwf _ (by omega) v) _ (by simp [setCell]; omega) v
    · exact WF_setCell (WF_setCell hwf _ (by omega) v) _ (by simp [setCell]; omega) v

theorem set_dims (A : SymmetricMatrix) (i j : Nat) (v : Int) :
    (A.set i j v).matrix_.rmm = A.matrix_.rmm ∧ (A.set i j v).matrix_.m = A.matrix_.m
      ∧ (A.set i j v).matrix_.n = A.matrix_.n := by
  rw [set_matrix]
  split
  · simp [setCell]
  · split <;> simp [setCell]

theorem set_cell {A : SymmetricMatrix} (hwf : A.matrix_.WF) (hsq : A.matrix_.m = A.matrix_.n)
    {i j : Nat} (hi : i < A.matrix_.n) (hj : j < A.matrix_.n) (v : Int) (k x : Nat) :
    (A.set i j v).matrix_.cell k x
      = if (k = i ∧ x = j) ∨ (k = j ∧ x = i) then some v else A.matrix_.cell k x := by
  obtain ⟨hl, _, _⟩ := square_dims hwf hsq
  rw [set_matrix]
  split
  · rename_i h
    subst h
    rw [cell_setCell _ _ _ _ (by omega)]
    simp
  · split
    · rw [cell_setCell _ _ _ _ (by simp [setCell]; omega), cell_setCell _ _ _ _ (by omega)]
      by_cases h1 : k = i ∧ x = j
      · simp [h1]
      · simp [h1]
    · rw [cell_setCell _ _ _ _ (by simp [setCell]; omega), cell_setCell _ _ _ _ (by omega)]
      by_cases h1 : k = j ∧ x = i
      · simp [h1]
      · simp [h1]

theorem set_Inv {A : SymmetricMatrix} (h : A.Inv) {i j : Nat} (hi : i < A.matrix_.n)
    (hj : j < A.matrix_.n) (v : Int) : (A.set i j v).Inv := by
  obtain ⟨hwf, hsq, hsym⟩ := (Inv_iff A).mp h
  apply Inv_of_cell (set_WF hwf hsq hi hj v)
  · rw [(set_dims A i j v).2.1, (set_dims A i j v).2.2, hsq]
  · intro k x
    rw [set_cell hwf hsq hi hj, set_cell hwf hsq hi hj, hsym k x]
    by_cases h1 : (k = i ∧ x = j) ∨ (k = j ∧ x = i)
    · have h2 : (x = i ∧ k = j) ∨ (x = j ∧ k = i) := by tauto
      rw [if_pos h1, if_pos h2]
    · have h2 : ¬ ((x = i ∧ k = j) ∨ (x = j ∧ k = i)) := by tauto
      rw [if_neg h1, if_neg h2]

/-! ### `insert` -/

theorem insertCell_eq_setCell (M : CompressedMatrix) (k x : Nat) (v : Int)
    (hn : M.cell k x = none) : M.insertCell k x v = M.setCell k x v := by
  unfold insertCell setCell
  rw [Line.set_eq_insert _ _ _ hn]

/-- On a matrix satisfying the invariant, `insert` at a free position returns normally and
leaves the same state as `set`. -/
theorem insert_of_none {A : SymmetricMatrix} (h : A.Inv) {i j : Nat} (hi : i < A.matrix_.n)
    (hj : j < A.matrix_.n) (v : Int) (hn : A.matrix_.stored i j = none) :
    A.insert i j v = .ok (A.set i j v) := by
  obtain ⟨hwf, hsq, hsym⟩ := (Inv_iff A).mp h
  obtain ⟨hl, _, _⟩ := square_dims hwf hsq
  have hn2 : A.matrix_.stored j i = none := by
    rw [stored_eq] at hn ⊢
    split at hn
    · rename_i hr; rw [if_pos hr, hsym j i]; exact hn
    · rename_i hr; rw [if_neg hr, hsym i j]; exact hn
  unfold insert
  by_cases hij : i = j
  · subst hij
    simp only [ne_eq, not_true_eq_false, if_false, insert_eq, hn, if_true]
    congr 1
    unfold set
    simp only [ne_eq, not_true_eq_false, if_false, set_eq]
    rw [insertCell_eq_setCell]
    exact hn
  · simp only [ne_eq, hij, not_false_eq_true, if_true, insert_eq, hn2]
    have hn3 : (A.matrix_.insertCell (A.matrix_.lineOf j i) (A.matrix_.indexOf j i) v).stored i j
        = none := by
      unfold stored
      have hlt := @lineOf_lt A.matrix_ j i hj hi
      rw [show (A.matrix_.insertCell (A.matrix_.lineOf j i) (A.matrix_.indexOf j i) v).lineOf i j
          = A.matrix_.lineOf i j from rfl,
        show (A.matrix_.insertCell (A.matrix_.lineOf j i) (A.matrix_.indexOf j i) v).indexOf i j
          = A.matrix_.indexOf i j from rfl,
        cell_insertCell _ _ _ _ (by omega) hn2, if_neg]
      · exact hn
      · unfold lineOf indexOf
        cases A.matrix_.rmm <;> simp <;> omega
    simp only [hn3, if_true]
    congr 1
    unfold set
    simp only [ne_eq, hij, not_false_eq_true, if_true, set_eq]
    rw [insertCell_eq_setCell _ _ _ _ hn2] at hn3 ⊢
    rw [insertCell_eq_setCell]
    exact hn3

/-- On a matrix satisfying the invariant, `insert` at an occupied position throws and leaves
the matrix as it was. -/
theorem insert_of_some {A : SymmetricMatrix} (h : A.Inv) (i j : Nat) (v : Int) (hn : A.matrix_.stored i j ≠ none) :
    A.insert i j v = .invalid_argument A := by
  obtain ⟨hwf, hsq, hsym⟩ := (Inv_iff A).mp h
  have hn2 : A.matrix_.stored j i ≠ none := by
    rw [stored_eq] at hn ⊢
    split at hn
    · rename_i hr; rw [if_pos hr, hsym j i]; exact hn
    · rename_i hr; rw [if_neg hr, hsym i j]; exact hn
  unfold insert
  by_cases hij : i = j
  · subst hij
    simp [insert_eq, hn]
  · simp [insert_eq, hn2, hij]

/-! ### `erase( i, j )` -/

@[simp] theorem eraseCell_rmm (M : CompressedMatrix) (k x : Nat) :
    (M.eraseCell k x).rmm = M.rmm := rfl

@[simp] theorem eraseCell_m (M : CompressedMatrix) (k x : Nat) :
    (M.eraseCell k x).m = M.m := rfl

@[simp] theorem eraseCell_n (M : CompressedMatrix) (k x : Nat) :
    (M.eraseCell k x).n = M.n := rfl

@[simp] theorem eraseCell_length (M : CompressedMatrix) (k x : Nat) :
    (M.eraseCell k x).lines.length = M.lines.length := by
  simp [eraseCell, CompressedMatrix.erasePos]

theorem eraseCell_line_ne (M : CompressedMatrix) (k x k2 : Nat) (h : k2 ≠ k) :
    (M.eraseCell k x).line k2 = M.line k2 := by
  unfold eraseCell CompressedMatrix.erasePos
  rw [line_setLine, if_neg (fun h2 => h h2.1)]

theorem erase_matrix (A : SymmetricMatrix) (i j : Nat) :
    (A.erase i j).matrix_
      = if i = j then A.matrix_.eraseCell i i
        else if A.matrix_.rmm then (A.matrix_.eraseCell i j).eraseCell j i
        else (A.matrix_.eraseCell j i).eraseCell i j := by
  obtain ⟨⟨r, m, n, ls⟩⟩ := A
  cases r <;> by_cases h : i = j <;>
    simp [SymmetricMatrix.erase, CompressedMatrix.erase, eraseCell, CompressedMatrix.find,
      lineOf, indexOf, h, CompressedMatrix.erasePos]

theorem erase_WF {A : SymmetricMatrix} (hwf : A.matrix_.WF) (i j : Nat) :
    (A.erase i j).matrix_.WF := by
  rw [erase_matrix]
  split
  · exact WF_eraseCell hwf _ _
  · split
    · exact WF_eraseCell (WF_eraseCell hwf _ _) _ _
    · exact WF_eraseCell (WF_eraseCell hwf _ _) _ _

theorem erase_dims (A : SymmetricMatrix) (i j : Nat) :
    (A.erase i j).matrix_.rmm = A.matrix_.rmm ∧ (A.erase i j).matrix_.m = A.matrix_.m
      ∧ (A.erase i j).matrix_.n = A.matrix_.n := by
  rw [erase_matrix]
  split
  · simp
  · split <;> simp

theorem erase_cell {A : SymmetricMatrix} (hwf : A.matrix_.WF) (i j k x : Nat) :
    (A.erase i j).matrix_.cell k x
      = if (k = i ∧ x = j) ∨ (k = j ∧ x = i) then none else A.matrix_.cell k x := by
  rw [erase_matrix]
  split
  · rename_i h
    subst h
    rw [cell_eraseCell hwf]
    simp
  · split
    · rw [cell_eraseCell (WF_eraseCell hwf _ _), cell_eraseCell hwf]
      by_cases h1 : k = j ∧ x = i
      · simp [h1]
      · simp [h1]
    · rw [cell_eraseCell (WF_eraseCell hwf _ _), cell_eraseCell hwf]
      by_cases h1 : k = i ∧ x = j
      · simp [h1]
      · simp [h1]

/-- Symmetry is kept when a position and its mirror are overwritten alike. -/
theorem sym_of_mirror_update {c d : Nat → Nat → Option Int} (i j : Nat) (u : Option Int)
    (hsym : ∀ k x, c k x = c x k)
    (hd : ∀ k x, d k x = if (k = i ∧ x = j) ∨ (k = j ∧ x = i) then u else c k x) :
    ∀ k x, d k x = d x k := by
  intro k x
  rw [hd, hd, hsym k x]
  by_cases h1 : (k = i ∧ x = j) ∨ (k = j ∧ x = i)
  · have h2 : (x = i ∧ k = j) ∨ (x = j ∧ k = i) := by tauto
    rw [if_pos h1, if_pos h2]
  · have h2 : ¬ ((x = i ∧ k = j) ∨ (x = j ∧ k = i)) := by tauto
    rw [if_neg h1, if_neg h2]

theorem erase_Inv {A : SymmetricMatrix} (h : A.Inv) (i j : Nat) : (A.erase i j).Inv := by
  obtain ⟨hwf, hsq, hsym⟩ := (Inv_iff A).mp h
  apply Inv_of_cell (erase_WF hwf i j)
  · rw [(erase_dims A i j).2.1, (erase_dims A i j).2.2, hsq]
  · exact sym_of_mirror_update i j none hsym (erase_cell hwf i j)

/-! ### `erase( i, pos )` -/

theorem erasePos_matrix {A : SymmetricMatrix} (hwf : A.matrix_.WF) (i pos : Nat)
    (hpos : pos < (A.matrix_.line i).length) :
    (A.erasePos i pos).matrix_
      = if i = indexAt A.matrix_ i pos then A.matrix_.eraseCell i i
        else (A.matrix_.eraseCell (indexAt A.matrix_ i pos) i).eraseCell i
          (indexAt A.matrix_ i pos) := by
  have hfind : Line.find (A.matrix_.line i) (indexAt A.matrix_ i pos) = pos :=
    Line.find_index_getD _ (WF_line hwf i).1 pos hpos _
  unfold erasePos
  simp only [CompressedMatrix.end_]
  rw [if_neg (by omega)]
  by_cases hij : i = indexAt A.matrix_ i pos
  · rw [if_pos hij, if_pos hij]
    unfold eraseCell
    rw [← hij] at hfind
    rw [hfind]
  · rw [if_neg hij, if_neg hij]
    have hline : (A.matrix_.eraseCell (indexAt A.matrix_ i pos) i).line i = A.matrix_.line i :=
      eraseCell_line_ne _ _ _ _ hij
    have h2 : (A.matrix_.eraseCell (indexAt A.matrix_ i pos) i).eraseCell i
        (indexAt A.matrix_ i pos)
        = (A.matrix_.eraseCell (indexAt A.matrix_ i pos) i).erasePos i pos := by
      show (A.matrix_.eraseCell (indexAt A.matrix_ i pos) i).erasePos i
        (Line.find ((A.matrix_.eraseCell (indexAt A.matrix_ i pos) i).line i)
          (indexAt A.matrix_ i pos)) = _
      rw [hline, hfind]
    rw [h2]
    cases hr : A.matrix_.rmm <;>
      simp [eraseCell, CompressedMatrix.find, lineOf, indexOf, hr]

theorem erasePos_end (A : SymmetricMatrix) (i : Nat) :
    A.erasePos i (A.matrix_.end_ i) = A := by
  simp [erasePos]

theorem erasePos_Inv {A : SymmetricMatrix} (h : A.Inv) (i pos : Nat)
    (hpos : pos ≤ A.matrix_.end_ i) : (A.erasePos i pos).Inv := by
  obtain ⟨hwf, hsq, hsym⟩ := (Inv_iff A).mp h
  by_cases hend : pos = A.matrix_.end_ i
  · rw [hend, erasePos_end]
    exact h
  · have hlt : pos < (A.matrix_.line i).length := by
      unfold CompressedMatrix.end_ at hpos hend
      omega
    have hm := erasePos_matrix hwf i pos hlt
    have he := erase_matrix A i (indexAt A.matrix_ i pos)
    have hcell : ∀ k x, (A.erasePos i pos).matrix_.cell k x
        = if (k = i ∧ x = indexAt A.matrix_ i pos) ∨ (k = indexAt A.matrix_ i pos ∧ x = i)
          then none else A.matrix_.cell k x := by
      intro k x
      rw [hm]
      split
      · rename_i hij
        rw [cell_eraseCell hwf, ← hij]
        simp
      · rw [cell_eraseCell (WF_eraseCell hwf _ _), cell_eraseCell hwf]
        by_cases h1 : k = i ∧ x = indexAt A.matrix_ i pos
        · simp [h1]
        · simp [h1]
    have hwf2 : (A.erasePos i pos).matrix_.WF := by
      rw [hm]
      split
      · exact WF_eraseCell hwf _ _
      · exact WF_eraseCell (WF_eraseCell hwf _ _) _ _
    apply Inv_of_cell hwf2
    · rw [hm]
      split <;> simpa using hsq
    · exact sym_of_mirror_update i _ none hsym hcell

/-! ### The mirror-erasing loops of `reset( i )` and `erase( i, first, last )` -/

theorem resetStep_eq (i : Nat) (M : CompressedMatrix) (it : Element) :
    resetStep i M it = if i = it.index then M else M.eraseCell it.index i := by
  unfold resetStep
  by_cases h : i = it.index
  · simp [h]
  · cases hr : M.rmm <;>
      simp [h, hr, eraseCell, CompressedMatrix.find, lineOf, indexOf]

theorem eraseRangeStep_eq (i : Nat) (M : CompressedMatrix) (it : Element) :
    eraseRangeStep i M it = resetStep i M it := by
  rw [resetStep_eq]
  unfold eraseRangeStep
  by_cases h : i = it.index
  · simp [h]
  · cases hr : M.rmm <;>
      simp [h, hr, eraseCell, CompressedMatrix.erase, CompressedMatrix.find, lineOf, indexOf]

/-- The loop erases only mirrored elements: it leaves line `i` — the line it traverses — and
all dimensions as they are, and removes exactly the elements of column `i` (in line
coordinates) whose line is one of the traversed indices other than `i`. -/
theorem foldl_resetStep (i : Nat) (es : List Element) (M : CompressedMatrix) (h : M.WF) :
    (es.foldl (resetStep i) M).WF ∧ (es.foldl (resetStep i) M).rmm = M.rmm
      ∧ (es.foldl (resetStep i) M).m = M.m ∧ (es.foldl (resetStep i) M).n = M.n
      ∧ (es.foldl (resetStep i) M).lines.length = M.lines.length
      ∧ (es.foldl (resetStep i) M).line i = M.line i
      ∧ ∀ k x, (es.foldl (resetStep i) M).cell k x
          = if x = i ∧ k ≠ i ∧ k ∈ es.map (fun e => e.index) then none else M.cell k x := by
  induction es generalizing M with
  | nil => simp [h]
  | cons e es ih =>
    rw [List.foldl_cons]
    have hstep := resetStep_eq i M e
    by_cases hie : i = e.index
    · rw [if_pos hie] at hstep
      rw [hstep]
      obtain ⟨h1, h2, h3, h4, h5, h6, h7⟩ := ih M h
      refine ⟨h1, h2, h3, h4, h5, h6, fun k x => ?_⟩
      rw [h7]
      by_cases hc : x = i ∧ k ≠ i ∧ k ∈ es.map (fun e => e.index)
      · rw [if_pos hc, if_pos ⟨hc.1, hc.2.1, List.mem_cons_of_mem _ hc.2.2⟩]
      · rw [if_neg hc, if_neg]
        rintro ⟨hx, hk, hmem⟩
        simp only [List.map_cons, List.mem_cons] at hmem
        rcases hmem with hmem | hmem
        · exact hk (hmem.trans hie.symm)
        · exact hc ⟨hx, hk, hmem⟩
    · rw [if_neg hie] at hstep
      rw [hstep]
      obtain ⟨h1, h2, h3, h4, h5, h6, h7⟩ := ih (M.eraseCell e.index i) (WF_eraseCell h _ _)
      refine ⟨h1, by simpa using h2, by simpa using h3, by simpa using h4, by simpa using h5,
        by rw [h6, eraseCell_line_ne _ _ _ _ hie], fun k x => ?_⟩
      rw [h7, cell_eraseCell h]
      by_cases hc : x = i ∧ k ≠ i ∧ k ∈ es.map (fun e => e.index)
      · rw [if_pos hc, if_pos ⟨hc.1, hc.2.1, List.mem_cons_of_mem _ hc.2.2⟩]
      · rw [if_neg hc]
        by_cases hke : k = e.index ∧ x = i
        · rw [if_pos hke, if_pos]
          refine ⟨hke.2, ?_, ?_⟩
          · rw [hke.1]; exact fun h2 => hie h2.symm
          · rw [hke.1]; simp
        · rw [if_neg hke, if_neg]
          rintro ⟨hx, hk, hmem⟩
          simp only [List.map_cons, List.mem_cons] at hmem
          rcases hmem with hmem | hmem
          · exact hke ⟨hmem, hx⟩
          · exact hc ⟨hx, hk, hmem⟩

theorem foldl_eraseRangeStep (i : Nat) (es : List Element) (M : CompressedMatrix) :
    es.foldl (eraseRangeStep i) M = es.foldl (resetStep i) M := by
  induction es generalizing M with
  | nil => rfl
  | cons e es ih => rw [List.foldl_cons, List.foldl_cons, eraseRangeStep_eq, ih]

/-! ### `reset( i )` -/

theorem resetIndex_props {A : SymmetricMatrix} (hwf : A.matrix_.WF) (i : Nat)
    (hi : i < A.matrix_.lines.length) :
    (A.resetIndex i).matrix_.WF ∧ (A.resetIndex i).matrix_.rmm = A.matrix_.rmm
      ∧ (A.resetIndex i).matrix_.m = A.matrix_.m ∧ (A.resetIndex i).matrix_.n = A.matrix_.n
      ∧ ∀ k x, (A.resetIndex i).matrix_.cell k x
          = if k = i then none
            else if x = i ∧ k ∈ (A.matrix_.line i).map (fun e => e.index) then none
            else A.matrix_.cell k x := by
  obtain ⟨h1, h2, h3, h4, h5, _, h7⟩ := foldl_resetStep i (A.matrix_.line i) A.matrix_ hwf
  unfold resetIndex CompressedMatrix.resetLine
  refine ⟨WF_setLine h1 i (Line.WF_nil _), by simpa using h2, by simpa using h3,
    by simpa using h4, fun k x => ?_⟩
  rw [cell_setLine, h5, h7]
  by_cases hk : k = i
  · simp [hk, hi, Line.stored]
  · simp [hk]

/-- After `reset( i )` on a matrix satisfying the invariant, line `i` and column `i` hold no
element, and every other position holds what it held before. -/
theorem resetIndex_cell {A : SymmetricMatrix} (h : A.Inv) {i : Nat} (hi : i < A.matrix_.n)
    (k x : Nat) :
    (A.resetIndex i).matrix_.cell k x
      = if k = i ∨ x = i then none else A.matrix_.cell k x := by
  obtain ⟨hwf, hsq, hsym⟩ := (Inv_iff A).mp h
  obtain ⟨hl, _, _⟩ := square_dims hwf hsq
  rw [(resetIndex_props hwf i (by omega)).2.2.2.2 k x]
  by_cases hk : k = i
  · simp [hk]
  · by_cases hx : x = i
    · subst hx
      by_cases hmem : k ∈ (A.matrix_.line x).map (fun e => e.index)
      · simp [hk, hmem]
      · have hnone : A.matrix_.cell x k = none := (Line.stored_eq_none_iff _ _).mpr hmem
        simp [hk, hmem, hsym k x, hnone]
    · simp [hk, hx]

theorem resetIndex_Inv {A : SymmetricMatrix} (h : A.Inv) {i : Nat} (hi : i < A.matrix_.n) :
    (A.resetIndex i).Inv := by
  obtain ⟨hwf, hsq, hsym⟩ := (Inv_iff A).mp h
  obtain ⟨hl, _, _⟩ := square_dims hwf hsq
  obtain ⟨h1, _, h3, h4, _⟩ := resetIndex_props hwf i (by omega)
  apply Inv_of_cell h1 (by rw [h3, h4, hsq])
  intro k x
  rw [resetIndex_cell h hi, resetIndex_cell h hi, hsym k x]
  by_cases hc : k = i ∨ x = i
  · rw [if_pos hc, if_pos (Or.symm hc)]
  · rw [if_neg hc, if_neg (fun h2 => hc (Or.symm h2))]

/-! ### `erase( i, first, last )` -/

theorem eraseRange_props {A : SymmetricMatrix} (hwf : A.matrix_.WF) (i first last : Nat)
    (hfl : first ≤ last) :
    (A.eraseRange i first last).matrix_.WF
      ∧ (A.eraseRange i first last).matrix_.rmm = A.matrix_.rmm
      ∧ (A.eraseRange i first last).matrix_.m = A.matrix_.m
      ∧ (A.eraseRange i first last).matrix_.n = A.matrix_.n
      ∧ ∀ k x, (A.eraseRange i first last).matrix_.cell k x
          = if (k = i ∧ x ∈ (((A.matrix_.line i).drop first).take (last - first)).map
                  (fun e => e.index))
              ∨ (x = i ∧ k ∈ (((A.matrix_.line i).drop first).take (last - first)).map
                  (fun e => e.index))
            then none else A.matrix_.cell k x := by
  obtain ⟨h1, h2, h3, h4, h5, h6, h7⟩ := foldl_resetStep i
    (((A.matrix_.line i).drop first).take (last - first)) A.matrix_ hwf
  unfold eraseRange CompressedMatrix.eraseRange
  simp only [foldl_eraseRangeStep]
  refine ⟨WF_setLine h1 i (Line.WF_eraseRange (WF_line h1 i) _ _), by simpa using h2,
    by simpa using h3, by simpa using h4, fun k x => ?_⟩
  rw [cell_setLine, h5, h6, h7, Line.stored_eraseRange _ (WF_line hwf i).1 _ _ hfl]
  by_cases hk : k = i
  · subst hk
    by_cases hlen : k < A.matrix_.lines.length
    · rw [if_pos ⟨rfl, hlen⟩]
      by_cases hx : x ∈ (((A.matrix_.line k).drop first).take (last - first)).map
          (fun e => e.index)
      · rw [if_pos hx, if_pos (Or.inl ⟨rfl, hx⟩)]
      · rw [if_neg hx, if_neg]
        · rfl
        · rintro (h8 | h8)
          · exact hx h8.2
          · exact hx (h8.1 ▸ h8.2)
    · have hnone := A.matrix_.cell_of_lines_length_le k x (by omega)
      rw [if_neg (fun h8 => hlen h8.2), if_neg (fun h8 => h8.2.1 rfl), hnone]
      split <;> rfl
  · rw [if_neg (fun h8 => hk h8.1)]
    by_cases hc : x = i ∧ k ∈ (((A.matrix_.line i).drop first).take (last - first)).map
        (fun e => e.index)
    · rw [if_pos ⟨hc.1, hk, hc.2⟩, if_pos (Or.inr hc)]
    · rw [if_neg (fun h8 => hc ⟨h8.1, h8.2.2⟩), if_neg]
      rintro (h8 | h8)
      · exact hk h8.1
      · exact hc h8

theorem eraseRange_Inv {A : SymmetricMatrix} (h : A.Inv) (i first last : Nat)
    (hfl : first ≤ last) : (A.eraseRange i first last).Inv := by
  obtain ⟨hwf, hsq, hsym⟩ := (Inv_iff A).mp h
  obtain ⟨h1, _, h3, h4, h5⟩ := eraseRange_props hwf i first last hfl
  apply Inv_of_cell h1 (by rw [h3, h4, hsq])
  intro k x
  rw [h5, h5, hsym k x]
  by_cases hc : (k = i ∧ x ∈ (((A.matrix_.line i).drop first).take (last - first)).map
        (fun e => e.index))
      ∨ (x = i ∧ k ∈ (((A.matrix_.line i).drop first).take (last - first)).map
        (fun e => e.index))
  · rw [if_pos hc, if_pos (Or.symm hc)]
  · rw [if_neg hc, if_neg (fun h2 => hc (Or.symm h2))]

end SymmetricMatrix

/-! ## Whole-matrix operations of the storage -/

namespace CompressedMatrix

theorem getD_range_map (c k : Nat) (g : Nat → List Element) :
    ((List.range c).map g).getD k [] = if k < c then g k else [] := by
  rw [List.getD_eq_getElem?_getD, List.getElem?_map]
  by_cases h : k < c
  · simp [h, List.getElem?_range h]
  · simp [h, List.getElem?_eq_none (l := List.range c) (by simpa using h)]

theorem reset_props {M : CompressedMatrix} (h : M.WF) :
    M.reset.WF ∧ ∀ k x, M.reset.cell k x = none := by
  have hline : ∀ k, M.reset.line k = [] := by
    intro k
    unfold line reset
    simp only
    simp
  refine ⟨WF_of_lines (by simpa [reset, lineCount] using h.1) (fun k => ?_), fun k x => ?_⟩
  · rw [hline]; exact Line.WF_nil _
  · unfold cell; rw [hline]; rfl

theorem mapValues_line (M : CompressedMatrix) (f : Int → Int) (k : Nat) :
    (M.mapValues f).line k = (M.line k).map (fun e => (⟨e.index, f e.value⟩ : Element)) := by
  unfold line mapValues
  simp only
  have := List.getD_map M.lines ([] : List Element) (n := k)
    (fun l => l.map (fun e => (⟨e.index, f e.value⟩ : Element)))
  simpa using this

theorem mapValues_props {M : CompressedMatrix} (h : M.WF) (f : Int → Int) :
    (M.mapValues f).WF ∧ ∀ k x, (M.mapValues f).cell k x = (M.cell k x).map f := by
  refine ⟨WF_of_lines (by simpa [mapValues, lineCount] using h.1) (fun k => ?_), fun k x => ?_⟩
  · rw [mapValues_line]
    exact Line.WF_map (WF_line h k) _ (fun _ => rfl)
  · unfold cell
    rw [mapValues_line, Line.stored_mapValues]

theorem scaleDiagonal_line (M : CompressedMatrix) (s : Int) (k : Nat) :
    (M.scaleDiagonal s).line k
      = (M.line k).map (fun e => if e.index = k then (⟨e.index, e.value * s⟩ : Element) else e) := by
  unfold scaleDiagonal
  show ((List.range M.lines.length).map _).getD k [] = _
  rw [getD_range_map]
  split
  · rfl
  · rw [M.line_of_length_le k (by omega)]
    rfl

theorem scaleDiagonal_props {M : CompressedMatrix} (h : M.WF) (s : Int) :
    (M.scaleDiagonal s).WF ∧ ∀ k x, (M.scaleDiagonal s).cell k x
      = if x = k then (M.cell k x).map (fun v => v * s) else M.cell k x := by
  refine ⟨WF_of_lines (by simpa [scaleDiagonal, lineCount] using h.1) (fun k => ?_),
    fun k x => ?_⟩
  · rw [scaleDiagonal_line]
    exact Line.WF_map (WF_line h k) _ (fun e => by split <;> rfl)
  · unfold cell
    rw [scaleDiagonal_line, Line.stored_mapDiagonal]

theorem resize_square_props {M : CompressedMatrix} (h : M.WF) (n : Nat) :
    (M.resize n n true).WF ∧ ∀ k x, (M.resize n n true).cell k x
      = if k < n ∧ x < n then M.cell k x else none := by
  have hline : ∀ k, (M.resize n n true).line k
      = if k < n then (M.line k).filter (fun e => decide (e.index < n)) else [] := by
    intro k
    unfold resize
    show ((List.range _).map _).getD k [] = _
    rw [getD_range_map]
    simp
  refine ⟨WF_of_lines (by simp [resize, lineCount]) (fun k => ?_), fun k x => ?_⟩
  · rw [hline]
    have hb : (M.resize n n true).lineBound = n := by simp [resize, lineBound]
    rw [hb]
    split
    · exact Line.WF_filter (WF_line h k) n
    · exact Line.WF_nil _
  · unfold cell
    rw [hline]
    by_cases hk : k < n
    · rw [if_pos hk, Line.stored_filter]
      by_cases hx : x < n
      · rw [if_pos hx, if_pos ⟨hk, hx⟩]
      · rw [if_neg hx, if_neg (fun h2 => hx h2.2)]
    · rw [if_neg hk, if_neg (fun h2 => hk h2.1)]
      rfl

theorem ofValues_line (rmm : Bool) (m n : Nat) (f : Nat → Nat → Int) (k : Nat) :
    (ofValues rmm m n f).line k
      = if k < (if rmm then m else n)
        then Line.ofValues (fun x => if rmm then f k x else f x k)
          (List.range (if rmm then n else m))
        else [] := by
  unfold ofValues
  show ((List.range _).map _).getD k [] = _
  rw [getD_range_map]

theorem ofValues_WF (rmm : Bool) (m n : Nat) (f : Nat → Nat → Int) : (ofValues rmm m n f).WF := by
  refine WF_of_lines (by simp [ofValues, lineCount]) (fun k => ?_)
  rw [ofValues_line]
  by_cases hk : k < (if rmm then m else n)
  · rw [if_pos hk]
    exact Line.WF_ofValues _ _ _ (List.pairwise_lt_range _)
      (fun x hx => by simpa [ofValues, lineBound] using hx)
  · rw [if_neg hk]
    exact Line.WF_nil _

theorem ofValues_stored (rmm : Bool) (m n : Nat) (f : Nat → Nat → Int) (i j : Nat) :
    (ofValues rmm m n f).stored i j
      = if i < m ∧ j < n ∧ f i j ≠ 0 then some (f i j) else none := by
  unfold stored cell
  rw [ofValues_line]
  cases rmm
  · simp only [lineOf, indexOf, ofValues, Bool.false_eq_true, if_false]
    by_cases hj : j < n
    · rw [if_pos hj, Line.stored_ofValues]
      simp [hj, List.mem_range]
    · rw [if_neg hj]
      simp [hj, Line.stored]
  · simp only [lineOf, indexOf, ofValues, if_true]
    by_cases hi : i < m
    · rw [if_pos hi, Line.stored_ofValues]
      simp [hi, List.mem_range]
    · rw [if_neg hi]
      simp [hi, Line.stored]

theorem ofValues_get (rmm : Bool) (m n : Nat) (f : Nat → Nat → Int) (i j : Nat) :
    (ofValues rmm m n f).get i j = if i < m ∧ j < n then f i j else 0 := by
  unfold get
  rw [ofValues_stored]
  by_cases h : i < m ∧ j < n
  · by_cases hz : f i j = 0
    · simp [h, hz]
    · simp [h, hz]
  · rw [if_neg h, if_neg (fun h2 => h ⟨h2.1, h2.2.1⟩)]
    rfl

theorem ofValues_isSymmetric (rmm : Bool) (m n : Nat) (f : Nat → Nat → Int) :
    (ofValues rmm m n f).isSymmetric = true
      ↔ m = n ∧ ∀ i < m, ∀ j < m, f i j = f j i := by
  unfold isSymmetric
  rw [decide_eq_true_iff]
  show (m = n ∧ ∀ i < m, ∀ j < m, (ofValues rmm m n f).get i j = (ofValues rmm m n f).get j i)
    ↔ _
  constructor
  · rintro ⟨hmn, hs⟩
    refine ⟨hmn, fun i hi j hj => ?_⟩
    have := hs i hi j hj
    rw [ofValues_get, ofValues_get, if_pos ⟨hi, by omega⟩, if_pos ⟨hj, by omega⟩] at this
    exact this
  · rintro ⟨hmn, hs⟩
    refine ⟨hmn, fun i hi j hj => ?_⟩
    rw [ofValues_get, ofValues_get, if_pos ⟨hi, by omega⟩, if_pos ⟨hj, by omega⟩]
    exact hs i hi j hj

end CompressedMatrix

namespace SymmetricMatrix

open CompressedMatrix

/-- A storage built from symmetric values satisfies the invariant of the adaptor. -/
theorem ofValues_Inv (rmm : Bool) (n : Nat) (f : Nat → Nat → Int)
    (hs : ∀ i < n, ∀ j < n, f i j = f j i) : Inv ⟨ofValues rmm n n f⟩ := by
  refine ⟨ofValues_WF _ _ _ _, rfl, fun i hi j hj => ?_⟩
  have hi2 : i < n := hi
  have hj2 : j < n := hj
  rw [ofValues_stored, ofValues_stored, hs i hi2 j hj2]
  by_cases hz : f j i = 0
  · simp [hz]
  · simp [hz, hi2, hj2]

theorem ofValues_Inv_of_isSymmetric (rmm : Bool) (m n : Nat) (f : Nat → Nat → Int)
    (h : (ofValues rmm m n f).isSymmetric = true) : Inv ⟨ofValues rmm m n f⟩ := by
  obtain ⟨hmn, hs⟩ := (ofValues_isSymmetric rmm m n f).mp h
  subst hmn
  exact ofValues_Inv rmm m f hs

theorem Matrix_isSymmetric_iff (M : Matrix) :
    M.isSymmetric = true ↔ M.rows = M.columns ∧ ∀ i < M.rows, ∀ j < M.rows, M.get i j = M.get j i := by
  unfold Matrix.isSymmetric
  rw [decide_eq_true_iff]

theorem ofMatrix_isSymmetric (rmm : Bool) (src : Matrix) :
    (CompressedMatrix.ofMatrix rmm src).isSymmetric = src.isSymmetric := by
  rw [Bool.eq_iff_iff, Matrix_isSymmetric_iff]
  exact ofValues_isSymmetric rmm src.rows src.columns src.get

/-- Element values of a matrix satisfying the invariant are symmetric. -/
theorem get_symm {A : SymmetricMatrix} (h : A.Inv) (i j : Nat) : A.get i j = A.get j i := by
  rw [get_eq_cell h, get_eq_cell h, ((Inv_iff A).mp h).2.2 i j]

end SymmetricMatrix

/-! ## Preservation of the invariant -/

namespace SymmetricMatrix

open CompressedMatrix

theorem sized_Inv (rmm : Bool) (n : Nat) : Inv ⟨CompressedMatrix.sized rmm n n⟩ := by
  have hline : ∀ k, (CompressedMatrix.sized rmm n n).line k = [] := by
    intro k
    unfold line CompressedMatrix.sized
    rw [List.getD_eq_getElem?_getD, List.getElem?_replicate]
    split <;> (split <;> rfl)
  apply Inv_of_cell
  · exact WF_of_lines (by simp [CompressedMatrix.sized, lineCount])
      (fun k => by rw [hline]; exact Line.WF_nil _)
  · rfl
  · intro k x
    unfold cell
    rw [hline, hline]
    rfl

theorem default_Inv (rmm : Bool) : Inv (SymmetricMatrix.default rmm) := by
  cases rmm <;> decide

theorem reset_Inv {A : SymmetricMatrix} (h : A.Inv) : A.reset.Inv := by
  obtain ⟨hwf, hsq, _⟩ := (Inv_iff A).mp h
  obtain ⟨h1, h2⟩ := reset_props hwf
  exact Inv_of_cell h1 hsq (fun k x => by
    show A.matrix_.reset.cell k x = A.matrix_.reset.cell x k
    rw [h2, h2])

theorem clear_Inv (A : SymmetricMatrix) : A.clear.Inv := by
  refine ⟨⟨by simp [clear, CompressedMatrix.clear, lineCount], fun l hl => ?_⟩, rfl,
    fun i hi => ?_⟩
  · simp [clear, CompressedMatrix.clear] at hl
  · exact absurd hi (Nat.not_lt_zero _)

theorem resize_Inv {A : SymmetricMatrix} (h : A.Inv) (n : Nat) (preserve : Bool) :
    (A.resize n preserve).Inv := by
  obtain ⟨hwf, _, hsym⟩ := (Inv_iff A).mp h
  obtain ⟨h1, h2⟩ := resize_square_props hwf n
  refine Inv_of_cell h1 rfl (fun k x => ?_)
  show (A.matrix_.resize n n true).cell k x = (A.matrix_.resize n n true).cell x k
  rw [h2, h2, hsym k x]
  by_cases hc : k < n ∧ x < n
  · rw [if_pos hc, if_pos hc.symm]
  · rw [if_neg hc, if_neg (fun h3 => hc h3.symm)]

theorem mapValues_Inv {A : SymmetricMatrix} (h : A.Inv) (f : Int → Int) :
    Inv ⟨A.matrix_.mapValues f⟩ := by
  obtain ⟨hwf, hsq, hsym⟩ := (Inv_iff A).mp h
  obtain ⟨h1, h2⟩ := mapValues_props hwf f
  refine Inv_of_cell h1 hsq (fun k x => ?_)
  show (A.matrix_.mapValues f).cell k x = (A.matrix_.mapValues f).cell x k
  rw [h2, h2, hsym k x]

theorem scaleDiagonal_Inv {A : SymmetricMatrix} (h : A.Inv) (s : Int) :
    (A.scaleDiagonal s).Inv := by
  obtain ⟨hwf, hsq, hsym⟩ := (Inv_iff A).mp h
  obtain ⟨h1, h2⟩ := scaleDiagonal_props hwf s
  refine Inv_of_cell h1 hsq (fun k x => ?_)
  show (A.matrix_.scaleDiagonal s).cell k x = (A.matrix_.scaleDiagonal s).cell x k
  rw [h2, h2]
  by_cases hc : x = k
  · rw [if_pos hc, if_pos hc.symm, hc]
  · rw [if_neg hc, if_neg (fun h3 => hc h3.symm), hsym k x]

theorem insert_state_Inv {A : SymmetricMatrix} (h : A.Inv) {i j : Nat}
    (hi : i < A.matrix_.n) (hj : j < A.matrix_.n) (v : Int) : (A.insert i j v).state.Inv := by
  by_cases hn : A.matrix_.stored i j = none
  · rw [insert_of_none h hi hj v hn]
    exact set_Inv h hi hj v
  · rw [insert_of_some h i j v hn]
    exact h

theorem ofMatrix_Inv (rmm : Bool) (src : Matrix) (hsrc : src.isSymmetric = true) :
    Inv ⟨CompressedMatrix.ofMatrix rmm src⟩ :=
  ofValues_Inv_of_isSymmetric rmm _ _ _ (by
    have := ofMatrix_isSymmetric rmm src
    unfold CompressedMatrix.ofMatrix at this
    rw [this, hsrc])

theorem ofMatrix_ok_Inv (rmm : Bool) (src : Matrix) (A : SymmetricMatrix)
    (hsound : src.TraitSound) (hok : SymmetricMatrix.ofMatrix rmm src = .ok A) : A.Inv := by
  unfold SymmetricMatrix.ofMatrix at hok
  simp only at hok
  split at hok
  · cases hok
  · rename_i hc
    cases hok
    apply ofMatrix_Inv
    rw [ofMatrix_isSymmetric] at hc
    by_cases hs : src.IsSymmetric = true
    · exact hsound hs
    · simp [hs] at hc
      exact hc.2

theorem assign_state_Inv {A : SymmetricMatrix} (h : A.Inv) (rhs : Matrix)
    (hsound : rhs.TraitSound) : (A.assign rhs).state.Inv := by
  unfold assign assignComputation assignPlain
  by_cases hs : rhs.IsSymmetric = true
  · have hsym := hsound hs
    split <;> (try split) <;>
      first
        | exact h
        | exact ofMatrix_Inv _ rhs hsym
  · split
    · split
      · exact h
      · simp only
        split
        · exact h
        · rename_i hc
          have hc2 : rhs.isSymmetric = true := by
            rw [ofMatrix_isSymmetric] at hc
            simpa using hc
          exact ofMatrix_Inv _ rhs hc2
    · split
      · exact h
      · rename_i hc
        have hc2 : rhs.isSymmetric = true := by
          simp [hs] at hc
          exact hc.2
        exact ofMatrix_Inv _ rhs hc2

/-- Committing an element-wise combination with a symmetric operand of matching size keeps
the invariant; a size mismatch leaves the matrix as it was. -/
theorem commit_combine_Inv {A : SymmetricMatrix} (h : A.Inv) (rhs : Matrix)
    (hsym : rhs.isSymmetric = true) (g : Int → Int → Int) (e : Exception) :
    (A.commit (if rhs.rows ≠ A.matrix_.m ∨ rhs.columns ≠ A.matrix_.n then .error e
      else .ok (ofValues A.matrix_.rmm A.matrix_.m A.matrix_.n
        (fun i j => g (A.matrix_.get i j) (rhs.get i j))))).state.Inv := by
  obtain ⟨hr, hs⟩ := (Matrix_isSymmetric_iff rhs).mp hsym
  split
  · exact h
  · rename_i hc
    have hc2 : rhs.rows = A.matrix_.m ∧ rhs.columns = A.matrix_.n := by
      constructor <;> (by_contra hne; exact hc (by tauto))
    show Inv ⟨ofValues A.matrix_.rmm A.matrix_.m A.matrix_.n _⟩
    have hsq : A.matrix_.m = A.matrix_.n := h.2.1
    rw [hsq]
    apply ofValues_Inv
    intro i hi j hj
    have h1 : A.matrix_.get i j = A.matrix_.get j i := get_symm h i j
    rw [h1, hs i (by omega) j (by omega)]

theorem addAssign_state_Inv {A : SymmetricMatrix} (h : A.Inv) (rhs : Matrix)
    (hsound : rhs.TraitSound) : (A.addAssign rhs).state.Inv := by
  have key : rhs.isSymmetric = true → (A.commit (A.matrix_.addAssign rhs)).state.Inv :=
    fun hsym => commit_combine_Inv h rhs hsym (fun a b => a + b) _
  unfold addAssign addAssignComputation addAssignPlain
  by_cases hs : rhs.IsSymmetric = true
  · have hsym := hsound hs
    split <;> (try split) <;>
      first
        | exact h
        | exact key hsym
  · split
    · split
      · exact h
      · simp only
        split
        · exact h
        · rename_i hc
          exact key (by simpa using hc)
    · split
      · exact h
      · rename_i hc
        exact key (by simp [hs] at hc; exact hc.2)

theorem subAssign_state_Inv {A : SymmetricMatrix} (h : A.Inv) (rhs : Matrix)
    (hsound : rhs.TraitSound) : (A.subAssign rhs).state.Inv := by
  have key : rhs.isSymmetric = true → (A.commit (A.matrix_.subAssign rhs)).state.Inv :=
    fun hsym => commit_combine_Inv h rhs hsym (fun a b => a - b) _
  unfold subAssign subAssignComputation subAssignPlain
  by_cases hs : rhs.IsSymmetric = true
  · have hsym := hsound hs
    split <;> (try split) <;>
      first
        | exact h
        | exact key hsym
  · split
    · split
      · exact h
      · simp only
        split
        · exact h
        · rename_i hc
          exact key (by simpa using hc)
    · split
      · exact h
      · rename_i hc
        exact key (by simp [hs] at hc; exact hc.2)

theorem multAssign_state_Inv {A : SymmetricMatrix} (h : A.Inv) (rhs : Matrix) :
    (A.multAssign rhs).state.Inv := by
  unfold multAssign CompressedMatrix.mult
  by_cases hsz : A.matrix_.n ≠ rhs.rows
  · rw [if_pos hsz]
    exact h
  · rw [if_neg hsz]
    simp only
    split
    · exact h
    · rename_i hc
      exact ofValues_Inv_of_isSymmetric _ _ _ _ (by simpa using hc)

/-- Every reachable adaptor state satisfies the structural invariant. -/
theorem Reachable_Inv {A : SymmetricMatrix} (hA : Reachable A) : A.Inv := by
  induction hA with
  | default rmm => exact default_Inv rmm
  | sized rmm n => exact sized_Inv rmm n
  | sizedNonzeros rmm n _ => exact sized_Inv rmm n
  | sizedNonzerosPerLine rmm n _ => exact sized_Inv rmm n
  | copy _ ih => exact ih
  | ofMatrix rmm src A hsound hok => exact ofMatrix_ok_Inv rmm src A hsound hok
  | set i j v _ hi hj ih =>
    have hsq : _ = _ := ih.2.1
    exact set_Inv ih (by unfold rows CompressedMatrix.rows at hi; omega) hj v
  | insert i j v _ hi hj ih =>
    have hsq : _ = _ := ih.2.1
    exact insert_state_Inv ih (by unfold rows CompressedMatrix.rows at hi; omega) hj v
  | erase i j _ _ _ ih => exact erase_Inv ih i j
  | erasePos i pos _ _ hpos ih => exact erasePos_Inv ih i pos hpos
  | eraseRange i first last _ _ hfl _ ih => exact eraseRange_Inv ih i first last hfl
  | reset _ ih => exact reset_Inv ih
  | resetIndex i _ hi ih =>
    have hsq : _ = _ := ih.2.1
    exact resetIndex_Inv ih (by unfold rows CompressedMatrix.rows at hi; omega)
  | clear _ _ => exact clear_Inv _
  | resize n preserve _ ih => exact resize_Inv ih n preserve
  | scale scalar _ ih => exact mapValues_Inv ih _
  | scaleDiagonal scalar _ ih => exact scaleDiagonal_Inv ih scalar
  | mulScalar rhs _ ih => exact mapValues_Inv ih _
  | divScalar rhs _ _ ih => exact mapValues_Inv ih _
  | transpose _ ih => exact ih
  | swapLeft _ _ _ ihB => exact ihB
  | swapRight _ _ ihA _ => exact ihA
  | assignCopy _ _ _ ihr => exact ihr
  | assign rhs _ hsound ih => exact assign_state_Inv ih rhs hsound
  | addAssign rhs _ hsound ih => exact addAssign_state_Inv ih rhs hsound
  | subAssign rhs _ hsound ih => exact subAssign_state_Inv ih rhs hsound
  | multAssign rhs _ ih => exact multAssign_state_Inv ih rhs

end SymmetricMatrix

/-! ## Element access after `set`, and the number of stored elements -/

namespace CompressedMatrix

theorem sum_length_set (ls : List (List Element)) (k : Nat) (l : List Element)
    (hk : k < ls.length) :
    ((ls.set k l).map List.length).sum + (ls.getD k []).length
      = (ls.map List.length).sum + l.length := by
  induction ls generalizing k with
  | nil => simp at hk
  | cons a ls ih =>
    cases k with
    | zero => simp; omega
    | succ k =>
      have := ih k (by simpa using hk)
      simp only [List.set_cons_succ, List.map_cons, List.sum_cons, List.getD_cons_succ]
      omega

theorem nonZeros_setLine (M : CompressedMatrix) (k : Nat) (l : List Element)
    (hk : k < M.lines.length) :
    (M.setLine k l).nonZeros + (M.line k).length = M.nonZeros + l.length :=
  sum_length_set M.lines k l hk

theorem lineLength_insert (l : List Element) (x : Nat) (v : Int) :
    (Line.insert l x v).length = l.length + 1 := by
  induction l with
  | nil => rfl
  | cons e l ih =>
    simp only [Line.insert]
    split
    · simp
    · simp [ih]

theorem nonZeros_setCell_of_none (M : CompressedMatrix) (k x : Nat) (v : Int)
    (hk : k < M.lines.length) (hn : M.cell k x = none) :
    (M.setCell k x v).nonZeros = M.nonZeros + 1 := by
  have h1 := nonZeros_setLine M k (Line.set (M.line k) x v) hk
  rw [Line.set_eq_insert _ _ _ hn, lineLength_insert] at h1
  unfold setCell
  rw [Line.set_eq_insert _ _ _ hn]
  omega

end CompressedMatrix

namespace SymmetricMatrix

open CompressedMatrix

theorem set_get {A : SymmetricMatrix} (h : A.Inv) {i j : Nat} (hi : i < A.matrix_.n)
    (hj : j < A.matrix_.n) (v : Int) (r c : Nat) :
    (A.set i j v).get r c = if (r = i ∧ c = j) ∨ (r = j ∧ c = i) then v else A.get r c := by
  obtain ⟨hwf, hsq, _⟩ := (Inv_iff A).mp h
  rw [get_eq_cell (set_Inv h hi hj v), get_eq_cell h, set_cell hwf hsq hi hj]
  split <;> rfl

theorem set_stored {A : SymmetricMatrix} (h : A.Inv) {i j : Nat} (hi : i < A.matrix_.n)
    (hj : j < A.matrix_.n) (v : Int) :
    (A.set i j v).matrix_.stored i j = some v ∧ (A.set i j v).matrix_.stored j i = some v := by
  obtain ⟨hwf, hsq, _⟩ := (Inv_iff A).mp h
  rw [stored_eq, stored_eq]
  constructor <;> split <;> rw [set_cell hwf hsq hi hj] <;> simp

theorem set_nonZeros_of_none {A : SymmetricMatrix} (h : A.Inv) {i j : Nat}
    (hi : i < A.matrix_.n) (hj : j < A.matrix_.n) (v : Int)
    (hn : A.matrix_.stored i j = none) :
    (A.set i j v).nonZeros = A.nonZeros + (if i = j then 1 else 2) := by
  obtain ⟨hwf, hsq, hsym⟩ := (Inv_iff A).mp h
  obtain ⟨hl, _, _⟩ := square_dims hwf hsq
  have hc1 : A.matrix_.cell i j = none := by
    rw [stored_eq] at hn
    split at hn
    · exact hn
    · rw [hsym i j]; exact hn
  have hc2 : A.matrix_.cell j i = none := by rw [hsym j i]; exact hc1
  unfold nonZeros
  rw [set_matrix]
  by_cases hij : i = j
  · subst hij
    rw [if_pos rfl, if_pos rfl]
    exact nonZeros_setCell_of_none _ _ _ _ (by omega) hc1
  · rw [if_neg hij, if_neg hij]
    split
    · rw [nonZeros_setCell_of_none _ _ _ _ (by simp [setCell]; omega),
        nonZeros_setCell_of_none _ _ _ _ (by omega) hc2]
      rw [cell_setCell _ _ _ _ (by omega), if_neg (by omega)]
      exact hc1
    · rw [nonZeros_setCell_of_none _ _ _ _ (by simp [setCell]; omega),
        nonZeros_setCell_of_none _ _ _ _ (by omega) hc1]
      rw [cell_setCell _ _ _ _ (by omega), if_neg (by omega)]
      exact hc2

theorem assignElement_eq_set (A : SymmetricMatrix) (i j : Nat) (v : Int) :
    A.assignElement i j v = A.set j i v := by
  unfold assignElement call NumericProxy.assign set
  by_cases h : i = j
  · subst h
    simp
  · have h2 : ¬ j = i := fun h2 => h h2.symm
    simp [h, h2]

theorem stored_symm {A : SymmetricMatrix} (h : A.Inv) (i j : Nat) :
    A.matrix_.stored i j = A.matrix_.stored j i := by
  have hsym := ((Inv_iff A).mp h).2.2
  rw [stored_eq, stored_eq]
  split
  · exact hsym i j
  · exact hsym j i

/-- The call of `operator=` either throws and leaves the adaptor as it was, or returns with the storage
built from the source. -/
theorem assign_cases (A : SymmetricMatrix) (rhs : Matrix) :
    A.assign rhs = .invalid_argument A
      ∨ A.assign rhs = .ok ⟨CompressedMatrix.ofMatrix A.matrix_.rmm rhs⟩ := by
  unfold assign assignComputation assignPlain CompressedMatrix.assign
  cases rhs.IsComputation <;> cases rhs.IsLower <;> cases rhs.IsUpper <;>
    cases rhs.IsSymmetric <;> cases (CompressedMatrix.ofMatrix A.matrix_.rmm rhs).isSymmetric <;>
    cases rhs.isSymmetric <;> simp

end SymmetricMatrix

/-! ## Claims on the symmetric adaptor -/

/-- C1: every adaptor state reachable from a constructor (default, sized, copy, successful
conversion) by any sequence of `set`, `insert`, the three `erase` overloads, `reset()`,
`reset(i)`, `clear`, `resize`, `scale`, `scaleDiagonal`, scalar `*=` and `/=`, `transpose`,
`swap` and matrix assignments / compound assignments satisfies the structural invariant: the
storage is square, an element is stored at `(i,j)` if and only if one is stored at `(j,i)`,
with an equal value, and hence `A(i,j) == A(j,i)` for all `i, j < rows()`. -/
theorem C1_reachable_invariant (A : SymmetricMatrix) (h : Reachable A) :
    A.rows = A.columns
      ∧ (∀ i j, A.matrix_.stored i j = A.matrix_.stored j i)
      ∧ (∀ i j, i < A.rows → j < A.rows → A.get i j = A.get j i) := by
  have hinv := SymmetricMatrix.Reachable_Inv h
  exact ⟨hinv.2.1, fun i j => SymmetricMatrix.stored_symm hinv i j,
    fun i j _ _ => SymmetricMatrix.get_symm hinv i j⟩

/-- C1 at a concrete reachable state (column-major storage). -/
theorem C1_reachable_invariant_witness :
    Reachable exampleReachable
      ∧ exampleReachable.rows = exampleReachable.columns
      ∧ (∀ i j, exampleReachable.matrix_.stored i j = exampleReachable.matrix_.stored j i)
      ∧ (∀ i j, i < exampleReachable.rows → j < exampleReachable.rows →
          exampleReachable.get i j = exampleReachable.get j i) :=
  have hr : Reachable exampleReachable :=
    Reachable.resetIndex 0
      (Reachable.scale 3
        (Reachable.insert 1 2 4
          (Reachable.set 0 2 7 (Reachable.sized false 3) (by decide) (by decide))
          (by decide) (by decide)))
      (by decide)
  ⟨hr, C1_reachable_invariant exampleReachable hr⟩

/-- C2: for an adaptor `A` and valid indices `i, j < rows()`, after `A(i,j) = v` through
the mutable element-access proxy both `A(i,j) == v` and `A(j,i) == v` hold; when `i == j`
the value is written once. -/
theorem C2_proxy_assignment (A : SymmetricMatrix) (h : A.Inv) (i j : Nat) (hi : i < A.rows)
    (hj : j < A.rows) (v : Int) :
    (A.assignElement i j v).get i j = v ∧ (A.assignElement i j v).get j i = v
      ∧ (i = j → (A.assignElement i j v).matrix_ = A.matrix_.set i i v) := by
  have hsq : A.matrix_.m = A.matrix_.n := h.2.1
  have hi2 : i < A.matrix_.n := by unfold SymmetricMatrix.rows CompressedMatrix.rows at hi; omega
  have hj2 : j < A.matrix_.n := by unfold SymmetricMatrix.rows CompressedMatrix.rows at hj; omega
  refine ⟨?_, ?_, ?_⟩
  · rw [SymmetricMatrix.assignElement_eq_set, SymmetricMatrix.set_get h hj2 hi2]
    simp
  · rw [SymmetricMatrix.assignElement_eq_set, SymmetricMatrix.set_get h hj2 hi2]
    simp
  · intro hij
    subst hij
    simp [SymmetricMatrix.assignElement, SymmetricMatrix.call, NumericProxy.assign]

/-- C2 at a concrete input: `A(0,4) = 9` on the documented 5 × 5 matrix. -/
theorem C2_proxy_assignment_witness :
    (docMatrix true).Inv ∧ 0 < (docMatrix true).rows ∧ 4 < (docMatrix true).rows
      ∧ ((docMatrix true).assignElement 0 4 9).get 0 4 = 9
      ∧ ((docMatrix true).assignElement 0 4 9).get 4 0 = 9
      ∧ (0 = 4 → ((docMatrix true).assignElement 0 4 9).matrix_
          = (docMatrix true).matrix_.set 0 0 9) :=
  ⟨by decide, by decide, by decide,
    C2_proxy_assignment (docMatrix true) (by decide) 0 4 (by decide) (by decide) 9⟩

/-- C3: for an adaptor state satisfying the symmetry invariant, indices `i, j < rows()` and
a value `v`: after `set(i,j,v)` both `A(i,j)` and `A(j,i)` read `v` and are stored (whether
or not the two elements existed before; a single write when `i == j`), and every position
other than `(i,j)` and `(j,i)` reads the same value as before the call. -/
theorem C3_set (A : SymmetricMatrix) (h : A.Inv) (i j : Nat) (hi : i < A.rows)
    (hj : j < A.rows) (v : Int) :
    (A.set i j v).get i j = v ∧ (A.set i j v).get j i = v
      ∧ (A.set i j v).matrix_.stored i j = some v ∧ (A.set i j v).matrix_.stored j i = some v
      ∧ (i = j → (A.set i j v).matrix_ = A.matrix_.set i j v)
      ∧ (∀ r c, ¬ ((r = i ∧ c = j) ∨ (r = j ∧ c = i)) → (A.set i j v).get r c = A.get r c) := by
  have hsq : A.matrix_.m = A.matrix_.n := h.2.1
  have hi2 : i < A.matrix_.n := by unfold SymmetricMatrix.rows CompressedMatrix.rows at hi; omega
  have hj2 : j < A.matrix_.n := by unfold SymmetricMatrix.rows CompressedMatrix.rows at hj; omega
  have hst := SymmetricMatrix.set_stored h hi2 hj2 v
  refine ⟨?_, ?_, hst.1, hst.2, ?_, ?_⟩
  · rw [SymmetricMatrix.set_get h hi2 hj2]; simp
  · rw [SymmetricMatrix.set_get h hi2 hj2]; simp
  · intro hij
    simp [SymmetricMatrix.set, hij]
  · intro r c hrc
    rw [SymmetricMatrix.set_get h hi2 hj2, if_neg hrc]

/-- C3 at a concrete input: `set(3,1,-5)` on the documented 5 × 5 matrix, column-major. -/
theorem C3_set_witness :
    (docMatrix false).Inv ∧ 3 < (docMatrix false).rows ∧ 1 < (docMatrix false).rows
      ∧ ((docMatrix false).set 3 1 (-5)).get 3 1 = -5
      ∧ ((docMatrix false).set 3 1 (-5)).get 1 3 = -5
      ∧ ((docMatrix false).set 3 1 (-5)).matrix_.stored 3 1 = some (-5)
      ∧ ((docMatrix false).set 3 1 (-5)).matrix_.stored 1 3 = some (-5)
      ∧ (3 = 1 → ((docMatrix false).set 3 1 (-5)).matrix_ = (docMatrix false).matrix_.set 3 1 (-5))
      ∧ (∀ r c, ¬ ((r = 3 ∧ c = 1) ∨ (r = 1 ∧ c = 3)) →
          ((docMatrix false).set 3 1 (-5)).get r c = (docMatrix false).get r c) :=
  ⟨by decide, by decide, by decide,
    C3_set (docMatrix false) (by decide) 3 1 (by decide) (by decide) (-5)⟩

/-- C6: for an adaptor state satisfying the symmetry invariant and a valid `i`: after
`A.reset(i)` every element in row `i` and in column `i` reads zero, and every element
`A(r,c)` with `r != i` and `c != i` has the value it had before the call; this holds for
row-major and for column-major storage.  On the documented 5 × 5 example `reset(1)` yields
the documented result, in both storage orders. -/
theorem C6_reset_index (A : SymmetricMatrix) (h : A.Inv) (i : Nat) (hi : i < A.rows) :
    (∀ c, (A.resetIndex i).get i c = 0) ∧ (∀ r, (A.resetIndex i).get r i = 0)
      ∧ (∀ r c, r ≠ i → c ≠ i → (A.resetIndex i).get r c = A.get r c)
      ∧ (∀ rmm : Bool, ∀ r < 5, ∀ c < 5,
          (docMatrix rmm).get r c = (docRows.getD r []).getD c 0
            ∧ ((docMatrix rmm).resetIndex 1).get r c = (docRowsReset.getD r []).getD c 0) := by
  have hsq : A.matrix_.m = A.matrix_.n := h.2.1
  have hi2 : i < A.matrix_.n := by unfold SymmetricMatrix.rows CompressedMatrix.rows at hi; omega
  have hinv := SymmetricMatrix.resetIndex_Inv h hi2
  have hget : ∀ r c, (A.resetIndex i).get r c = if r = i ∨ c = i then 0 else A.get r c := by
    intro r c
    rw [SymmetricMatrix.get_eq_cell hinv, SymmetricMatrix.get_eq_cell h,
      SymmetricMatrix.resetIndex_cell h hi2]
    split <;> rfl
  refine ⟨fun c => ?_, fun r => ?_, fun r c hr hc => ?_, ?_⟩
  · rw [hget]; simp
  · rw [hget]; simp
  · rw [hget, if_neg (by tauto)]
  · intro rmm
    cases rmm <;> decide

/-- C6 at the documented 5 × 5 matrix, row-major storage, `reset(1)`. -/
theorem C6_reset_index_witness :
    (docMatrix true).Inv ∧ 1 < (docMatrix true).rows
      ∧ (∀ c, ((docMatrix true).resetIndex 1).get 1 c = 0)
      ∧ (∀ r, ((docMatrix true).resetIndex 1).get r 1 = 0)
      ∧ (∀ r c, r ≠ 1 → c ≠ 1 →
          ((docMatrix true).resetIndex 1).get r c = (docMatrix true).get r c)
      ∧ (∀ rmm : Bool, ∀ r < 5, ∀ c < 5,
          (docMatrix rmm).get r c = (docRows.getD r []).getD c 0
            ∧ ((docMatrix rmm).resetIndex 1).get r c = (docRowsReset.getD r []).getD c 0) :=
  ⟨by decide, by decide, C6_reset_index (docMatrix true) (by decide) 1 (by decide)⟩

/-- C7: for a matrix `M` that is symmetric (square with `M(i,j) == M(j,i)`) and whose type
is not flagged lower or upper, constructing the adaptor from `M` succeeds and yields
`A(i,j) == M(i,j)` for all `i`, `j`, with `rows() == columns() == M.rows()`. -/
theorem C7_conversion_roundtrip (rmm : Bool) (M : Matrix) (hsym : M.isSymmetric = true)
    (hL : M.IsLower = false) (hU : M.IsUpper = false) :
    ∃ A, SymmetricMatrix.ofMatrix rmm M = .ok A
      ∧ (∀ i j, i < M.rows → j < M.rows → A.get i j = M.get i j)
      ∧ A.rows = M.rows ∧ A.columns = M.rows := by
  obtain ⟨hsq, _⟩ := (SymmetricMatrix.Matrix_isSymmetric_iff M).mp hsym
  refine ⟨⟨CompressedMatrix.ofMatrix rmm M⟩, ?_, ?_, rfl, ?_⟩
  · unfold SymmetricMatrix.ofMatrix
    simp [hL, hU, SymmetricMatrix.ofMatrix_isSymmetric, hsym]
  · intro i j hi hj
    show (CompressedMatrix.ofValues rmm M.rows M.columns M.get).get i j = _
    rw [CompressedMatrix.ofValues_get, if_pos ⟨hi, by omega⟩]
  · exact hsq.symm

/-- C7 at the documented 5 × 5 matrix. -/
theorem C7_conversion_roundtrip_witness :
    (matrixOfRows docRows).isSymmetric = true
      ∧ ∃ A, SymmetricMatrix.ofMatrix true (matrixOfRows docRows) = .ok A
        ∧ (∀ i j, i < (matrixOfRows docRows).rows → j < (matrixOfRows docRows).rows →
            A.get i j = (matrixOfRows docRows).get i j)
        ∧ A.rows = (matrixOfRows docRows).rows ∧ A.columns = (matrixOfRows docRows).rows :=
  ⟨by decide, C7_conversion_roundtrip true (matrixOfRows docRows) (by decide) rfl rfl⟩

/-- C8: the conversion constructor and `operator=` from a foreign matrix (the overload for
plain matrices and the overload for computations) throw `std::invalid_argument` if and only
if the source type is flagged lower or upper, or the source is not statically known
symmetric and fails the runtime symmetry check; in every other case they succeed. -/
theorem C8_conversion_throws_iff (rmm : Bool) (A : SymmetricMatrix) (rhs : Matrix) :
    ((∃ e, SymmetricMatrix.ofMatrix rmm rhs = .error e)
        ↔ (rhs.IsLower = true ∨ rhs.IsUpper = true
            ∨ (rhs.IsSymmetric = false ∧ rhs.isSymmetric = false)))
      ∧ ((∃ B, SymmetricMatrix.ofMatrix rmm rhs = .ok B)
        ↔ ¬ (rhs.IsLower = true ∨ rhs.IsUpper = true
            ∨ (rhs.IsSymmetric = false ∧ rhs.isSymmetric = false)))
      ∧ ((A.assignPlain rhs).threw = true
        ↔ (rhs.IsLower = true ∨ rhs.IsUpper = true
            ∨ (rhs.IsSymmetric = false ∧ rhs.isSymmetric = false)))
      ∧ ((A.assignComputation rhs).threw = true
        ↔ (rhs.IsLower = true ∨ rhs.IsUpper = true
            ∨ (rhs.IsSymmetric = false ∧ rhs.isSymmetric = false))) := by
  have hconv := SymmetricMatrix.ofMatrix_isSymmetric rmm rhs
  have hconv2 := SymmetricMatrix.ofMatrix_isSymmetric A.matrix_.rmm rhs
  refine ⟨?_, ?_, ?_, ?_⟩
  · unfold SymmetricMatrix.ofMatrix
    simp only [hconv]
    cases rhs.IsLower <;> cases rhs.IsUpper <;> cases rhs.IsSymmetric <;>
      cases rhs.isSymmetric <;> simp
  · unfold SymmetricMatrix.ofMatrix
    simp only [hconv]
    cases rhs.IsLower <;> cases rhs.IsUpper <;> cases rhs.IsSymmetric <;>
      cases rhs.isSymmetric <;> simp
  · unfold SymmetricMatrix.assignPlain
    cases rhs.IsLower <;> cases rhs.IsUpper <;> cases rhs.IsSymmetric <;>
      cases rhs.isSymmetric <;> simp [Outcome.threw]
  · unfold SymmetricMatrix.assignComputation
    simp only [hconv2]
    cases rhs.IsLower <;> cases rhs.IsUpper <;> cases rhs.IsSymmetric <;>
      cases rhs.isSymmetric <;> simp [Outcome.threw]

/-- C9: whenever `operator=` from a foreign matrix (plain matrix or computation) fails with
`std::invalid_argument`, the adaptor is exactly what it was before the call; on success the
adaptor has the size of the source and every element equals the corresponding element of
the source. -/
theorem C9_assign_strong_guarantee (A : SymmetricMatrix) (rhs : Matrix) :
    ((A.assign rhs).threw = true → (A.assign rhs).state = A)
      ∧ ((A.assign rhs).threw = false →
          (A.assign rhs).state.rows = rhs.rows ∧ (A.assign rhs).state.columns = rhs.columns
            ∧ ∀ i j, i < rhs.rows → j < rhs.columns →
                (A.assign rhs).state.get i j = rhs.get i j) := by
  have hok : ∀ r : Bool,
      (SymmetricMatrix.mk (CompressedMatrix.ofMatrix r rhs)).rows = rhs.rows
        ∧ (SymmetricMatrix.mk (CompressedMatrix.ofMatrix r rhs)).columns = rhs.columns
        ∧ ∀ i j, i < rhs.rows → j < rhs.columns →
            (SymmetricMatrix.mk (CompressedMatrix.ofMatrix r rhs)).get i j = rhs.get i j := by
    intro r
    refine ⟨rfl, rfl, fun i j hi hj => ?_⟩
    show (CompressedMatrix.ofValues r rhs.rows rhs.columns rhs.get).get i j = _
    rw [CompressedMatrix.ofValues_get, if_pos ⟨hi, hj⟩]
  rcases SymmetricMatrix.assign_cases A rhs with hc | hc
  · rw [hc]
    exact ⟨fun _ => rfl, fun hthrew => by simp [Outcome.threw] at hthrew⟩
  · rw [hc]
    exact ⟨fun hthrew => by simp [Outcome.threw] at hthrew, fun _ => hok _⟩

/-- C10: for an adaptor state satisfying the symmetry invariant and valid `i`, `j` with no
element stored at `(i,j)`: `A.insert(i,j,v)` succeeds and stores `v` at both `(i,j)` and
`(j,i)` (one new element if `i == j`, two otherwise); an immediately following
`A.insert(i,j,v2)` fails with `std::invalid_argument` and leaves the matrix exactly as it
was after the first insert. -/
theorem C10_insert_duplicate (A : SymmetricMatrix) (h : A.Inv) (i j : Nat) (hi : i < A.rows)
    (hj : j < A.rows) (hn : A.matrix_.stored i j = none) (v v2 : Int) :
    ∃ A1, A.insert i j v = .ok A1
      ∧ A1.matrix_.stored i j = some v ∧ A1.matrix_.stored j i = some v
      ∧ A1.nonZeros = A.nonZeros + (if i = j then 1 else 2)
      ∧ A1.insert i j v2 = .invalid_argument A1 := by
  have hsq : A.matrix_.m = A.matrix_.n := h.2.1
  have hi2 : i < A.matrix_.n := by unfold SymmetricMatrix.rows CompressedMatrix.rows at hi; omega
  have hj2 : j < A.matrix_.n := by unfold SymmetricMatrix.rows CompressedMatrix.rows at hj; omega
  have hst := SymmetricMatrix.set_stored h hi2 hj2 v
  refine ⟨A.set i j v, SymmetricMatrix.insert_of_none h hi2 hj2 v hn, hst.1, hst.2,
    SymmetricMatrix.set_nonZeros_of_none h hi2 hj2 v hn, ?_⟩
  apply SymmetricMatrix.insert_of_some (SymmetricMatrix.set_Inv h hi2 hj2 v)
  rw [hst.1]
  exact fun hc => nomatch hc

/-- C10 at a concrete input: inserting at the free position `(0,4)` of the documented
5 × 5 matrix, twice. -/
theorem C10_insert_duplicate_witness :
    (docMatrix true).Inv ∧ (docMatrix true).matrix_.stored 0 4 = none
      ∧ ∃ A1, (docMatrix true).insert 0 4 7 = .ok A1
        ∧ A1.matrix_.stored 0 4 = some 7 ∧ A1.matrix_.stored 4 0 = some 7
        ∧ A1.nonZeros = (docMatrix true).nonZeros + (if 0 = 4 then 1 else 2)
        ∧ A1.insert 0 4 9 = .invalid_argument A1 :=
  ⟨by decide, by decide,
    C10_insert_duplicate (docMatrix true) (by decide) 0 4 (by decide) (by decide) (by decide) 7 9⟩

/-! ## The three `erase` overloads -/

namespace CompressedMatrix

/-- A change of the cells described by a condition that is symmetric in line and index
reads the same in row/column coordinates, whatever the storage order. -/
theorem stored_of_cell {M M2 : CompressedMatrix} (hr : M2.rmm = M.rmm)
    (P : Nat → Nat → Prop) [∀ k x, Decidable (P k x)] (hP : ∀ k x, P k x ↔ P x k)
    (u : Option Int) (hc : ∀ k x, M2.cell k x = if P k x then u else M.cell k x)
    (r c : Nat) : M2.stored r c = if P r c then u else M.stored r c := by
  rw [stored_eq, stored_eq, hr]
  split
  · exact hc r c
  · rw [hc c r]
    by_cases h : P r c
    · rw [if_pos h, if_pos ((hP r c).mp h)]
    · rw [if_neg h, if_neg (fun h2 => h ((hP c r).mp h2))]

theorem cell_ne_none_length {M : CompressedMatrix} {k x : Nat} (h : M.cell k x ≠ none) :
    k < M.lines.length := by
  by_contra hk
  exact h (M.cell_of_lines_length_le k x (by omega))

theorem nonZeros_eraseCell {M : CompressedMatrix} {k x : Nat} (h : M.cell k x ≠ none) :
    (M.eraseCell k x).nonZeros + 1 = M.nonZeros := by
  have hk := cell_ne_none_length h
  have hfind : Line.find (M.line k) x < (M.line k).length := by
    have h1 := Line.find_le_length (M.line k) x
    have h2 : Line.find (M.line k) x ≠ (M.line k).length :=
      fun h3 => h ((Line.find_eq_length_iff _ _).mp h3)
    omega
  have h1 := nonZeros_setLine M k (Line.erase (M.line k) (Line.find (M.line k) x)) hk
  have h2 : (Line.erase (M.line k) (Line.find (M.line k) x)).length + 1 = (M.line k).length := by
    unfold Line.erase
    rw [List.length_eraseIdx, if_pos hfind]
    omega
  unfold eraseCell erasePos
  omega

end CompressedMatrix

namespace SymmetricMatrix

open CompressedMatrix

theorem erasePos_cell {A : SymmetricMatrix} (hwf : A.matrix_.WF) (i pos : Nat)
    (hlt : pos < (A.matrix_.line i).length) (k x : Nat) :
    (A.erasePos i pos).matrix_.cell k x
      = if (k = i ∧ x = indexAt A.matrix_ i pos) ∨ (k = indexAt A.matrix_ i pos ∧ x = i)
        then none else A.matrix_.cell k x := by
  rw [erasePos_matrix hwf i pos hlt]
  split
  · rename_i hij
    rw [cell_eraseCell hwf, ← hij]
    simp
  · rw [cell_eraseCell (WF_eraseCell hwf _ _), cell_eraseCell hwf]
    by_cases h1 : k = i ∧ x = indexAt A.matrix_ i pos
    · simp [h1]
    · simp [h1]

theorem erasePos_rmm {A : SymmetricMatrix} (hwf : A.matrix_.WF) (i pos : Nat)
    (hlt : pos < (A.matrix_.line i).length) :
    (A.erasePos i pos).matrix_.rmm = A.matrix_.rmm := by
  rw [erasePos_matrix hwf i pos hlt]
  split <;> simp

/-- Erasing a stored element and its mirror removes one element on the diagonal and two
elements off the diagonal. -/
theorem nonZeros_erase_pair {M : CompressedMatrix} (hwf : M.WF) (i j : Nat)
    (h1 : M.cell i j ≠ none) (h2 : M.cell j i ≠ none) :
    (if i = j then M.eraseCell i i else (M.eraseCell j i).eraseCell i j).nonZeros
      + (if i = j then 1 else 2) = M.nonZeros := by
  by_cases hij : i = j
  · subst hij
    rw [if_pos rfl, if_pos rfl]
    exact nonZeros_eraseCell h1
  · rw [if_neg hij, if_neg hij]
    have h3 : (M.eraseCell j i).cell i j ≠ none := by
      rw [cell_eraseCell hwf, if_neg (fun h4 => hij h4.1)]
      exact h1
    have h4 := nonZeros_eraseCell h3
    have h5 := nonZeros_eraseCell h2
    omega

theorem erase_nonZeros {A : SymmetricMatrix} (h : A.Inv) (i j : Nat)
    (hs : A.matrix_.stored i j ≠ none) :
    (A.erase i j).nonZeros + (if i = j then 1 else 2) = A.nonZeros := by
  obtain ⟨hwf, _, hsym⟩ := (Inv_iff A).mp h
  have hc1 : A.matrix_.cell i j ≠ none := by
    rw [stored_eq] at hs
    split at hs
    · exact hs
    · rw [hsym i j]; exact hs
  have hc2 : A.matrix_.cell j i ≠ none := by rw [hsym j i]; exact hc1
  have key := nonZeros_erase_pair hwf i j hc1 hc2
  have key2 := nonZeros_erase_pair hwf j i hc2 hc1
  unfold nonZeros
  rw [erase_matrix]
  by_cases hij : i = j
  · rw [if_pos hij] at key ⊢
    rw [if_pos hij] at key ⊢
    exact key
  · have hji : ¬ j = i := fun h2 => hij h2.symm
    rw [if_neg hij] at key ⊢
    rw [if_neg hij] at key
    rw [if_neg hji, if_neg hji] at key2
    split
    · exact key2
    · exact key

theorem cell_indexAt (M : CompressedMatrix) (i pos : Nat)
    (hlt : pos < (M.line i).length) : M.cell i (indexAt M i pos) ≠ none := by
  unfold cell
  intro hnone
  apply (Line.stored_eq_none_iff _ _).mp hnone
  unfold indexAt
  rw [List.getD_eq_getElem _ _ hlt]
  exact List.mem_map.mpr ⟨_, List.getElem_mem hlt, rfl⟩

theorem erasePos_nonZeros {A : SymmetricMatrix} (h : A.Inv) (i pos : Nat)
    (hlt : pos < (A.matrix_.line i).length) :
    (A.erasePos i pos).nonZeros
      + (if i = indexAt A.matrix_ i pos then 1 else 2) = A.nonZeros := by
  obtain ⟨hwf, _, hsym⟩ := (Inv_iff A).mp h
  have hc1 := cell_indexAt A.matrix_ i pos hlt
  have hc2 : A.matrix_.cell (indexAt A.matrix_ i pos) i ≠ none := by
    rw [hsym _ i]; exact hc1
  have key := nonZeros_erase_pair hwf i (indexAt A.matrix_ i pos) hc1 hc2
  unfold nonZeros
  rw [erasePos_matrix hwf i pos hlt]
  by_cases hij : i = indexAt A.matrix_ i pos
  · rw [if_pos hij] at key ⊢
    rw [if_pos hij] at key ⊢
    exact key
  · rw [if_neg hij] at key ⊢
    rw [if_neg hij] at key ⊢
    exact key

end SymmetricMatrix

/-- C11: for each erase overload — `erase(i,j)`, `erase(i,pos)` and `erase(i,first,last)` —
on an adaptor satisfying the symmetry invariant: afterwards every erased element and its
mirror are both absent (a stored diagonal element accounts for one removed element, an
off-diagonal one for two), every other position holds what it held before, and the symmetry
invariant still holds; for the range overload this is true for every element in
`[first,last)`.  Erasing at the end iterator changes nothing. -/
theorem C11_erase_overloads (A : SymmetricMatrix) (h : A.Inv) (i : Nat) :
    (∀ j,
        (A.erase i j).matrix_.stored i j = none ∧ (A.erase i j).matrix_.stored j i = none
          ∧ (∀ r c, ¬ ((r = i ∧ c = j) ∨ (r = j ∧ c = i)) →
              (A.erase i j).matrix_.stored r c = A.matrix_.stored r c)
          ∧ (A.matrix_.stored i j ≠ none →
              (A.erase i j).nonZeros + (if i = j then 1 else 2) = A.nonZeros)
          ∧ (A.erase i j).Inv)
      ∧ (∀ pos, pos < A.matrix_.end_ i →
          (A.erasePos i pos).matrix_.stored i (SymmetricMatrix.indexAt A.matrix_ i pos) = none
            ∧ (A.erasePos i pos).matrix_.stored (SymmetricMatrix.indexAt A.matrix_ i pos) i = none
            ∧ (∀ r c, ¬ ((r = i ∧ c = SymmetricMatrix.indexAt A.matrix_ i pos)
                  ∨ (r = SymmetricMatrix.indexAt A.matrix_ i pos ∧ c = i)) →
                (A.erasePos i pos).matrix_.stored r c = A.matrix_.stored r c)
            ∧ (A.erasePos i pos).nonZeros
                + (if i = SymmetricMatrix.indexAt A.matrix_ i pos then 1 else 2) = A.nonZeros
            ∧ (A.erasePos i pos).Inv)
      ∧ A.erasePos i (A.matrix_.end_ i) = A
      ∧ (∀ first last, first ≤ last → last ≤ A.matrix_.end_ i →
          (∀ j ∈ (((A.matrix_.line i).drop first).take (last - first)).map (fun e => e.index),
              (A.eraseRange i first last).matrix_.stored i j = none
                ∧ (A.eraseRange i first last).matrix_.stored j i = none)
            ∧ (∀ r c,
                ¬ ((r = i ∧ c ∈ (((A.matrix_.line i).drop first).take (last - first)).map
                      (fun e => e.index))
                  ∨ (c = i ∧ r ∈ (((A.matrix_.line i).drop first).take (last - first)).map
                      (fun e => e.index))) →
                (A.eraseRange i first last).matrix_.stored r c = A.matrix_.stored r c)
            ∧ (A.eraseRange i first last).Inv) := by
  obtain ⟨hwf, hsq, hsym⟩ := (SymmetricMatrix.Inv_iff A).mp h
  refine ⟨fun j => ?_, fun pos hpos => ?_, SymmetricMatrix.erasePos_end A i,
    fun first last hfl _ => ?_⟩
  · have hst := CompressedMatrix.stored_of_cell (SymmetricMatrix.erase_dims A i j).1
      (fun k x => (k = i ∧ x = j) ∨ (k = j ∧ x = i)) (fun k x => by tauto) none
      (SymmetricMatrix.erase_cell hwf i j)
    refine ⟨?_, ?_, fun r c hrc => ?_, SymmetricMatrix.erase_nonZeros h i j,
      SymmetricMatrix.erase_Inv h i j⟩
    · rw [hst]; simp
    · rw [hst]; simp
    · rw [hst, if_neg hrc]
  · have hlt : pos < (A.matrix_.line i).length := hpos
    have hst := CompressedMatrix.stored_of_cell (SymmetricMatrix.erasePos_rmm hwf i pos hlt)
      (fun k x => (k = i ∧ x = SymmetricMatrix.indexAt A.matrix_ i pos)
        ∨ (k = SymmetricMatrix.indexAt A.matrix_ i pos ∧ x = i)) (fun k x => by tauto) none
      (SymmetricMatrix.erasePos_cell hwf i pos hlt)
    refine ⟨?_, ?_, fun r c hrc => ?_, SymmetricMatrix.erasePos_nonZeros h i pos hlt,
      SymmetricMatrix.erasePos_Inv h i pos (Nat.le_of_lt hpos)⟩
    · rw [hst]; simp
    · rw [hst]; simp
    · rw [hst, if_neg hrc]
  · obtain ⟨_, hr, _, _, hcell⟩ := SymmetricMatrix.eraseRange_props hwf i first last hfl
    have hst := CompressedMatrix.stored_of_cell hr
      (fun k x =>
        (k = i ∧ x ∈ (((A.matrix_.line i).drop first).take (last - first)).map
            (fun e => e.index))
        ∨ (x = i ∧ k ∈ (((A.matrix_.line i).drop first).take (last - first)).map
            (fun e => e.index)))
      (fun k x => by tauto) none hcell
    refine ⟨fun j hj => ⟨?_, ?_⟩, fun r c hrc => ?_,
      SymmetricMatrix.eraseRange_Inv h i first last hfl⟩
    · rw [hst, if_pos (Or.inl ⟨rfl, hj⟩)]
    · rw [hst, if_pos (Or.inr ⟨rfl, hj⟩)]
    · rw [hst, if_neg hrc]

/-- C11 at a concrete input: the documented 5 × 5 matrix, column-major storage, line 2. -/
theorem C11_erase_overloads_witness :
    (docMatrix false).Inv ∧ (1 : Nat) < (docMatrix false).matrix_.end_ 2
      ∧ ((docMatrix false).erase 2 3).matrix_.stored 2 3 = none
      ∧ ((docMatrix false).erasePos 2 1).matrix_.stored 1 2 = none
      ∧ ((docMatrix false).erasePos 2 1).nonZeros + 2 = (docMatrix false).nonZeros
      ∧ ((docMatrix false).eraseRange 2 1 4).matrix_.stored 2 3 = none
      ∧ ((docMatrix false).eraseRange 2 1 4).matrix_.stored 3 2 = none
      ∧ ((docMatrix false).eraseRange 2 1 4).matrix_.stored 2 2 = none
      ∧ ((docMatrix false).eraseRange 2 1 4).matrix_.stored 2 4 = some (-2)
      ∧ ((docMatrix false).eraseRange 2 1 4).Inv :=
  have hc := C11_erase_overloads (docMatrix false) (by decide) 2
  have hr := hc.2.2.2 1 4 (by decide) (by decide)
  have hp := hc.2.1 1 (by decide)
  ⟨by decide, by decide, (hc.1 3).1, hp.2.1, hp.2.2.2.1,
    (hr.1 3 (by decide)).1, (hr.1 3 (by decide)).2, (hr.1 2 (by decide)).1,
    by decide, hr.2.2⟩

/-! ## Compound assignment with a matrix operand -/

namespace SymmetricMatrix

open CompressedMatrix

/-- The outcome of `operator+=`: a throw that leaves the adaptor as it was when the operand
is flagged, not symmetric or of another size, the element-wise sum otherwise. -/
theorem addAssign_eq (A : SymmetricMatrix) (rhs : Matrix) (hsound : rhs.TraitSound) :
    A.addAssign rhs
      = if rhs.IsLower = true ∨ rhs.IsUpper = true ∨ rhs.isSymmetric = false
            ∨ rhs.rows ≠ A.matrix_.m ∨ rhs.columns ≠ A.matrix_.n
        then .invalid_argument A
        else .ok ⟨ofValues A.matrix_.rmm A.matrix_.m A.matrix_.n
          (fun i j => A.matrix_.get i j + rhs.get i j)⟩ := by
  have hs : rhs.IsSymmetric = true → rhs.isSymmetric = true := hsound
  unfold addAssign addAssignComputation addAssignPlain commit CompressedMatrix.addAssign
  by_cases hsz : rhs.rows ≠ A.matrix_.m ∨ rhs.columns ≠ A.matrix_.n
  · have hsz2 : (rhs.IsLower = true ∨ rhs.IsUpper = true ∨ rhs.isSymmetric = false
        ∨ rhs.rows ≠ A.matrix_.m ∨ rhs.columns ≠ A.matrix_.n) := by tauto
    rw [if_pos hsz2]
    simp only [if_pos hsz]
    cases rhs.IsComputation <;> cases rhs.IsLower <;> cases rhs.IsUpper <;>
      cases rhs.IsSymmetric <;> cases rhs.isSymmetric <;> simp
  · have hiff : (rhs.IsLower = true ∨ rhs.IsUpper = true ∨ rhs.isSymmetric = false
        ∨ rhs.rows ≠ A.matrix_.m ∨ rhs.columns ≠ A.matrix_.n)
        ↔ (rhs.IsLower = true ∨ rhs.IsUpper = true ∨ rhs.isSymmetric = false) := by tauto
    simp only [if_neg hsz, hiff]
    revert hs
    cases rhs.IsComputation <;> cases rhs.IsLower <;> cases rhs.IsUpper <;>
      cases rhs.IsSymmetric <;> cases rhs.isSymmetric <;> simp

/-- The outcome of `operator-=`. -/
theorem subAssign_eq (A : SymmetricMatrix) (rhs : Matrix) (hsound : rhs.TraitSound) :
    A.subAssign rhs
      = if rhs.IsLower = true ∨ rhs.IsUpper = true ∨ rhs.isSymmetric = false
            ∨ rhs.rows ≠ A.matrix_.m ∨ rhs.columns ≠ A.matrix_.n
        then .invalid_argument A
        else .ok ⟨ofValues A.matrix_.rmm A.matrix_.m A.matrix_.n
          (fun i j => A.matrix_.get i j - rhs.get i j)⟩ := by
  have hs : rhs.IsSymmetric = true → rhs.isSymmetric = true := hsound
  unfold subAssign subAssignComputation subAssignPlain commit CompressedMatrix.subAssign
  by_cases hsz : rhs.rows ≠ A.matrix_.m ∨ rhs.columns ≠ A.matrix_.n
  · have hsz2 : (rhs.IsLower = true ∨ rhs.IsUpper = true ∨ rhs.isSymmetric = false
        ∨ rhs.rows ≠ A.matrix_.m ∨ rhs.columns ≠ A.matrix_.n) := by tauto
    rw [if_pos hsz2]
    simp only [if_pos hsz]
    cases rhs.IsComputation <;> cases rhs.IsLower <;> cases rhs.IsUpper <;>
      cases rhs.IsSymmetric <;> cases rhs.isSymmetric <;> simp
  · have hiff : (rhs.IsLower = true ∨ rhs.IsUpper = true ∨ rhs.isSymmetric = false
        ∨ rhs.rows ≠ A.matrix_.m ∨ rhs.columns ≠ A.matrix_.n)
        ↔ (rhs.IsLower = true ∨ rhs.IsUpper = true ∨ rhs.isSymmetric = false) := by tauto
    simp only [if_neg hsz, hiff]
    revert hs
    cases rhs.IsComputation <;> cases rhs.IsLower <;> cases rhs.IsUpper <;>
      cases rhs.IsSymmetric <;> cases rhs.isSymmetric <;> simp

/-- What a guarded element-wise combination does: the throw condition, the unchanged state
on a throw, and the combined elements on success. -/
theorem combine_outcome (A : SymmetricMatrix) (c : Prop) [Decidable c] (f : Nat → Nat → Int)
    (r : Outcome SymmetricMatrix)
    (hr : r = if c then .invalid_argument A
      else .ok ⟨ofValues A.matrix_.rmm A.matrix_.m A.matrix_.n f⟩) :
    (r.threw = true ↔ c) ∧ (r.threw = true → r.state = A)
      ∧ (r.threw = false → r.state.rows = A.rows ∧ r.state.columns = A.columns
          ∧ ∀ i j, i < A.rows → j < A.columns → r.state.get i j = f i j) := by
  subst hr
  by_cases hc : c
  · rw [if_pos hc]
    simp [Outcome.threw, Outcome.state, hc]
  · rw [if_neg hc]
    refine ⟨by simp [Outcome.threw, hc], by simp [Outcome.threw], fun _ => ⟨rfl, rfl, ?_⟩⟩
    intro i j hi hj
    show (ofValues A.matrix_.rmm A.matrix_.m A.matrix_.n f).get i j = f i j
    rw [ofValues_get, if_pos ⟨hi, hj⟩]

/-- The outcome of `operator*=`. -/
theorem multAssign_eq (A : SymmetricMatrix) (rhs : Matrix) :
    A.multAssign rhs
      = if A.matrix_.n ≠ rhs.rows ∨ (A.matrix_.product rhs).isSymmetric = false
        then .invalid_argument A else .ok ⟨A.matrix_.product rhs⟩ := by
  unfold multAssign CompressedMatrix.mult
  by_cases hsz : A.matrix_.n ≠ rhs.rows
  · rw [if_pos hsz, if_pos (Or.inl hsz)]
  · rw [if_neg hsz]
    show (if (!(A.matrix_.product rhs).isSymmetric) = true then Outcome.invalid_argument A
        else Outcome.ok ⟨A.matrix_.product rhs⟩) = _
    cases (A.matrix_.product rhs).isSymmetric <;> simp [hsz]

end SymmetricMatrix

/-- C18, the claim as stated fails: a symmetric unflagged operand of another size makes
`A += B` throw although `B` is neither flagged lower/upper nor unsymmetric. -/
theorem C18_counterexample :
    ¬ (((SymmetricMatrix.sized true 2).addAssign (zeroMatrix 3 3)).threw = true
        ↔ ((zeroMatrix 3 3).IsLower = true ∨ (zeroMatrix 3 3).IsUpper = true
            ∨ (zeroMatrix 3 3).isSymmetric = false)) := by
  decide

/-- C18 (amended): for `A += B` and `A -= B` with a matrix operand `B` (plain matrix or
computation; a type flagged symmetric holds a symmetric matrix): the call throws
`std::invalid_argument` if and only if the type of `B` is flagged lower/upper, or `B` is not
symmetric, or the size of `B` differs from the size of `A`; when it throws, `A` is
unchanged; otherwise every element becomes `A(i,j) + B(i,j)` (respectively
`A(i,j) - B(i,j)`) and `A` remains symmetric. -/
theorem C18_compound_add_sub (A : SymmetricMatrix) (h : A.Inv) (rhs : Matrix)
    (hsound : rhs.TraitSound) :
    (((A.addAssign rhs).threw = true
          ↔ (rhs.IsLower = true ∨ rhs.IsUpper = true ∨ rhs.isSymmetric = false
              ∨ rhs.rows ≠ A.rows ∨ rhs.columns ≠ A.columns))
        ∧ ((A.addAssign rhs).threw = true → (A.addAssign rhs).state = A)
        ∧ ((A.addAssign rhs).threw = false →
            (A.addAssign rhs).state.rows = A.rows ∧ (A.addAssign rhs).state.columns = A.columns
              ∧ ∀ i j, i < A.rows → j < A.columns →
                  (A.addAssign rhs).state.get i j = A.get i j + rhs.get i j)
        ∧ (A.addAssign rhs).state.Inv)
      ∧ (((A.subAssign rhs).threw = true
          ↔ (rhs.IsLower = true ∨ rhs.IsUpper = true ∨ rhs.isSymmetric = false
              ∨ rhs.rows ≠ A.rows ∨ rhs.columns ≠ A.columns))
        ∧ ((A.subAssign rhs).threw = true → (A.subAssign rhs).state = A)
        ∧ ((A.subAssign rhs).threw = false →
            (A.subAssign rhs).state.rows = A.rows ∧ (A.subAssign rhs).state.columns = A.columns
              ∧ ∀ i j, i < A.rows → j < A.columns →
                  (A.subAssign rhs).state.get i j = A.get i j - rhs.get i j)
        ∧ (A.subAssign rhs).state.Inv) := by
  have ha := SymmetricMatrix.combine_outcome A _ _ _ (SymmetricMatrix.addAssign_eq A rhs hsound)
  have hs := SymmetricMatrix.combine_outcome A _ _ _ (SymmetricMatrix.subAssign_eq A rhs hsound)
  exact ⟨⟨ha.1, ha.2.1, ha.2.2, SymmetricMatrix.addAssign_state_Inv h rhs hsound⟩,
    ⟨hs.1, hs.2.1, hs.2.2, SymmetricMatrix.subAssign_state_Inv h rhs hsound⟩⟩

/-- C18 (amended) at a concrete input: the documented 5 × 5 matrix added to itself. -/
theorem C18_compound_add_sub_witness :
    (docMatrix true).Inv ∧ (matrixOfRows docRows).TraitSound
      ∧ ((docMatrix true).addAssign (matrixOfRows docRows)).threw = false
      ∧ ((docMatrix true).addAssign (matrixOfRows docRows)).state.get 0 1 = 4
      ∧ ((docMatrix true).addAssign (matrixOfRows docRows)).state.Inv
      ∧ (((docMatrix true).subAssign (matrixOfRows docRows)).threw = true
          → ((docMatrix true).subAssign (matrixOfRows docRows)).state = docMatrix true) :=
  have hc := C18_compound_add_sub (docMatrix true) (by decide) (matrixOfRows docRows)
    (fun hf => nomatch hf)
  ⟨by decide, (fun hf => nomatch hf), by decide, by decide, hc.1.2.2.2, hc.2.2.1⟩

/-- C19, the claim as stated fails: for an operand whose row count differs from the column
count of `A` the call throws, although no product was computed into a temporary that could
fail the symmetry check. -/
theorem C19_counterexample :
    ¬ (((SymmetricMatrix.sized true 2).multAssign (zeroMatrix 3 2)).threw = true
        ↔ ∃ tmp, (SymmetricMatrix.sized true 2).matrix_.mult (zeroMatrix 3 2) = .ok tmp
            ∧ tmp.isSymmetric = false) := by
  intro hiff
  obtain ⟨tmp, htmp, _⟩ := hiff.mp (by decide)
  have herr : (SymmetricMatrix.sized true 2).matrix_.mult (zeroMatrix 3 2)
      = .error (.invalid_argument "Matrix sizes do not match") := by
    unfold CompressedMatrix.mult
    rw [if_pos (by decide)]
  rw [herr] at htmp
  cases htmp

/-- C19 (amended): for `A *= B` with a matrix operand `B`: the call throws
`std::invalid_argument` if and only if the sizes do not match (`A.columns() != B.rows()`) or
the product `A*B`, computed into a temporary, is not symmetric — independently of whether
`B` itself is symmetric or flagged lower/upper; when it throws `A` is unchanged, otherwise
`A` is replaced by the product, which satisfies the invariant of the adaptor. -/
theorem C19_compound_mult (A : SymmetricMatrix) (rhs : Matrix) :
    ((A.multAssign rhs).threw = true
        ↔ (A.columns ≠ rhs.rows ∨ (A.matrix_.product rhs).isSymmetric = false))
      ∧ ((A.multAssign rhs).threw = true → (A.multAssign rhs).state = A)
      ∧ ((A.multAssign rhs).threw = false →
          (A.multAssign rhs).state = ⟨A.matrix_.product rhs⟩
            ∧ (A.multAssign rhs).state.Inv
            ∧ ∀ i j, i < A.rows → j < rhs.columns →
                (A.multAssign rhs).state.get i j
                  = ∑ k in Finset.range A.columns, A.get i k * rhs.get k j) := by
  have hget : ∀ i j, i < A.rows → j < rhs.columns →
      (SymmetricMatrix.mk (A.matrix_.product rhs)).get i j
        = ∑ k in Finset.range A.columns, A.get i k * rhs.get k j := by
    intro i j hi hj
    show (CompressedMatrix.ofValues _ _ _ _).get i j = _
    rw [CompressedMatrix.ofValues_get, if_pos ⟨hi, hj⟩]
    rfl
  have heq := SymmetricMatrix.multAssign_eq A rhs
  by_cases hc : A.matrix_.n ≠ rhs.rows ∨ (A.matrix_.product rhs).isSymmetric = false
  · rw [if_pos hc] at heq
    rw [heq]
    refine ⟨⟨fun _ => hc, fun _ => rfl⟩, fun _ => rfl, fun hf => ?_⟩
    simp [Outcome.threw] at hf
  · rw [if_neg hc] at heq
    rw [heq]
    have hsym : (A.matrix_.product rhs).isSymmetric = true := by
      cases hs : (A.matrix_.product rhs).isSymmetric
      · exact absurd (Or.inr hs) hc
      · rfl
    refine ⟨⟨fun hf => ?_, fun hc2 => absurd hc2 hc⟩, fun hf => ?_,
      fun _ => ⟨rfl, SymmetricMatrix.ofValues_Inv_of_isSymmetric _ _ _ _ hsym, hget⟩⟩
    · simp [Outcome.threw] at hf
    · simp [Outcome.threw] at hf

/-! ## Low-level append -/

namespace Line

theorem snoc_eq_set (l : List Element) (x : Nat) (v : Int) (h : ∀ e ∈ l, e.index < x) :
    l ++ [⟨x, v⟩] = set l x v := by
  induction l with
  | nil => rfl
  | cons e l ih =>
    have he := h e (List.mem_cons_self _ _)
    simp only [List.cons_append, set]
    rw [if_neg (by omega), if_neg (by omega), ih (fun a ha => h a (List.mem_cons_of_mem _ ha))]

end Line

namespace SymmetricMatrix

open CompressedMatrix

/-- Under its documented preconditions, on a matrix satisfying the invariant, `append`
returns normally; unless the value is skipped as a default value it leaves the state that
`set( j, i, value )` leaves. -/
theorem append_eq_set {A : SymmetricMatrix} (h : A.Inv) {i j : Nat} (hpre : A.AppendPre i j)
    (value : Int) (check : Bool) (hskip : ¬ (check = true ∧ value = 0)) :
    A.append i j value check = .ok (A.set j i value) := by
  obtain ⟨hi, hj, hlast⟩ := hpre
  have hsq : A.matrix_.m = A.matrix_.n := h.2.1
  have hi2 : i < A.matrix_.n := by unfold rows CompressedMatrix.rows at hi; omega
  have hj2 : j < A.matrix_.n := by unfold rows CompressedMatrix.rows at hj; omega
  have hchk : (check && isDefault value) = false := by
    unfold isDefault
    cases check
    · rfl
    · have hv : value ≠ 0 := fun hv => hskip ⟨rfl, hv⟩
      simp [hv]
  have hchk2 : (!check || !isDefault value) = true := by
    cases hc : check <;> cases hd : isDefault value <;> simp [hc, hd] at hchk ⊢
  have happ : A.matrix_.append i j value check = A.matrix_.set i j value := by
    unfold CompressedMatrix.append
    rw [hchk]
    simp only [Bool.false_eq_true, if_false]
    rw [Line.snoc_eq_set _ _ _ hlast]
    rfl
  have hnone : A.matrix_.stored i j = none := by
    unfold stored cell
    exact Line.stored_eq_none_of_forall_ne _ _ (fun e he => by have := hlast e he; omega)
  unfold append
  simp only [happ, hchk2, and_true]
  by_cases hij : i = j
  · subst hij
    simp [set]
  · have hji : ¬ j = i := fun h2 => hij h2.symm
    have hwf1 : (A.matrix_.set i j value).WF := by
      rw [set_eq]
      exact WF_setCell h.1 _ (by
        have := (@lineOf_lt A.matrix_ i j hi2 hj2).2
        have hb := (square_dims h.1 hsq).2.1
        omega) value
    have hn2 : (A.matrix_.set i j value).stored j i = none := by
      have hl := (square_dims h.1 hsq).1
      have hlt := @lineOf_lt A.matrix_ i j hi2 hj2
      have hsym := stored_symm h j i
      rw [set_eq]
      unfold stored
      rw [show (A.matrix_.setCell (A.matrix_.lineOf i j) (A.matrix_.indexOf i j) value).lineOf j i
          = A.matrix_.lineOf j i from rfl,
        show (A.matrix_.setCell (A.matrix_.lineOf i j) (A.matrix_.indexOf i j) value).indexOf j i
          = A.matrix_.indexOf j i from rfl,
        cell_setCell _ _ _ _ (by omega), if_neg]
      · rw [hnone] at hsym
        exact hsym
      · unfold lineOf indexOf
        cases A.matrix_.rmm <;> simp <;> omega
    rw [if_pos hij, insert_eq, if_pos hn2, insertCell_eq_setCell _ _ _ _ hn2]
    simp [set, hji, set_eq]

end SymmetricMatrix

/-- C20: for `append(i,j,value,check)` called under its documented preconditions on an
adaptor satisfying the symmetry invariant: the call returns normally; afterwards `(i,j)`
and, when `i != j`, `(j,i)` both hold `value`, every other position is unchanged and the
invariant holds — except when `check` is true and `value` is the default (zero) value, in
which case the adaptor is unchanged and nothing is stored at either position.  The
documented example on a 3 × 3 row-major adaptor, `append(0,1,1)`, `append(1,1,2)`,
`append(2,0,3)`, yields the matrix `(0 1 3),(1 2 0),(3 0 0)`. -/
theorem C20_append (A : SymmetricMatrix) (h : A.Inv) (i j : Nat) (hpre : A.AppendPre i j)
    (value : Int) (check : Bool) :
    (¬ (check = true ∧ value = 0) →
        ∃ A1, A.append i j value check = .ok A1
          ∧ A1.matrix_.stored i j = some value ∧ A1.matrix_.stored j i = some value
          ∧ A1.get i j = value ∧ A1.get j i = value
          ∧ (∀ r c, ¬ ((r = i ∧ c = j) ∨ (r = j ∧ c = i)) → A1.get r c = A.get r c)
          ∧ A1.Inv)
      ∧ ((check = true ∧ value = 0) →
          A.append i j value check = .ok A
            ∧ A.matrix_.stored i j = none ∧ A.matrix_.stored j i = none)
      ∧ (∀ r < 3, ∀ c < 3,
          docAppend.get r c = (([[0, 1, 3], [1, 2, 0], [3, 0, 0]] : List (List Int)).getD r []).getD c 0) := by
  have hsq : A.matrix_.m = A.matrix_.n := h.2.1
  have hi2 : i < A.matrix_.n := by
    have := hpre.1; unfold SymmetricMatrix.rows CompressedMatrix.rows at this; omega
  have hj2 : j < A.matrix_.n := by
    have := hpre.2.1; unfold SymmetricMatrix.rows CompressedMatrix.rows at this; omega
  have hnone : A.matrix_.stored i j = none := by
    unfold CompressedMatrix.stored CompressedMatrix.cell
    exact Line.stored_eq_none_of_forall_ne _ _ (fun e he => by have := hpre.2.2 e he; omega)
  refine ⟨fun hskip => ?_, fun hskip => ?_, by decide⟩
  · have hst := SymmetricMatrix.set_stored h hj2 hi2 value
    refine ⟨A.set j i value, SymmetricMatrix.append_eq_set h hpre value check hskip,
      hst.2, hst.1, ?_, ?_, fun r c hrc => ?_, SymmetricMatrix.set_Inv h hj2 hi2 value⟩
    · rw [SymmetricMatrix.set_get h hj2 hi2]; simp
    · rw [SymmetricMatrix.set_get h hj2 hi2]; simp
    · rw [SymmetricMatrix.set_get h hj2 hi2, if_neg (by tauto)]
  · refine ⟨?_, hnone, by rw [← SymmetricMatrix.stored_symm h i j]; exact hnone⟩
    obtain ⟨hc, hv⟩ := hskip
    subst hc hv
    simp [SymmetricMatrix.append, CompressedMatrix.append, isDefault]

/-- C20 at a concrete input: the second step of the documented example, `append(1,1,2)`
after `append(0,1,1)`. -/
theorem C20_append_witness :
    ((SymmetricMatrix.sized true 3).append 0 1 1 false).state.Inv
      ∧ ((SymmetricMatrix.sized true 3).append 0 1 1 false).state.AppendPre 1 1
      ∧ (∃ A1, ((SymmetricMatrix.sized true 3).append 0 1 1 false).state.append 1 1 2 false
            = .ok A1
          ∧ A1.matrix_.stored 1 1 = some 2 ∧ A1.Inv)
      ∧ (∀ r < 3, ∀ c < 3,
          docAppend.get r c = (([[0, 1, 3], [1, 2, 0], [3, 0, 0]] : List (List Int)).getD r []).getD c 0) :=
  have hc := C20_append ((SymmetricMatrix.sized true 3).append 0 1 1 false).state (by decide)
    1 1 (by decide) 2 false
  have h1 := hc.1 (fun hf => nomatch hf.1)
  ⟨by decide, by decide,
    h1.elim (fun A1 hA1 => ⟨A1, hA1.1, hA1.2.1, hA1.2.2.2.2.2.2⟩), hc.2.2⟩

/-! ## The multiplication operators -/

namespace TSVecTDMatMultExpr

/-- The element computed by `operator[]` for an operand that respects its structure flags
(not both strict flags set) is the full dot product with the column. -/
theorem subscript_eq_dotColumn (x : CompressedVector) (A : DenseMatrix) (k : Nat)
    (hx : x.WF) (hA : A.RespectsFlags)
    (hstrict : ¬ (A.flags.IsStrictlyLower = true ∧ A.flags.IsStrictlyUpper = true)) :
    subscript ⟨x, A⟩ k = some (dotColumn x A k) := by
  obtain ⟨hL, hSL, hU, hSU⟩ := hA
  have hlen1 := Line.lowerBound_le_length x.elems k
  have hlen2 := Line.upperBound_le_length x.elems k
  have hlu := Line.lowerBound_le_upperBound x.elems k
  apply subscript_eq_of_skipped_zero x A k hx
  · simp only [startPos, endPos,
      CompressedVector.lowerBound, CompressedVector.upperBound, CompressedVector.begin,
      CompressedVector.end_]
    split <;> split <;> (try split) <;> (try split) <;> simp_all
  · simp only [startPos, CompressedVector.lowerBound,
      CompressedVector.upperBound, CompressedVector.begin]
    intro e he
    split at he
    · split at he
      · rename_i _ h2
        exact hSL h2 _ _ (Line.take_upperBound_le x.elems k e he)
      · rename_i h1 _
        exact hL h1 _ _ (Line.take_lowerBound_lt x.elems k e he)
    · simp at he
  · simp only [endPos, CompressedVector.lowerBound,
      CompressedVector.upperBound, CompressedVector.end_]
    intro e he
    split at he
    · split at he
      · rename_i _ h2
        exact hSU h2 _ _ (Line.drop_lowerBound_ge x.elems hx.1 k e he)
      · rename_i h1 _
        exact hU h1 _ _ (Line.drop_upperBound_gt x.elems hx.1 k e he)
    · simp at he


end TSVecTDMatMultExpr

theorem trans_RespectsFlags {A : DenseMatrix} (h : A.RespectsFlags) : A.trans.RespectsFlags := by
  obtain ⟨hL, hSL, hU, hSU⟩ := h
  exact ⟨fun hf i k hik => hU hf k i hik, fun hf i k hik => hSU hf k i hik,
    fun hf i k hik => hL hf k i hik, fun hf i k hik => hSL hf k i hik⟩

/-- C12: the public `operator*` of a sparse row vector and a column-major dense matrix
throws `std::invalid_argument` if and only if `vec.size() != mat.rows()`, in the general
overload and — for a symmetric, hence square, matrix — in the restructuring overload;
otherwise it returns an expression whose `size()` equals `mat.columns()`. -/
theorem C12_multiply_size_check (vec : CompressedVector) (mat : DenseMatrix) :
    ((∃ e, operatorMul vec mat = .error e) ↔ vec.size ≠ mat.rows)
      ∧ (∀ expr, operatorMul vec mat = .ok expr → expr.size = mat.columns)
      ∧ (vec.size = mat.rows → ∃ expr, operatorMul vec mat = .ok expr)
      ∧ (mat.Symmetric →
          ((∃ e, operatorMulSymmetric vec mat = .error e) ↔ vec.size ≠ mat.rows)
            ∧ (∀ expr, operatorMulSymmetric vec mat = .ok expr → expr.size = mat.columns)
            ∧ (vec.size = mat.rows → ∃ expr, operatorMulSymmetric vec mat = .ok expr)) := by
  refine ⟨?_, ?_, ?_, fun hsym => ⟨?_, ?_, ?_⟩⟩
  · unfold operatorMul
    by_cases h : vec.size ≠ mat.rows
    · simp [h]
    · simp [h]
  · intro expr hok
    unfold operatorMul at hok
    split at hok
    · cases hok
    · cases hok
      rfl
  · intro h
    exact ⟨⟨vec, mat⟩, by simp [operatorMul, h]⟩
  · unfold operatorMulSymmetric operatorMulRowMajor
    by_cases h : vec.size ≠ mat.rows
    · simp [h]
    · have h2 : mat.trans.rows = mat.rows := hsym.1.symm
      have h3 : vec.size = mat.rows := not_not.mp h
      simp [h3, h2]
  · intro expr hok
    unfold operatorMulSymmetric operatorMulRowMajor at hok
    split at hok
    · cases hok
    · split at hok
      · cases hok
      · cases hok
        exact hsym.1
  · intro h
    have h2 : mat.trans.rows = mat.rows := hsym.1.symm
    exact ⟨⟨vec, mat.trans⟩, by simp [operatorMulSymmetric, operatorMulRowMajor, h, h2]⟩

/-- C13: for a sparse row vector `x` and a symmetric column-major dense matrix `A` with
`x.size() == A.rows()` (the entries of `A` respecting the structure flags of its type): the
restructured product `x * A`, evaluated as `x * trans(A)`, has for every `k` the same
element as the non-restructured definition, the sum over `i` of `x[i]*A(i,k)`. -/
theorem C13_restructured_product (x : CompressedVector) (A : DenseMatrix) (hx : x.WF)
    (hsym : A.Symmetric) (hsize : x.size = A.rows) (hA : A.RespectsFlags)
    (hstrict : ¬ (A.flags.IsStrictlyLower = true ∧ A.flags.IsStrictlyUpper = true)) :
    ∃ expr, operatorMulSymmetric x A = .ok expr
      ∧ expr.size = A.columns
      ∧ ∀ k < A.columns,
          expr.subscript k = some (∑ i in Finset.range A.rows, x.get i * A.get i k) := by
  have h2 : A.trans.rows = A.rows := hsym.1.symm
  refine ⟨⟨x, A.trans⟩, by simp [operatorMulSymmetric, operatorMulRowMajor, hsize, h2],
    hsym.1, fun k hk => ?_⟩
  have hstrict2 : ¬ (A.trans.flags.IsStrictlyLower = true
      ∧ A.trans.flags.IsStrictlyUpper = true) := fun hc => hstrict ⟨hc.2, hc.1⟩
  unfold TSVecDMatMultExpr.subscript
  rw [TSVecTDMatMultExpr.subscript_eq_dotColumn x A.trans k hx (trans_RespectsFlags hA) hstrict2]
  congr 1
  unfold dotColumn
  rw [hsize]
  apply Finset.sum_congr rfl
  intro i hi
  have hi2 : i < A.rows := Finset.mem_range.mp hi
  have hk2 : k < A.rows := by have := hsym.1; omega
  show x.get i * A.get k i = x.get i * A.get i k
  rw [hsym.2 k hk2 i hi2]

/-- C13 at a concrete input: a symmetric 4 × 4 matrix. -/
theorem C13_restructured_product_witness :
    exampleVector.WF ∧ exampleVector.size = exampleSymmetric.rows
      ∧ ∃ expr, operatorMulSymmetric exampleVector exampleSymmetric = .ok expr
        ∧ expr.size = exampleSymmetric.columns
        ∧ ∀ k < exampleSymmetric.columns,
            expr.subscript k
              = some (∑ i in Finset.range exampleSymmetric.rows,
                  exampleVector.get i * exampleSymmetric.get i k) :=
  ⟨by decide, rfl,
    C13_restructured_product exampleVector exampleSymmetric (by decide)
      ⟨rfl, fun i _ j _ => by simp [exampleSymmetric]; ring⟩ rfl
      ⟨(fun hf => nomatch hf), (fun hf => nomatch hf), (fun hf => nomatch hf),
        (fun hf => nomatch hf)⟩
      (fun hf => nomatch hf.1)⟩

/-! ## ThreadPool: resize, wait and the execution of scheduled tasks -/

namespace ThreadPool

theorem set_split {α : Type} (l : List α) (k : Nat) (w w' : α) (h : l[k]? = some w) :
    ∃ a b, l = a ++ w :: b ∧ l.set k w' = a ++ w' :: b := by
  induction l generalizing k with
  | nil => simp at h
  | cons x xs ih =>
    cases k with
    | zero =>
      simp at h
      subst h
      exact ⟨[], xs, rfl, rfl⟩
    | succ k =>
      simp at h
      obtain ⟨a, b, h1, h2⟩ := ih k h
      refine ⟨x :: a, b, ?_, ?_⟩
      · rw [h1]; rfl
      · rw [List.set_cons_succ, h2]; rfl

theorem createThreads_expected (count : Nat) (s : ThreadPool) :
    (createThreads count s).expected_ = s.expected_ + count := by
  induction count generalizing s with
  | zero => rfl
  | succ c ih =>
    rw [createThreads, ih]
    simp [createThread]
    omega

theorem createThreads_active (count : Nat) (s : ThreadPool)
    (h : s.active_ = s.threads_.countP WorkerState.isActive) :
    (createThreads count s).active_ =
      (createThreads count s).threads_.countP WorkerState.isActive := by
  induction count generalizing s with
  | zero => exact h
  | succ c ih =>
    rw [createThreads]
    apply ih
    simp [createThread, List.countP_append, h, WorkerState.isActive]

theorem createThreads_history (count : Nat) (s : ThreadPool) :
    (createThreads count s).taskqueue_ = s.taskqueue_ ∧
    (createThreads count s).destructing = s.destructing ∧
    (createThreads count s).scheduled = s.scheduled ∧
    (createThreads count s).popped = s.popped ∧
    (createThreads count s).executed = s.executed ∧
    (createThreads count s).executing = s.executing := by
  induction count generalizing s with
  | zero => exact ⟨rfl, rfl, rfl, rfl, rfl, rfl⟩
  | succ c ih =>
    rw [createThreads]
    obtain ⟨h1, h2, h3, h4, h5, h6⟩ := ih (createThread s)
    refine ⟨h1, h2, h3, h4, h5, ?_⟩
    rw [h6]
    simp [createThread, executing, List.filterMap_append, WorkerState.task]

theorem resize_size (s : ThreadPool) (n : Nat) (h : n ≠ 0) :
    resize s n = .ok (joinTerminated (resizeLocked s n)) ∧
    (joinTerminated (resizeLocked s n)).size = n := by
  refine ⟨by simp [resize, h], ?_⟩
  unfold size joinTerminated resizeLocked
  by_cases hn : n > s.expected_
  · simp only [if_pos hn]
    rw [createThreads_expected]
    omega
  · simp only [if_neg hn]

theorem countP_filter_hasTerminated (l : List WorkerState) :
    (l.filter (fun w => !w.hasTerminated)).countP WorkerState.isActive =
      l.countP WorkerState.isActive := by
  induction l with
  | nil => rfl
  | cons w ws ih =>
    have h1 : WorkerState.hasTerminated WorkerState.ready = false := rfl
    have h2 : WorkerState.hasTerminated WorkerState.waiting = false := rfl
    have h3 : ∀ t, WorkerState.hasTerminated (WorkerState.executing t) = false := fun _ => rfl
    have h4 : WorkerState.hasTerminated WorkerState.terminated = true := rfl
    have h5 : WorkerState.isActive WorkerState.terminated = false := rfl
    cases w <;> simp [List.filter_cons, List.countP_cons, h1, h2, h3, h4, h5, ih]

theorem filterMap_filter_hasTerminated (l : List WorkerState) :
    (l.filter (fun w => !w.hasTerminated)).filterMap WorkerState.task =
      l.filterMap WorkerState.task := by
  induction l with
  | nil => rfl
  | cons w ws ih =>
    have h1 : WorkerState.hasTerminated WorkerState.ready = false := rfl
    have h2 : WorkerState.hasTerminated WorkerState.waiting = false := rfl
    have h3 : ∀ t, WorkerState.hasTerminated (WorkerState.executing t) = false := fun _ => rfl
    have h4 : WorkerState.hasTerminated WorkerState.terminated = true := rfl
    have h5 : WorkerState.task WorkerState.terminated = none := rfl
    cases w <;> simp [List.filter_cons, List.filterMap_cons, h1, h2, h3, h4, h5, ih]

/-- The counter `active_` after thread `k` has evaluated the loop of `executeTask()`, when
before the evaluation `active_` counts thread `k` and the other active threads. -/
theorem acquire_active (s : ThreadPool) (k : Nat) (w : WorkerState)
    (hk : s.threads_[k]? = some w)
    (h : s.active_ =
      s.threads_.countP WorkerState.isActive + (if w.isActive then 0 else 1)) :
    (s.acquire k).active_ = (s.acquire k).threads_.countP WorkerState.isActive := by
  have hT : WorkerState.isActive WorkerState.terminated = false := rfl
  have hW : WorkerState.isActive WorkerState.waiting = false := rfl
  have hE : ∀ t, WorkerState.isActive (WorkerState.executing t) = true := fun _ => rfl
  have hsplit := fun w' => set_split s.threads_ k w w' hk
  have hcount : ∀ a b : List WorkerState, s.threads_ = a ++ w :: b →
      s.active_ = a.countP WorkerState.isActive + b.countP WorkerState.isActive + 1 := by
    intro a b h1
    rw [h1] at h
    simp only [List.countP_append, List.countP_cons] at h
    cases hw : w.isActive <;> simp [hw] at h <;> omega
  unfold acquire
  cases hq : s.taskqueue_ with
  | nil =>
    by_cases ht : s.total_ > s.expected_
    · obtain ⟨a, b, h1, h2⟩ := hsplit WorkerState.terminated
      have hc := hcount a b h1
      have hne : s.active_ ≠ 0 := by omega
      simp only [if_pos ht, h2, decrement, if_neg hne, List.countP_append, List.countP_cons, hT]
      simp
      omega
    · obtain ⟨a, b, h1, h2⟩ := hsplit WorkerState.waiting
      have hc := hcount a b h1
      have hne : s.active_ ≠ 0 := by omega
      simp only [if_neg ht, h2, decrement, if_neg hne, List.countP_append, List.countP_cons, hW]
      simp
      omega
  | cons t rest =>
    obtain ⟨a, b, h1, h2⟩ := hsplit (WorkerState.executing t)
    have hc := hcount a b h1
    simp only [h2, List.countP_append, List.countP_cons, hE]
    simp
    omega

/-- Every step keeps `active_` equal to the number of threads that are ready or executing. -/
theorem step_active (s s1 : ThreadPool) (a : Action)
    (h : s.active_ = s.threads_.countP WorkerState.isActive)
    (hs : s.step a = some s1) :
    s1.active_ = s1.threads_.countP WorkerState.isActive := by
  cases a with
  | schedule t =>
    simp only [step] at hs
    split at hs
    · exact absurd hs (by simp)
    · cases hs; exact h
  | resize n =>
    simp only [step] at hs
    split at hs
    · exact absurd hs (by simp)
    · cases hs
      unfold resizeLocked
      split
      · exact createThreads_active _ _ h
      · exact h
  | join =>
    simp only [step] at hs
    cases hs
    simp only [joinTerminated]
    rw [countP_filter_hasTerminated]
    exact h
  | clear =>
    simp only [step] at hs
    split at hs
    · exact absurd hs (by simp)
    · cases hs; exact h
  | acquire k =>
    simp only [step] at hs
    split at hs
    · rename_i hk
      cases hs
      exact acquire_active s k _ hk (by simp [WorkerState.isActive, h])
    · exact absurd hs (by simp)
  | wake k =>
    simp only [step] at hs
    split at hs
    · rename_i hk
      cases hs
      exact acquire_active _ k _ hk (by simp [WorkerState.isActive, h])
    · exact absurd hs (by simp)
  | finish k =>
    simp only [step] at hs
    split at hs
    · rename_i t hk
      cases hs
      obtain ⟨a, b, h1, h2⟩ := set_split s.threads_ k _ WorkerState.ready hk
      simp only [finish, h2]
      rw [h, h1]
      simp [List.countP_append, List.countP_cons, WorkerState.isActive]
    · exact absurd hs (by simp)
  | destroy =>
    simp only [step] at hs
    split at hs
    · exact absurd hs (by simp)
    · cases hs; exact h

theorem run_active (s s1 : ThreadPool) (acts : List Action)
    (h : s.active_ = s.threads_.countP WorkerState.isActive)
    (hr : s.run acts = some s1) :
    s1.active_ = s1.threads_.countP WorkerState.isActive := by
  induction acts generalizing s with
  | nil => simp only [run] at hr; cases hr; exact h
  | cons a rest ih =>
    simp only [run] at hr
    cases hstep : s.step a with
    | none => rw [hstep] at hr; exact absurd hr (by simp)
    | some s2 =>
      rw [hstep] at hr
      exact ih s2 (step_active s s2 a h hstep) hr

/-- A constructed pool: `n` threads, all counted as active, no task and no history. -/
theorem create_ok (n : Nat) (s0 : ThreadPool) (hc : create n = .ok s0) :
    n ≠ 0 ∧ s0 = joinTerminated (resizeLocked initial n) := by
  unfold create resize at hc
  by_cases hn : n = 0
  · simp [hn] at hc
  · simp only [if_neg hn] at hc
    cases hc
    exact ⟨hn, rfl⟩

theorem create_active (n : Nat) (s0 : ThreadPool) (hc : create n = .ok s0) :
    s0.active_ = s0.threads_.countP WorkerState.isActive := by
  obtain ⟨_, rfl⟩ := create_ok n s0 hc
  simp only [joinTerminated]
  rw [countP_filter_hasTerminated]
  unfold resizeLocked
  split
  · exact createThreads_active _ _ rfl
  · rfl

theorem create_history (n : Nat) (s0 : ThreadPool) (hc : create n = .ok s0) :
    s0.taskqueue_ = [] ∧ s0.destructing = false ∧ s0.scheduled = [] ∧ s0.popped = [] ∧
    s0.executed = [] ∧ s0.executing = [] ∧ s0.size = n := by
  obtain ⟨hn, rfl⟩ := create_ok n s0 hc
  have hsize := (resize_size initial n hn).2
  refine ⟨?_, ?_, ?_, ?_, ?_, ?_, hsize⟩ <;>
    simp only [joinTerminated, executing, filterMap_filter_hasTerminated] <;>
    unfold resizeLocked <;> split <;>
    first
      | rfl
      | exact (createThreads_history _ _).1
      | exact (createThreads_history _ _).2.1
      | exact (createThreads_history _ _).2.2.1
      | exact (createThreads_history _ _).2.2.2.1
      | exact (createThreads_history _ _).2.2.2.2.1
      | exact (createThreads_history _ _).2.2.2.2.2

theorem acquire_history (s : ThreadPool) (k : Nat) :
    (s.acquire k).destructing = s.destructing ∧ (s.acquire k).scheduled = s.scheduled ∧
    (s.acquire k).executed = s.executed ∧
    (s.acquire k).popped ++ (s.acquire k).taskqueue_ = s.popped ++ s.taskqueue_ := by
  unfold acquire
  cases hq : s.taskqueue_ with
  | nil => by_cases ht : s.total_ > s.expected_ <;> simp [ht]
  | cons t rest => simp

/-- The tasks popped so far are the completed ones and the ones in execution, after thread
`k`, which holds no task, has evaluated the loop of `executeTask()`. -/
theorem acquire_popped (s : ThreadPool) (k : Nat) (w : WorkerState)
    (hk : s.threads_[k]? = some w) (hw : w.task = none)
    (h : s.popped.Perm (s.executed ++ s.executing)) :
    (s.acquire k).popped.Perm ((s.acquire k).executed ++ (s.acquire k).executing) := by
  have hT : WorkerState.task WorkerState.terminated = none := rfl
  have hW : WorkerState.task WorkerState.waiting = none := rfl
  have hE : ∀ t, WorkerState.task (WorkerState.executing t) = some t := fun _ => rfl
  have hsplit := fun w' => set_split s.threads_ k w w' hk
  unfold executing at h ⊢
  unfold acquire
  cases hq : s.taskqueue_ with
  | nil =>
    by_cases ht : s.total_ > s.expected_
    · obtain ⟨a, b, h1, h2⟩ := hsplit WorkerState.terminated
      rw [h1] at h
      simp only [if_pos ht, h2]
      simpa [List.filterMap_append, List.filterMap_cons, hT, hw] using h
    · obtain ⟨a, b, h1, h2⟩ := hsplit WorkerState.waiting
      rw [h1] at h
      simp only [if_neg ht, h2]
      simpa [List.filterMap_append, List.filterMap_cons, hW, hw] using h
  | cons t rest =>
    obtain ⟨a, b, h1, h2⟩ := hsplit (WorkerState.executing t)
    rw [h1] at h
    simp only [h2]
    rw [List.perm_iff_count] at h ⊢
    intro x
    have hx := h x
    simp only [List.filterMap_append, List.filterMap_cons, hE, hw, List.count_append,
      List.count_cons, List.count_nil] at hx ⊢
    omega

theorem step_popped (s s1 : ThreadPool) (a : Action)
    (h : s.popped.Perm (s.executed ++ s.executing))
    (hs : s.step a = some s1) :
    s1.popped.Perm (s1.executed ++ s1.executing) := by
  cases a with
  | schedule t =>
    simp only [step] at hs
    split at hs
    · exact absurd hs (by simp)
    · cases hs; exact h
  | resize n =>
    simp only [step] at hs
    split at hs
    · exact absurd hs (by simp)
    · cases hs
      unfold resizeLocked
      split
      · obtain ⟨_, _, _, h4, h5, h6⟩ := createThreads_history (n - s.expected_) s
        rw [h4, h5, h6]
        exact h
      · exact h
  | join =>
    simp only [step] at hs
    cases hs
    simp only [joinTerminated, executing]
    rw [filterMap_filter_hasTerminated]
    exact h
  | clear =>
    simp only [step] at hs
    split at hs
    · exact absurd hs (by simp)
    · cases hs; exact h
  | acquire k =>
    simp only [step] at hs
    split at hs
    · rename_i hk
      cases hs
      exact acquire_popped s k _ hk rfl h
    · exact absurd hs (by simp)
  | wake k =>
    simp only [step] at hs
    split at hs
    · rename_i hk
      cases hs
      exact acquire_popped _ k _ hk rfl h
    · exact absurd hs (by simp)
  | finish k =>
    simp only [step] at hs
    split at hs
    · rename_i t hk
      cases hs
      obtain ⟨a, b, h1, h2⟩ := set_split s.threads_ k _ WorkerState.ready hk
      have hR : WorkerState.task WorkerState.ready = none := rfl
      have hE : WorkerState.task (WorkerState.executing t) = some t := rfl
      unfold executing at h ⊢
      rw [h1] at h
      simp only [finish, h2]
      rw [List.perm_iff_count] at h ⊢
      intro x
      have hx := h x
      simp only [List.filterMap_append, List.filterMap_cons, hE, hR, List.count_append,
        List.count_cons, List.count_nil] at hx ⊢
      omega
    · exact absurd hs (by simp)
  | destroy =>
    simp only [step] at hs
    split at hs
    · exact absurd hs (by simp)
    · cases hs; exact h

/-- While the destructor has not started and `clear()` is not called, the scheduled tasks
are the popped ones followed by the queued ones; and a step adds to the scheduling history
exactly the task of a `schedule` call. -/
theorem step_scheduled (s s1 : ThreadPool) (a : Action) (hs : s.step a = some s1) :
    s1.scheduled = s.scheduled ++ scheduledBy [a] ∧
    (a ≠ Action.clear →
      (s.destructing = false → s.scheduled = s.popped ++ s.taskqueue_) →
      s1.destructing = false → s1.scheduled = s1.popped ++ s1.taskqueue_) := by
  cases a with
  | schedule t =>
    simp only [step] at hs
    split at hs
    · exact absurd hs (by simp)
    · cases hs
      refine ⟨rfl, fun _ h hd => ?_⟩
      simp only [schedule] at hd ⊢
      rw [h hd, List.append_assoc]
  | resize n =>
    simp only [step] at hs
    split at hs
    · exact absurd hs (by simp)
    · cases hs
      unfold resizeLocked
      split
      · obtain ⟨h1, h2, h3, h4, _, _⟩ := createThreads_history (n - s.expected_) s
        rw [h1, h2, h3, h4]
        exact ⟨by simp [scheduledBy], fun _ h hd => h hd⟩
      · exact ⟨by simp [scheduledBy], fun _ h hd => h hd⟩
  | join =>
    simp only [step] at hs
    cases hs
    exact ⟨by simp [scheduledBy, joinTerminated], fun _ h hd => h hd⟩
  | clear =>
    simp only [step] at hs
    split at hs
    · exact absurd hs (by simp)
    · cases hs
      exact ⟨by simp [scheduledBy, clear], fun hne => absurd rfl hne⟩
  | acquire k =>
    simp only [step] at hs
    split at hs
    · cases hs
      obtain ⟨h1, h2, _, h4⟩ := acquire_history s k
      rw [h1, h2, h4]
      exact ⟨by simp [scheduledBy], fun _ h hd => h hd⟩
    · exact absurd hs (by simp)
  | wake k =>
    simp only [step] at hs
    split at hs
    · cases hs
      obtain ⟨h1, h2, _, h4⟩ := acquire_history { s with active_ := s.active_ + 1 } k
      simp only [wake]
      rw [h1, h2, h4]
      exact ⟨by simp [scheduledBy], fun _ h hd => h hd⟩
    · exact absurd hs (by simp)
  | finish k =>
    simp only [step] at hs
    split at hs
    · cases hs
      exact ⟨by simp [scheduledBy, finish], fun _ h hd => h hd⟩
    · exact absurd hs (by simp)
  | destroy =>
    simp only [step] at hs
    split at hs
    · exact absurd hs (by simp)
    · cases hs
      exact ⟨by simp [scheduledBy, destructorBegin], fun _ _ hd => absurd hd (by simp [destructorBegin])⟩

theorem scheduledBy_cons (a : Action) (rest : List Action) :
    scheduledBy (a :: rest) = scheduledBy [a] ++ scheduledBy rest := by
  cases a <;> simp [scheduledBy]

/-- The histories at the end of a run. -/
theorem run_history (s s1 : ThreadPool) (acts : List Action) (hr : s.run acts = some s1) :
    s1.scheduled = s.scheduled ++ scheduledBy acts ∧
    (s.popped.Perm (s.executed ++ s.executing) →
      s1.popped.Perm (s1.executed ++ s1.executing)) ∧
    (Action.clear ∉ acts →
      (s.destructing = false → s.scheduled = s.popped ++ s.taskqueue_) →
      s1.destructing = false → s1.scheduled = s1.popped ++ s1.taskqueue_) := by
  induction acts generalizing s with
  | nil =>
    simp only [run] at hr
    cases hr
    exact ⟨by simp [scheduledBy], fun h => h, fun _ h => h⟩
  | cons a rest ih =>
    simp only [run] at hr
    cases hstep : s.step a with
    | none => rw [hstep] at hr; exact absurd hr (by simp)
    | some s2 =>
      rw [hstep] at hr
      obtain ⟨i1, i2, i3⟩ := ih s2 hr
      obtain ⟨j1, j2⟩ := step_scheduled s s2 a hstep
      refine ⟨?_, fun h => i2 (step_popped s s2 a h hstep), fun hc h => ?_⟩
      · rw [i1, j1, scheduledBy_cons a rest, List.append_assoc]
      · have hne : a ≠ Action.clear := fun e => hc (by simp [e])
        have hrest : Action.clear ∉ rest := fun e => hc (by simp [e])
        exact i3 hrest (j2 hne h)

/-- The steps of the worker threads leave `expected_` unchanged. -/
theorem run_workers_expected (s s1 : ThreadPool) (acts : List Action)
    (hacts : ∀ a ∈ acts, ∃ k, a = Action.acquire k ∨ a = Action.wake k ∨ a = Action.finish k)
    (hr : s.run acts = some s1) : s1.expected_ = s.expected_ := by
  have hacq : ∀ (s : ThreadPool) (k : Nat), (s.acquire k).expected_ = s.expected_ := by
    intro s k
    unfold acquire
    cases s.taskqueue_ with
    | nil => by_cases ht : s.total_ > s.expected_ <;> simp [ht]
    | cons t rest => rfl
  induction acts generalizing s with
  | nil => simp only [run] at hr; cases hr; rfl
  | cons a rest ih =>
    simp only [run] at hr
    cases hstep : s.step a with
    | none => rw [hstep] at hr; exact absurd hr (by simp)
    | some s2 =>
      rw [hstep] at hr
      rw [ih s2 (fun b hb => hacts b (by simp [hb])) hr]
      obtain ⟨k, hk⟩ := hacts a (by simp)
      rcases hk with rfl | rfl | rfl
      · simp only [step] at hstep
        split at hstep
        · cases hstep; exact hacq s k
        · exact absurd hstep (by simp)
      · simp only [step] at hstep
        split at hstep
        · cases hstep; exact hacq _ k
        · exact absurd hstep (by simp)
      · simp only [step] at hstep
        split at hstep
        · cases hstep; rfl
        · exact absurd hstep (by simp)

end ThreadPool

/-- C14: `ThreadPool::resize(0)` throws `std::invalid_argument` and leaves the state of the
pool unchanged: the counters `total_`, `expected_` and `active_`, the task queue and the
thread container are those before the call (the check is the first statement of the
function, before the lock is taken). -/
theorem C14_resize_zero (s : ThreadPool) :
    (s.resize 0).threw = true ∧ (s.resize 0).state = s ∧
    (s.resize 0).state.total_ = s.total_ ∧ (s.resize 0).state.expected_ = s.expected_ ∧
    (s.resize 0).state.active_ = s.active_ ∧
    (s.resize 0).state.taskqueue_ = s.taskqueue_ ∧
    (s.resize 0).state.threads_ = s.threads_ := by
  have h : s.resize 0 = Outcome.invalid_argument s := by simp [ThreadPool.resize]
  rw [h]
  exact ⟨rfl, rfl, rfl, rfl, rfl, rfl, rfl⟩

/-- C15: for every pool (of any size `k`, whatever the states of its threads, so however
many of them are busy) and every `k' >= 1` — larger than, smaller than or equal to `k` —
`resize(k')` returns, and `size()` called on the state it returns gives `k'`.  The same
holds when worker threads take steps between the locked part of `resize` and its final
housekeeping. -/
theorem C15_resize_then_size (s : ThreadPool) (k' : Nat) (h : 1 ≤ k') :
    (∃ s1, s.resize k' = Outcome.ok s1 ∧ s1.size = k') ∧
    (∀ acts s1,
      (∀ a ∈ acts, ∃ k, a = ThreadPool.Action.acquire k ∨ a = ThreadPool.Action.wake k ∨
        a = ThreadPool.Action.finish k) →
      (s.resizeLocked k').run acts = some s1 → s1.joinTerminated.size = k') := by
  have hsize := ThreadPool.resize_size s k' (by omega)
  refine ⟨⟨_, hsize⟩, fun acts s1 hacts hr => ?_⟩
  have h1 := ThreadPool.run_workers_expected _ s1 acts hacts hr
  have h2 := hsize.2
  simp only [ThreadPool.size, ThreadPool.joinTerminated] at h2 ⊢
  rw [h1, h2]

/-- Witness of C15: a pool of three busy threads is shrunk to one thread. -/
theorem C15_resize_then_size_witness :
    1 ≤ 1 ∧ ∃ s1, (ThreadPool.createThreads 3 ThreadPool.initial).resize 1 = Outcome.ok s1 ∧
      s1.size = 1 :=
  ⟨by decide,
    (C15_resize_then_size (ThreadPool.createThreads 3 ThreadPool.initial) 1 (by decide)).1⟩

/-- C16: in every state `s` that a constructed pool reaches by steps of the step relation,
`wait()` returns exactly when the task queue is empty and `active_ == 0`; in such a state
no thread is ready or executing a task.  Hence it does not return while a task is queued or
while a thread is executing a task. -/
theorem C16_wait_returns (n : Nat) (s0 s : ThreadPool) (acts : List ThreadPool.Action)
    (hc : ThreadPool.create n = .ok s0) (hr : s0.run acts = some s) :
    (s.waitReturns ↔ s.taskqueue_ = [] ∧ s.active_ = 0) ∧
    (s.waitReturns → (∀ w ∈ s.threads_, w.isActive = false) ∧
      (∀ t, WorkerState.executing t ∉ s.threads_) ∧ s.executing = []) ∧
    (s.taskqueue_ ≠ [] ∨ (∃ t, WorkerState.executing t ∈ s.threads_) → ¬ s.waitReturns) := by
  have hact := ThreadPool.run_active s0 s acts (ThreadPool.create_active n s0 hc) hr
  have hiff : s.waitReturns ↔ s.taskqueue_ = [] ∧ s.active_ = 0 := by
    unfold ThreadPool.waitReturns ThreadPool.waitBlocks
    cases s.taskqueue_ <;> simp
  have hidle : s.waitReturns → ∀ w ∈ s.threads_, w.isActive = false := by
    intro hw w hmem
    have h0 : s.threads_.countP WorkerState.isActive = 0 := by
      rw [← hact]; exact (hiff.mp hw).2
    rw [List.countP_eq_zero] at h0
    simpa using h0 w hmem
  have hexec : s.waitReturns → ∀ t, WorkerState.executing t ∉ s.threads_ := by
    intro hw t hmem
    have := hidle hw _ hmem
    simp [WorkerState.isActive] at this
  refine ⟨hiff, fun hw => ⟨hidle hw, hexec hw, ?_⟩, ?_⟩
  · unfold ThreadPool.executing
    rw [List.filterMap_eq_nil_iff]
    intro w hmem
    have := hidle hw w hmem
    cases w <;> simp [WorkerState.isActive, WorkerState.task] at this ⊢
  · intro h hw
    cases h with
    | inl hq => exact hq (hiff.mp hw).1
    | inr he =>
      obtain ⟨t, ht⟩ := he
      exact hexec hw t ht

/-- Witness of C16: the run `exampleRun` of a pool of two threads. -/
theorem C16_wait_returns_witness :
    ∃ s, (ThreadPool.createThreads 2 ThreadPool.initial).run exampleRun = some s ∧
      s.waitReturns ∧ s.taskqueue_ = [] ∧ s.active_ = 0 ∧ s.executing = [] := by
  have hr : (ThreadPool.createThreads 2 ThreadPool.initial).run exampleRun =
      some { total_ := 2, expected_ := 2, active_ := 0,
             threads_ := [WorkerState.waiting, WorkerState.waiting], taskqueue_ := [],
             destructing := false, scheduled := [7, 8], popped := [7, 8],
             executed := [8, 7] } := by decide
  have h := C16_wait_returns 2 _ _ exampleRun rfl hr
  exact ⟨_, hr, by decide, rfl, rfl, (h.2.1 (by decide)).2.2⟩

/-- C17: a pool is constructed (so it has at least one thread) and runs any sequence of
steps in which `clear()` is never called; `N` is the number of `schedule` calls among them.
In every state of the live pool in which a `wait()` called after these steps returns, the
scheduled tasks are exactly the tasks popped from the queue, in order, and the completed
tasks are a rearrangement of the scheduled ones: each of the `N` tasks has been popped and
executed exactly once, none is queued or in execution, and a counter incremented once per
completed task equals `N`. -/
theorem C17_wait_after_schedule (n : Nat) (s0 s : ThreadPool)
    (acts : List ThreadPool.Action)
    (hc : ThreadPool.create n = .ok s0) (hr : s0.run acts = some s)
    (hclear : ThreadPool.Action.clear ∉ acts) (hlive : s.destructing = false)
    (hw : s.waitReturns) :
    1 ≤ s0.size ∧
    s.scheduled = ThreadPool.scheduledBy acts ∧ s.popped = s.scheduled ∧
    s.executed.Perm s.scheduled ∧ (∀ t, s.executed.count t = s.scheduled.count t) ∧
    s.executed.length = (ThreadPool.scheduledBy acts).length ∧
    s.taskqueue_ = [] ∧ s.executing = [] := by
  obtain ⟨hq, hd, hsch, hpop, hex, hexg, hsize⟩ := ThreadPool.create_history n s0 hc
  obtain ⟨hn, _⟩ := ThreadPool.create_ok n s0 hc
  obtain ⟨h1, h2, h3⟩ := ThreadPool.run_history s0 s acts hr
  have hact := ThreadPool.run_active s0 s acts (ThreadPool.create_active n s0 hc) hr
  have hperm := h2 (by rw [hpop, hex, hexg]; exact List.Perm.refl _)
  have hsplit := h3 hclear (fun _ => by rw [hsch, hpop, hq]; rfl) hlive
  have hiff : s.taskqueue_ = [] ∧ s.active_ = 0 := by
    unfold ThreadPool.waitReturns ThreadPool.waitBlocks at hw
    revert hw
    cases s.taskqueue_ <;> simp
  have hexec : s.executing = [] := by
    unfold ThreadPool.executing
    rw [List.filterMap_eq_nil_iff]
    intro w hmem
    have h0 : s.threads_.countP WorkerState.isActive = 0 := by
      rw [← hact]; exact hiff.2
    rw [List.countP_eq_zero] at h0
    have := h0 w hmem
    cases w <;> simp [WorkerState.isActive, WorkerState.task] at this ⊢
  rw [hsch, List.nil_append] at h1
  rw [hiff.1, List.append_nil] at hsplit
  rw [hexec, List.append_nil] at hperm
  have hperm2 : s.executed.Perm s.scheduled := by rw [hsplit]; exact hperm.symm
  refine ⟨by rw [hsize]; omega, h1, hsplit.symm, hperm2, fun t => hperm2.count_eq t, ?_,
    hiff.1, hexec⟩
  rw [← h1]
  exact hperm2.length_eq

/-- Witness of C17: two tasks scheduled on a pool of two threads, `exampleRun`. -/
theorem C17_wait_after_schedule_witness :
    ∃ s, (ThreadPool.createThreads 2 ThreadPool.initial).run exampleRun = some s ∧
      s.waitReturns ∧ s.executed.Perm s.scheduled ∧ s.executed.length = 2 := by
  have hr : (ThreadPool.createThreads 2 ThreadPool.initial).run exampleRun =
      some { total_ := 2, expected_ := 2, active_ := 0,
             threads_ := [WorkerState.waiting, WorkerState.waiting], taskqueue_ := [],
             destructing := false, scheduled := [7, 8], popped := [7, 8],
             executed := [8, 7] } := by decide
  have h := C17_wait_after_schedule 2 _ _ exampleRun rfl hr (by decide) rfl
    (by decide)
  exact ⟨_, hr, by decide, h.2.2.2.1, h.2.2.2.2.2.1⟩

/-! ## The mutable iterator and the element it yields -/

namespace Line

theorem update_indices (l : List Element) (pos : Nat) (f : Int → Int) :
    (update l pos f).map (fun e => e.index) = l.map (fun e => e.index) := by
  induction l generalizing pos with
  | nil => rfl
  | cons e rest ih =>
    cases pos with
    | zero => rfl
    | succ p => simp [update, ih]

theorem WF_iff_indices (bound : Nat) (l : List Element) :
    WF bound l ↔ (l.map (fun e => e.index)).Pairwise (fun a b => a < b) ∧
      ∀ x ∈ l.map (fun e => e.index), x < bound := by
  unfold WF
  rw [List.pairwise_map]
  simp

theorem WF_update {bound : Nat} {l : List Element} (h : WF bound l) (pos : Nat)
    (f : Int → Int) : WF bound (update l pos f) := by
  rw [WF_iff_indices] at h ⊢
  rw [update_indices]
  exact h

theorem stored_update (l : List Element) (hs : l.Pairwise (fun a b => a.index < b.index))
    (pos : Nat) (hp : pos < l.length) (f : Int → Int) (d : Element) (x : Nat) :
    stored (update l pos f) x
      = if x = (l.getD pos d).index then (stored l x).map f else stored l x := by
  induction l generalizing pos with
  | nil => simp at hp
  | cons e rest ih =>
    have hpw := List.pairwise_cons.mp hs
    cases pos with
    | zero =>
      simp only [update, stored, List.getD_cons_zero]
      by_cases hx : e.index = x
      · simp [hx]
      · have hx2 : ¬ x = e.index := fun h => hx h.symm
        simp [hx, hx2]
    | succ p =>
      have hp2 : p < rest.length := by simpa using hp
      simp only [update, stored, List.getD_cons_succ]
      rw [ih hpw.2 p hp2]
      by_cases hx : e.index = x
      · have hlt : e.index < (rest.getD p d).index := by
          rw [List.getD_eq_getElem _ _ hp2]
          exact hpw.1 _ (List.getElem_mem hp2)
        have hne : ¬ x = (rest.getD p d).index := by omega
        simp only [if_pos hx, if_neg hne]
      · simp only [if_neg hx]

theorem index_getD_find (l : List Element) (x : Nat) (h : find l x < l.length)
    (d : Element) : (l.getD (find l x) d).index = x := by
  induction l with
  | nil => simp at h
  | cons e rest ih =>
    simp only [find] at h ⊢
    by_cases hx : e.index = x
    · simp [hx]
    · simp only [if_neg hx] at h ⊢
      simp only [List.getD_cons_succ]
      exact ih (by simpa using h)

end Line

namespace CompressedMatrix

theorem indexAt_eq (M : CompressedMatrix) (k p : Nat) :
    SymmetricMatrix.indexAt M k p = ((M.line k).map (fun e => e.index)).getD p 0 := by
  unfold SymmetricMatrix.indexAt
  by_cases hp : p < (M.line k).length
  · rw [List.getD_eq_getElem _ _ hp, List.getD_eq_getElem _ _ (by simpa using hp)]
    simp
  · rw [List.getD_eq_default _ _ (by omega), List.getD_eq_default _ _ (by simp; omega)]

theorem updateAt_indices (M : CompressedMatrix) (it : StorageIterator) (f : Int → Int)
    (a : Nat) :
    ((M.updateAt it f).line a).map (fun e => e.index) = (M.line a).map (fun e => e.index) := by
  unfold updateAt
  rw [line_setLine]
  split
  · rename_i h
    rw [Line.update_indices, h.1]
  · rfl

theorem WF_updateAt {M : CompressedMatrix} (h : M.WF) (it : StorageIterator)
    (f : Int → Int) : (M.updateAt it f).WF :=
  WF_setLine h it.line (Line.WF_update (WF_line h it.line) it.pos f)

theorem updateAt_dims (M : CompressedMatrix) (it : StorageIterator) (f : Int → Int) :
    (M.updateAt it f).rmm = M.rmm ∧ (M.updateAt it f).m = M.m ∧ (M.updateAt it f).n = M.n :=
  ⟨rfl, rfl, rfl⟩

/-- The cells after a write through a dereferenceable iterator of the storage. -/
theorem cell_updateAt {M : CompressedMatrix} (h : M.WF) (k p : Nat)
    (hp : p < (M.line k).length) (f : Int → Int) (a b : Nat) :
    (M.updateAt ⟨k, p⟩ f).cell a b
      = if a = k ∧ b = SymmetricMatrix.indexAt M k p then (M.cell k b).map f
        else M.cell a b := by
  have hk : k < M.lines.length := by
    by_contra hk
    rw [M.line_of_length_le k (by omega)] at hp
    simp at hp
  unfold updateAt
  rw [cell_setLine]
  by_cases ha : a = k
  · subst ha
    simp only [true_and, if_pos hk]
    rw [Line.stored_update _ (WF_line h a).1 p hp f ⟨0, 0⟩]
    rfl
  · simp [ha]

end CompressedMatrix

namespace SymmetricElement

/-- The cells after an assignment through a `SymmetricElement` whose two iterators point
to an element and to its mirror element. -/
theorem assign_cell {M : CompressedMatrix} (hwf : M.WF) (i p j p2 : Nat)
    (hp : p < (M.line i).length) (hj : SymmetricMatrix.indexAt M i p = j)
    (hp2 : p2 < (M.line j).length) (hi : SymmetricMatrix.indexAt M j p2 = i) (v : Int)
    (a b : Nat) :
    (assign ⟨⟨i, p⟩, ⟨j, p2⟩⟩ M v).cell a b
      = if (a = i ∧ b = j) ∨ (a = j ∧ b = i) then some v else M.cell a b := by
  have hc1 : M.cell i j ≠ none := hj ▸ SymmetricMatrix.cell_indexAt M i p hp
  have hc2 : M.cell j i ≠ none := hi ▸ SymmetricMatrix.cell_indexAt M j p2 hp2
  obtain ⟨c1, hc1⟩ := Option.ne_none_iff_exists'.mp hc1
  obtain ⟨c2, hc2⟩ := Option.ne_none_iff_exists'.mp hc2
  have h1 : ∀ a b, (M.updateAt ⟨i, p⟩ (fun _ => v)).cell a b
      = if a = i ∧ b = j then some v else M.cell a b := by
    intro a b
    rw [CompressedMatrix.cell_updateAt hwf i p hp, hj]
    by_cases hab : a = i ∧ b = j
    · rw [if_pos hab, if_pos hab, hab.2, hc1]; rfl
    · rw [if_neg hab, if_neg hab]
  unfold assign
  by_cases he : (⟨i, p⟩ : StorageIterator) ≠ ⟨j, p2⟩
  · simp only [if_pos he]
    have hwf1 := CompressedMatrix.WF_updateAt hwf ⟨i, p⟩ (fun _ => v)
    have hlen : p2 < ((M.updateAt ⟨i, p⟩ (fun _ => v)).line j).length := by
      have := congrArg List.length (CompressedMatrix.updateAt_indices M ⟨i, p⟩ (fun _ => v) j)
      simp only [List.length_map] at this
      omega
    have hidx : SymmetricMatrix.indexAt (M.updateAt ⟨i, p⟩ (fun _ => v)) j p2 = i := by
      rw [CompressedMatrix.indexAt_eq, CompressedMatrix.updateAt_indices,
        ← CompressedMatrix.indexAt_eq, hi]
    rw [CompressedMatrix.cell_updateAt hwf1 j p2 hlen, hidx, h1, h1]
    by_cases hab : a = j ∧ b = i
    · rw [if_pos hab, if_pos (Or.inr hab), hab.2]
      by_cases hji : j = i ∧ i = j
      · rw [if_pos hji]; rfl
      · rw [if_neg hji, hc2]; rfl
    · rw [if_neg hab]
      by_cases hab2 : a = i ∧ b = j
      · rw [if_pos hab2, if_pos (Or.inl hab2)]
      · rw [if_neg hab2, if_neg (by tauto)]
  · have he2 : (⟨i, p⟩ : StorageIterator) = ⟨j, p2⟩ := not_not.mp he
    have hij : i = j := congrArg StorageIterator.line he2
    simp only [if_neg he]
    rw [h1]
    subst hij
    by_cases hab : a = i ∧ b = i
    · rw [if_pos hab, if_pos (Or.inl hab)]
    · rw [if_neg hab, if_neg (by tauto)]

end SymmetricElement

namespace Iterator

theorem iterate_increment (it : Iterator) (n : Nat) :
    (Iterator.increment^[n]) it = ⟨it.pos_ + n, it.index_⟩ := by
  induction n with
  | zero => rfl
  | succ n ih =>
    rw [Function.iterate_succ_apply', ih]
    rfl

/-- Dereferencing an iterator at a stored element of an adaptor satisfying the invariant:
the search for the mirror element succeeds. -/
theorem dereference_ok {A : SymmetricMatrix} (h : A.Inv) (i pos : Nat)
    (hpos : pos < (A.matrix_.line i).length) :
    Line.find (A.matrix_.line (SymmetricMatrix.indexAt A.matrix_ i pos)) i
        < (A.matrix_.line (SymmetricMatrix.indexAt A.matrix_ i pos)).length ∧
    dereference ⟨pos, i⟩ A.matrix_
      = some ⟨⟨i, pos⟩, ⟨SymmetricMatrix.indexAt A.matrix_ i pos,
          Line.find (A.matrix_.line (SymmetricMatrix.indexAt A.matrix_ i pos)) i⟩⟩ := by
  have hsym := ((SymmetricMatrix.Inv_iff A).mp h).2.2
  have hc := SymmetricMatrix.cell_indexAt A.matrix_ i pos hpos
  rw [hsym] at hc
  have hlt : Line.find (A.matrix_.line (SymmetricMatrix.indexAt A.matrix_ i pos)) i
      < (A.matrix_.line (SymmetricMatrix.indexAt A.matrix_ i pos)).length := by
    have hle := Line.find_le_length (A.matrix_.line (SymmetricMatrix.indexAt A.matrix_ i pos)) i
    have hne : Line.find (A.matrix_.line (SymmetricMatrix.indexAt A.matrix_ i pos)) i
        ≠ (A.matrix_.line (SymmetricMatrix.indexAt A.matrix_ i pos)).length :=
      fun e => hc ((Line.find_eq_length_iff _ _).mp e)
    omega
  refine ⟨hlt, ?_⟩
  have hfind : (if A.matrix_.rmm then
        A.matrix_.find (SymmetricMatrix.indexAt A.matrix_ i pos) i
      else A.matrix_.find i (SymmetricMatrix.indexAt A.matrix_ i pos))
      = Line.find (A.matrix_.line (SymmetricMatrix.indexAt A.matrix_ i pos)) i := by
    unfold CompressedMatrix.find CompressedMatrix.lineOf CompressedMatrix.indexOf
    cases A.matrix_.rmm <;> simp
  unfold dereference
  simp only [hfind, CompressedMatrix.end_]
  rw [if_pos (by omega)]

end Iterator

namespace SymmetricElement

theorem assign_WF {M : CompressedMatrix} (hwf : M.WF) (e : SymmetricElement) (v : Int) :
    (e.assign M v).WF := by
  unfold assign
  split
  · exact CompressedMatrix.WF_updateAt (CompressedMatrix.WF_updateAt hwf _ _) _ _
  · exact CompressedMatrix.WF_updateAt hwf _ _

theorem assign_dims (M : CompressedMatrix) (e : SymmetricElement) (v : Int) :
    (e.assign M v).m = M.m ∧ (e.assign M v).n = M.n ∧ (e.assign M v).rmm = M.rmm := by
  unfold assign
  split <;> exact ⟨rfl, rfl, rfl⟩

end SymmetricElement

/-- C21: for every adaptor satisfying the invariant (row-major or column-major), every
row/column `i` and every element stored in it — the element at a position `pos` before
`end(i)` — dereferencing the mutable iterator reached from `begin(i)` at that element
succeeds: the search for the mirror element does not return `end`.  The element it yields
has as `index()` the index `j` of the stored element, and assigning `v` through it sets
both `A(i,j)` and `A(j,i)` to `v`; no other element changes and the invariant is kept. -/
theorem C21_iterator_dereference (A : SymmetricMatrix) (h : A.Inv) (i pos : Nat)
    (hpos : pos < A.matrix_.end_ i) (v : Int) :
    ∃ e, ((Iterator.increment^[pos]) (A.begin i)).dereference A.matrix_ = some e ∧
      e.e2_.pos ≠ A.matrix_.end_ e.e2_.line ∧
      e.index A.matrix_ = SymmetricMatrix.indexAt A.matrix_ i pos ∧
      A.matrix_.cell i (e.index A.matrix_) ≠ none ∧
      (⟨e.assign A.matrix_ v⟩ : SymmetricMatrix).get i (e.index A.matrix_) = v ∧
      (⟨e.assign A.matrix_ v⟩ : SymmetricMatrix).get (e.index A.matrix_) i = v ∧
      (⟨e.assign A.matrix_ v⟩ : SymmetricMatrix).Inv ∧
      ∀ a b, ¬ ((a = i ∧ b = e.index A.matrix_) ∨ (a = e.index A.matrix_ ∧ b = i)) →
        (e.assign A.matrix_ v).cell a b = A.matrix_.cell a b := by
  have hpos2 : pos < (A.matrix_.line i).length := hpos
  obtain ⟨hwf, hsq, hsym⟩ := (SymmetricMatrix.Inv_iff A).mp h
  obtain ⟨hlt, hderef⟩ := Iterator.dereference_ok h i pos hpos2
  have hit : (Iterator.increment^[pos]) (A.begin i) = ⟨pos, i⟩ := by
    rw [Iterator.iterate_increment]
    simp [SymmetricMatrix.begin, CompressedMatrix.begin]
  have hidx2 : SymmetricMatrix.indexAt A.matrix_ (SymmetricMatrix.indexAt A.matrix_ i pos)
      (Line.find (A.matrix_.line (SymmetricMatrix.indexAt A.matrix_ i pos)) i) = i :=
    Line.index_getD_find _ i hlt ⟨0, 0⟩
  have hcell := SymmetricElement.assign_cell hwf i pos _ _ hpos2 rfl hlt hidx2 v
  have hinv : (⟨SymmetricElement.assign ⟨⟨i, pos⟩, ⟨SymmetricMatrix.indexAt A.matrix_ i pos,
      Line.find (A.matrix_.line (SymmetricMatrix.indexAt A.matrix_ i pos)) i⟩⟩
        A.matrix_ v⟩ : SymmetricMatrix).Inv := by
    apply SymmetricMatrix.Inv_of_cell
    · exact SymmetricElement.assign_WF hwf _ v
    · have hd := SymmetricElement.assign_dims A.matrix_
        ⟨⟨i, pos⟩, ⟨SymmetricMatrix.indexAt A.matrix_ i pos,
          Line.find (A.matrix_.line (SymmetricMatrix.indexAt A.matrix_ i pos)) i⟩⟩ v
      show (SymmetricElement.assign _ A.matrix_ v).m = (SymmetricElement.assign _ A.matrix_ v).n
      rw [hd.1, hd.2.1]
      exact hsq
    · exact SymmetricMatrix.sym_of_mirror_update i _ (some v) hsym hcell
  refine ⟨⟨⟨i, pos⟩, ⟨SymmetricMatrix.indexAt A.matrix_ i pos,
      Line.find (A.matrix_.line (SymmetricMatrix.indexAt A.matrix_ i pos)) i⟩⟩,
    by rw [hit]; exact hderef, ?_, rfl, ?_, ?_, ?_, hinv, ?_⟩
  · exact fun e => absurd e (Nat.ne_of_lt hlt)
  · exact SymmetricMatrix.cell_indexAt A.matrix_ i pos hpos2
  · rw [SymmetricMatrix.get_eq_cell hinv]
    show ((SymmetricElement.assign _ A.matrix_ v).cell i
      (SymmetricMatrix.indexAt A.matrix_ i pos)).getD 0 = v
    rw [hcell, if_pos (Or.inl ⟨rfl, rfl⟩)]
    rfl
  · rw [SymmetricMatrix.get_eq_cell hinv]
    show ((SymmetricElement.assign _ A.matrix_ v).cell
      (SymmetricMatrix.indexAt A.matrix_ i pos) i).getD 0 = v
    rw [hcell, if_pos (Or.inr ⟨rfl, rfl⟩)]
    rfl
  · intro a b hab
    have hab2 : ¬ ((a = i ∧ b = SymmetricMatrix.indexAt A.matrix_ i pos) ∨
        (a = SymmetricMatrix.indexAt A.matrix_ i pos ∧ b = i)) := hab
    rw [hcell, if_neg hab2]

/-- Witness of C21: the second element of column 2 of the documented matrix in column-major
storage, assigned 42. -/
theorem C21_iterator_dereference_witness :
    (docMatrix false).Inv ∧ 1 < (docMatrix false).matrix_.end_ 2 ∧
    ∃ e, ((Iterator.increment^[1]) ((docMatrix false).begin 2)).dereference
        (docMatrix false).matrix_ = some e ∧
      (⟨e.assign (docMatrix false).matrix_ 42⟩ : SymmetricMatrix).get 2
        (e.index (docMatrix false).matrix_) = 42 := by
  obtain ⟨e, h1, _, _, _, h5, _⟩ :=
    C21_iterator_dereference (docMatrix false) (by decide) 2 1 (by decide) 42
  exact ⟨by decide, by decide, e, h1, h5⟩

namespace SymmetricValue

/-- The shape shared by the compound operators: the update `f` with the operand read at
address `v` is applied to `*v1_`, and to `*v2_` when the pointers differ; the operand is
not the first of two distinct represented values. -/
theorem update_both (sv : SymmetricValue) (mem : Memory) (f : Int → Int → Int) (v : Nat)
    (hv : sv.v1_ = sv.v2_ ∨ v ≠ sv.v1_) (a : Nat) :
    (if sv.v1_ ≠ sv.v2_ then
        (mem.write sv.v1_ (f (mem sv.v1_) (mem v))).write sv.v2_
          (f ((mem.write sv.v1_ (f (mem sv.v1_) (mem v))) sv.v2_)
            ((mem.write sv.v1_ (f (mem sv.v1_) (mem v))) v))
      else mem.write sv.v1_ (f (mem sv.v1_) (mem v))) a
      = if a = sv.v1_ ∨ a = sv.v2_ then f (mem a) (mem v) else mem a := by
  by_cases h12 : sv.v1_ = sv.v2_
  · rw [if_neg (not_not.mpr h12)]
    unfold Memory.write
    by_cases ha : a = sv.v1_
    · simp [ha]
    · have ha2 : ¬ a = sv.v2_ := h12 ▸ ha
      simp [ha, ha2]
  · rw [if_pos h12]
    have hv1 : ¬ v = sv.v1_ := by
      cases hv with
      | inl h => exact absurd h h12
      | inr h => exact h
    unfold Memory.write
    by_cases ha2 : a = sv.v2_
    · have h21 : ¬ sv.v2_ = sv.v1_ := fun e => h12 e.symm
      simp [ha2, h21, hv1]
    · by_cases ha : a = sv.v1_
      · subst ha
        simp [ha2]
      · simp [ha, ha2]

/-- The operators of a `SymmetricValue` for an operand that is not the first of two
distinct represented values (a temporary, another object, or the second represented
value): the update is applied, with the value the operand had before the call, to the value
at every represented location — once when the locations coincide — and to nothing else, so
that locations holding equal values before hold equal values afterwards. -/
theorem operators_without_aliasing (sv : SymmetricValue) (mem : Memory) (v : Nat)
    (hv : sv.v1_ = sv.v2_ ∨ v ≠ sv.v1_) :
    (∀ a, sv.assign mem (mem v) a = if a = sv.v1_ ∨ a = sv.v2_ then mem v else mem a) ∧
    (∀ a, sv.addAssign mem v a
      = if a = sv.v1_ ∨ a = sv.v2_ then mem a + mem v else mem a) ∧
    (∀ a, sv.subAssign mem v a
      = if a = sv.v1_ ∨ a = sv.v2_ then mem a - mem v else mem a) ∧
    (∀ a, sv.mulAssign mem v a
      = if a = sv.v1_ ∨ a = sv.v2_ then mem a * mem v else mem a) ∧
    (mem v ≠ 0 → ∃ m, sv.divAssign mem v = some m ∧
      ∀ a, m a = if a = sv.v1_ ∨ a = sv.v2_ then Int.tdiv (mem a) (mem v) else mem a) := by
  refine ⟨fun a => ?_, fun a => update_both sv mem (fun x y => x + y) v hv a,
    fun a => update_both sv mem (fun x y => x - y) v hv a,
    fun a => update_both sv mem (fun x y => x * y) v hv a, fun h0 => ?_⟩
  · unfold assign Memory.write
    by_cases h12 : sv.v1_ = sv.v2_
    · rw [if_neg (not_not.mpr h12)]
      by_cases ha : a = sv.v1_
      · simp [ha]
      · have ha2 : ¬ a = sv.v2_ := h12 ▸ ha
        simp [ha, ha2]
    · rw [if_pos h12]
      by_cases ha2 : a = sv.v2_
      · simp [ha2]
      · by_cases ha : a = sv.v1_
        · simp [ha, ha2]
        · simp [ha, ha2]
  · have hform := fun a => update_both sv mem (fun x y => Int.tdiv x y) v hv a
    unfold divAssign
    rw [if_neg h0]
    by_cases h12 : sv.v1_ = sv.v2_
    · simp only [if_neg (not_not.mpr h12)] at hform ⊢
      exact ⟨_, rfl, hform⟩
    · have hv1 : ¬ v = sv.v1_ := by
        cases hv with
        | inl h => exact absurd h h12
        | inr h => exact h
      have hm1 : (mem.write sv.v1_ (Int.tdiv (mem sv.v1_) (mem v))) v = mem v := by
        simp [Memory.write, hv1]
      simp only [if_pos h12] at hform ⊢
      rw [if_neg (by rw [hm1]; exact h0)]
      exact ⟨_, rfl, hform⟩

end SymmetricValue

/-- C22, the code at a concrete input: a `SymmetricValue` over the two distinct locations
0 and 1, both holding 5 (an off-diagonal element and its mirror), is updated with an
operand that refers to its own first value, as in `it->value() += it->value()`.  The
operand is read again after the first update, so the two locations receive different
updates: `+=` leaves 10 and 15, `-=` leaves 0 and 5, `*=` leaves 25 and 125 and `/=`
leaves 1 and 5 — values that were equal before are not equal afterwards.  With an operand
that holds the same value 5 elsewhere both locations hold 10 after `+=`. -/
theorem C22_aliased_operand :
    exampleMemory 0 = 5 ∧ exampleMemory 1 = 5 ∧
    (SymmetricValue.addAssign ⟨0, 1⟩ exampleMemory 0) 0 = 10 ∧
    (SymmetricValue.addAssign ⟨0, 1⟩ exampleMemory 0) 1 = 15 ∧
    (SymmetricValue.subAssign ⟨0, 1⟩ exampleMemory 0) 0 = 0 ∧
    (SymmetricValue.subAssign ⟨0, 1⟩ exampleMemory 0) 1 = 5 ∧
    (SymmetricValue.mulAssign ⟨0, 1⟩ exampleMemory 0) 0 = 25 ∧
    (SymmetricValue.mulAssign ⟨0, 1⟩ exampleMemory 0) 1 = 125 ∧
    (∃ m, SymmetricValue.divAssign ⟨0, 1⟩ exampleMemory 0 = some m ∧ m 0 = 1 ∧ m 1 = 5) ∧
    (SymmetricValue.addAssign ⟨0, 1⟩ (exampleMemory.write 7 5) 7) 0 = 10 ∧
    (SymmetricValue.addAssign ⟨0, 1⟩ (exampleMemory.write 7 5) 7) 1 = 10 := by
  refine ⟨by decide, by decide, by decide, by decide, by decide, by decide, by decide,
    by decide, ⟨_, rfl, by decide, by decide⟩, by decide, by decide⟩

/-- C23, the code at a concrete input: `sv1` represents the locations 0 and 1 (both hold
5), `sv2` the locations 2 and 3 (both hold 9).  After `sv1 = sv2` the first location holds
9, the second location still holds 5, and the pointer member `v2_` of `sv1` has been
overwritten with the converted value — whatever the conversion from the element type to a
pointer is. -/
theorem C23_copy_assignment_divergence (toPointer : Int → Nat) :
    (SymmetricValue.assignCopy ⟨0, 1⟩ exampleMemory ⟨2, 3⟩ toPointer).1 0 = 9 ∧
    (SymmetricValue.assignCopy ⟨0, 1⟩ exampleMemory ⟨2, 3⟩ toPointer).1 1 = 5 ∧
    (SymmetricValue.assignCopy ⟨0, 1⟩ exampleMemory ⟨2, 3⟩ toPointer).2.v1_ = 0 ∧
    (SymmetricValue.assignCopy ⟨0, 1⟩ exampleMemory ⟨2, 3⟩ toPointer).2.v2_ = toPointer 9 ∧
    (SymmetricValue.assign ⟨0, 1⟩ exampleMemory 9) 1 = 9 := by
  refine ⟨?_, ?_, ?_, ?_, ?_⟩ <;>
    simp [SymmetricValue.assignCopy, SymmetricValue.assign, Memory.write, exampleMemory]

/-- C24: for every adaptor satisfying the symmetry invariant `transpose()` returns the
adaptor itself, unchanged: every element `A(i,j)` after the call equals `A(i,j)` before it
— which is the element `A(j,i)` of the transposed matrix — and `transpose` applied twice
equals `transpose` applied once. -/
theorem C24_transpose (A : SymmetricMatrix) (h : A.Inv) :
    A.transpose = A ∧ (∀ i j, A.transpose.get i j = A.get i j) ∧
    (∀ i j, A.transpose.get i j = A.get j i) ∧
    A.transpose.transpose = A.transpose ∧ A.transpose.Inv :=
  ⟨rfl, fun _ _ => rfl, fun i j => SymmetricMatrix.get_symm h i j, rfl, h⟩

/-- Witness of C24: the documented 5 × 5 matrix. -/
theorem C24_transpose_witness :
    (docMatrix true).Inv ∧ (docMatrix true).transpose = docMatrix true ∧
    (docMatrix true).transpose.get 0 1 = (docMatrix true).get 1 0 :=
  ⟨by decide, (C24_transpose (docMatrix true) (by decide)).1,
    (C24_transpose (docMatrix true) (by decide)).2.2.1 0 1⟩

/-- C30, the claim as stated fails: for a sparse vector operand that is a computation
`UseSMPAssign` is true, so the SMP kernels are selected, although `evaluateVector` is
true. -/
theorem C30_counterexample :
    ¬ (exampleTraits.UseSMPAssign = true →
        exampleTraits.evaluateVector = false ∧ exampleTraits.evaluateMatrix = false ∧
        exampleTraits.vtSmpAssignable = true ∧ exampleTraits.mtSmpAssignable = true) := by
  decide

/-- C30 (amended): the flag `UseSMPAssign` that enables the kernels `smpAssign`,
`smpAddAssign`, `smpSubAssign` and `smpMultAssign` of the expression node is true if and
only if `evaluateVector` or `evaluateMatrix` is true (it is the flag `useAssign` of the
serial kernels).  The flag `smpAssignable` of the node is true if and only if
`evaluateVector` and `evaluateMatrix` are both false and `VT::smpAssignable` and
`MT::smpAssignable` are both true; the two flags are never true together. -/
theorem C30_smp_selection (t : OperandTraits) :
    (t.UseSMPAssign = true ↔ (t.evaluateVector = true ∨ t.evaluateMatrix = true)) ∧
    t.UseSMPAssign = t.UseAssign ∧
    (t.smpAssignable = true ↔
      (t.evaluateVector = false ∧ t.evaluateMatrix = false ∧
        t.vtSmpAssignable = true ∧ t.mtSmpAssignable = true)) ∧
    ¬ (t.UseSMPAssign = true ∧ t.smpAssignable = true) := by
  obtain ⟨a, b, c, d, e⟩ := t
  cases a <;> cases b <;> cases c <;> cases d <;> cases e <;> decide

/-! ## ThreadPool: the counters, the order of service and destruction -/

namespace ThreadPool

theorem countP_filter_live (l : List WorkerState) :
    (l.filter (fun w => !w.hasTerminated)).countP (fun w => !w.hasTerminated) =
      l.countP (fun w => !w.hasTerminated) := by
  induction l with
  | nil => rfl
  | cons w ws ih =>
    have h1 : WorkerState.hasTerminated WorkerState.ready = false := rfl
    have h2 : WorkerState.hasTerminated WorkerState.waiting = false := rfl
    have h3 : ∀ t, WorkerState.hasTerminated (WorkerState.executing t) = false := fun _ => rfl
    have h4 : WorkerState.hasTerminated WorkerState.terminated = true := rfl
    cases w <;> simp [List.filter_cons, List.countP_cons, h1, h2, h3, h4, ih]

theorem createThreads_total (count : Nat) (s : ThreadPool)
    (h : s.total_ = s.threads_.countP (fun w => !w.hasTerminated)) :
    (createThreads count s).total_ =
      (createThreads count s).threads_.countP (fun w => !w.hasTerminated) := by
  induction count generalizing s with
  | zero => exact h
  | succ c ih =>
    rw [createThreads]
    apply ih
    simp [createThread, List.countP_append, h, WorkerState.hasTerminated]

/-- The counter `total_` after a thread that has not terminated has evaluated the loop of
`executeTask()`. -/
theorem acquire_total (s : ThreadPool) (k : Nat) (w : WorkerState)
    (hk : s.threads_[k]? = some w) (hw : w.hasTerminated = false)
    (h : s.total_ = s.threads_.countP (fun w => !w.hasTerminated)) :
    (s.acquire k).total_ = (s.acquire k).threads_.countP (fun w => !w.hasTerminated) := by
  have hT : WorkerState.hasTerminated WorkerState.terminated = true := rfl
  have hW : WorkerState.hasTerminated WorkerState.waiting = false := rfl
  have hE : ∀ t, WorkerState.hasTerminated (WorkerState.executing t) = false := fun _ => rfl
  have hsplit := fun w' => set_split s.threads_ k w w' hk
  have hcount : ∀ a b : List WorkerState, s.threads_ = a ++ w :: b →
      s.total_ = a.countP (fun w => !w.hasTerminated)
        + b.countP (fun w => !w.hasTerminated) + 1 := by
    intro a b h1
    rw [h1] at h
    simp only [List.countP_append, List.countP_cons, hw] at h
    simp at h
    omega
  unfold acquire
  cases hq : s.taskqueue_ with
  | nil =>
    by_cases ht : s.total_ > s.expected_
    · obtain ⟨a, b, h1, h2⟩ := hsplit WorkerState.terminated
      have hc := hcount a b h1
      have hne : s.total_ ≠ 0 := by omega
      simp only [if_pos ht, h2, decrement, if_neg hne, List.countP_append, List.countP_cons, hT]
      simp
      omega
    · obtain ⟨a, b, h1, h2⟩ := hsplit WorkerState.waiting
      have hc := hcount a b h1
      simp only [if_neg ht, h2, List.countP_append, List.countP_cons, hW]
      simp
      omega
  | cons t rest =>
    obtain ⟨a, b, h1, h2⟩ := hsplit (WorkerState.executing t)
    have hc := hcount a b h1
    simp only [h2, List.countP_append, List.countP_cons, hE]
    simp
    omega

/-- Every step keeps `total_` equal to the number of threads that have not terminated. -/
theorem step_total (s s1 : ThreadPool) (a : Action)
    (h : s.total_ = s.threads_.countP (fun w => !w.hasTerminated))
    (hs : s.step a = some s1) :
    s1.total_ = s1.threads_.countP (fun w => !w.hasTerminated) := by
  cases a with
  | schedule t =>
    simp only [step] at hs
    split at hs
    · exact absurd hs (by simp)
    · cases hs; exact h
  | resize n =>
    simp only [step] at hs
    split at hs
    · exact absurd hs (by simp)
    · cases hs
      unfold resizeLocked
      split
      · exact createThreads_total _ _ h
      · exact h
  | join =>
    simp only [step] at hs
    cases hs
    simp only [joinTerminated]
    rw [countP_filter_live]
    exact h
  | clear =>
    simp only [step] at hs
    split at hs
    · exact absurd hs (by simp)
    · cases hs; exact h
  | acquire k =>
    simp only [step] at hs
    split at hs
    · rename_i hk
      cases hs
      exact acquire_total s k _ hk rfl h
    · exact absurd hs (by simp)
  | wake k =>
    simp only [step] at hs
    split at hs
    · rename_i hk
      cases hs
      exact acquire_total _ k _ hk rfl h
    · exact absurd hs (by simp)
  | finish k =>
    simp only [step] at hs
    split at hs
    · rename_i t hk
      cases hs
      obtain ⟨a, b, h1, h2⟩ := set_split s.threads_ k _ WorkerState.ready hk
      simp only [finish, h2]
      rw [h, h1]
      simp [List.countP_append, List.countP_cons, WorkerState.hasTerminated]
    · exact absurd hs (by simp)
  | destroy =>
    simp only [step] at hs
    split at hs
    · exact absurd hs (by simp)
    · cases hs; exact h

theorem run_total (s s1 : ThreadPool) (acts : List Action)
    (h : s.total_ = s.threads_.countP (fun w => !w.hasTerminated))
    (hr : s.run acts = some s1) :
    s1.total_ = s1.threads_.countP (fun w => !w.hasTerminated) := by
  induction acts generalizing s with
  | nil => simp only [run] at hr; cases hr; exact h
  | cons a rest ih =>
    simp only [run] at hr
    cases hstep : s.step a with
    | none => rw [hstep] at hr; exact absurd hr (by simp)
    | some s2 =>
      rw [hstep] at hr
      exact ih s2 (step_total s s2 a h hstep) hr

theorem create_total (n : Nat) (s0 : ThreadPool) (hc : create n = .ok s0) :
    s0.total_ = s0.threads_.countP (fun w => !w.hasTerminated) := by
  obtain ⟨_, rfl⟩ := create_ok n s0 hc
  simp only [joinTerminated]
  rw [countP_filter_live]
  unfold resizeLocked
  split
  · exact createThreads_total _ _ rfl
  · rfl

/-- In a state whose counters count the threads, `active_ <= total_`. -/
theorem active_le_total (s : ThreadPool)
    (h1 : s.active_ = s.threads_.countP WorkerState.isActive)
    (h2 : s.total_ = s.threads_.countP (fun w => !w.hasTerminated)) :
    s.active_ ≤ s.total_ := by
  rw [h1, h2]
  apply List.countP_mono_left
  intro w _ hw
  cases w <;> simp [WorkerState.isActive, WorkerState.hasTerminated] at hw ⊢

/-- The queue and the popping history after thread `k` has evaluated the loop of
`executeTask()`. -/
theorem acquire_queue (s : ThreadPool) (k : Nat) :
    (s.taskqueue_ = [] → (s.acquire k).popped = s.popped ∧ (s.acquire k).taskqueue_ = []) ∧
    (∀ t rest, s.taskqueue_ = t :: rest →
      (s.acquire k).popped = s.popped ++ [t] ∧ (s.acquire k).taskqueue_ = rest) := by
  unfold acquire
  cases hq : s.taskqueue_ with
  | nil =>
    refine ⟨fun _ => ?_, fun t rest h => absurd h (by simp)⟩
    by_cases ht : s.total_ > s.expected_ <;> simp [ht, hq]
  | cons t rest =>
    refine ⟨fun h => absurd h (by simp), fun t2 rest2 h => ?_⟩
    cases h
    exact ⟨rfl, rfl⟩

theorem acquire_expected (s : ThreadPool) (k : Nat) :
    (s.acquire k).expected_ = s.expected_ := by
  unfold acquire
  cases s.taskqueue_ with
  | nil => by_cases ht : s.total_ > s.expected_ <;> simp [ht]
  | cons t rest => rfl

/-- The order of service: without `clear()` the popped tasks stay a prefix of the scheduled
ones; they are followed by the queued tasks while the pool is live, and the queue is empty
once the destructor has started. -/
theorem step_in_order (s s1 : ThreadPool) (a : Action) (hs : s.step a = some s1)
    (ha : a ≠ Action.clear)
    (h : s.popped <+: s.scheduled ∧
      (s.destructing = false → s.scheduled = s.popped ++ s.taskqueue_) ∧
      (s.destructing = true → s.taskqueue_ = [])) :
    s1.popped <+: s1.scheduled ∧
      (s1.destructing = false → s1.scheduled = s1.popped ++ s1.taskqueue_) ∧
      (s1.destructing = true → s1.taskqueue_ = []) := by
  obtain ⟨h1, h2, h3⟩ := h
  have hacq : ∀ s : ThreadPool, ∀ k,
      (s.popped <+: s.scheduled ∧
        (s.destructing = false → s.scheduled = s.popped ++ s.taskqueue_) ∧
        (s.destructing = true → s.taskqueue_ = [])) →
      (s.acquire k).popped <+: (s.acquire k).scheduled ∧
        ((s.acquire k).destructing = false →
          (s.acquire k).scheduled = (s.acquire k).popped ++ (s.acquire k).taskqueue_) ∧
        ((s.acquire k).destructing = true → (s.acquire k).taskqueue_ = []) := by
    intro s k ⟨g1, g2, g3⟩
    obtain ⟨hd, hsch, _, hpq⟩ := acquire_history s k
    obtain ⟨q1, q2⟩ := acquire_queue s k
    rw [hd, hsch]
    cases hq : s.taskqueue_ with
    | nil =>
      obtain ⟨p1, p2⟩ := q1 hq
      rw [p1, p2]
      refine ⟨g1, fun hdd => ?_, fun _ => rfl⟩
      have := g2 hdd
      rw [hq] at this
      exact this
    | cons t rest =>
      obtain ⟨p1, p2⟩ := q2 t rest hq
      rw [p1, p2]
      have hlive : s.destructing = false := by
        cases hdd : s.destructing with
        | false => rfl
        | true =>
          have := g3 hdd
          rw [hq] at this
          exact absurd this (by simp)
      have hsq := g2 hlive
      rw [hq] at hsq
      refine ⟨?_, fun _ => ?_, fun hdd => ?_⟩
      · rw [hsq]
        exact ⟨rest, by simp⟩
      · rw [hsq]; simp
      · rw [hlive] at hdd
        exact absurd hdd (by simp)
  cases a with
  | schedule t =>
    simp only [step] at hs
    split at hs
    · exact absurd hs (by simp)
    · rename_i hd
      cases hs
      have hlive : s.destructing = false := by simpa using hd
      simp only [schedule]
      refine ⟨?_, fun _ => ?_, fun hdd => ?_⟩
      · exact h1.trans (List.prefix_append _ _)
      · rw [h2 hlive, List.append_assoc]
      · rw [hlive] at hdd
        exact absurd hdd (by simp)
  | resize n =>
    simp only [step] at hs
    split at hs
    · exact absurd hs (by simp)
    · cases hs
      unfold resizeLocked
      split
      · obtain ⟨g1, g2, g3, g4, _, _⟩ := createThreads_history (n - s.expected_) s
        rw [g1, g2, g3, g4]
        exact ⟨h1, h2, h3⟩
      · exact ⟨h1, h2, h3⟩
  | join =>
    simp only [step] at hs
    cases hs
    exact ⟨h1, h2, h3⟩
  | clear => exact absurd rfl ha
  | acquire k =>
    simp only [step] at hs
    split at hs
    · cases hs
      exact hacq s k ⟨h1, h2, h3⟩
    · exact absurd hs (by simp)
  | wake k =>
    simp only [step] at hs
    split at hs
    · cases hs
      exact hacq { s with active_ := s.active_ + 1 } k ⟨h1, h2, h3⟩
    · exact absurd hs (by simp)
  | finish k =>
    simp only [step] at hs
    split at hs
    · cases hs
      exact ⟨h1, h2, h3⟩
    · exact absurd hs (by simp)
  | destroy =>
    simp only [step] at hs
    split at hs
    · exact absurd hs (by simp)
    · cases hs
      exact ⟨h1, fun hdd => absurd hdd (by simp [destructorBegin]), fun _ => rfl⟩

theorem run_in_order (s s1 : ThreadPool) (acts : List Action) (hr : s.run acts = some s1)
    (hclear : Action.clear ∉ acts)
    (h : s.popped <+: s.scheduled ∧
      (s.destructing = false → s.scheduled = s.popped ++ s.taskqueue_) ∧
      (s.destructing = true → s.taskqueue_ = [])) :
    s1.popped <+: s1.scheduled ∧
      (s1.destructing = false → s1.scheduled = s1.popped ++ s1.taskqueue_) ∧
      (s1.destructing = true → s1.taskqueue_ = []) := by
  induction acts generalizing s with
  | nil => simp only [run] at hr; cases hr; exact h
  | cons a rest ih =>
    simp only [run] at hr
    cases hstep : s.step a with
    | none => rw [hstep] at hr; exact absurd hr (by simp)
    | some s2 =>
      rw [hstep] at hr
      have hne : a ≠ Action.clear := fun e => hclear (by simp [e])
      have hrest : Action.clear ∉ rest := fun e => hclear (by simp [e])
      exact ih s2 hr hrest (step_in_order s s2 a hstep hne h)

/-- Once the destructor has started the queue stays empty, `expected_` stays 0 and no task
is popped. -/
theorem run_destructing (s s1 : ThreadPool) (acts : List Action) (hr : s.run acts = some s1)
    (hd : s.destructing = true) (hq : s.taskqueue_ = []) :
    s1.destructing = true ∧ s1.taskqueue_ = [] ∧ s1.expected_ = s.expected_ ∧
    s1.popped = s.popped := by
  induction acts generalizing s with
  | nil => simp only [run] at hr; cases hr; exact ⟨hd, hq, rfl, rfl⟩
  | cons a rest ih =>
    simp only [run] at hr
    cases hstep : s.step a with
    | none => rw [hstep] at hr; exact absurd hr (by simp)
    | some s2 =>
      rw [hstep] at hr
      have hstep2 : s2.destructing = true ∧ s2.taskqueue_ = [] ∧ s2.expected_ = s.expected_ ∧
          s2.popped = s.popped := by
        have hacq : ∀ s : ThreadPool, ∀ k, s.destructing = true → s.taskqueue_ = [] →
            (s.acquire k).destructing = true ∧ (s.acquire k).taskqueue_ = [] ∧
            (s.acquire k).expected_ = s.expected_ ∧ (s.acquire k).popped = s.popped := by
          intro s k gd gq
          obtain ⟨p1, p2⟩ := (acquire_queue s k).1 gq
          exact ⟨by rw [(acquire_history s k).1]; exact gd, p2, acquire_expected s k, p1⟩
        cases a with
        | schedule t => simp [step, hd] at hstep
        | resize n => simp [step, hd] at hstep
        | join =>
          simp only [step] at hstep
          cases hstep
          exact ⟨hd, hq, rfl, rfl⟩
        | clear => simp [step, hd] at hstep
        | acquire k =>
          simp only [step] at hstep
          split at hstep
          · cases hstep
            exact hacq s k hd hq
          · exact absurd hstep (by simp)
        | wake k =>
          simp only [step] at hstep
          split at hstep
          · cases hstep
            exact hacq { s with active_ := s.active_ + 1 } k hd hq
          · exact absurd hstep (by simp)
        | finish k =>
          simp only [step] at hstep
          split at hstep
          · cases hstep
            exact ⟨hd, hq, rfl, rfl⟩
          · exact absurd hstep (by simp)
        | destroy => simp [step, hd] at hstep
      obtain ⟨g1, g2, g3, g4⟩ := hstep2
      obtain ⟨i1, i2, i3, i4⟩ := ih s2 hr g1 g2
      exact ⟨i1, i2, by rw [i3, g3], by rw [i4, g4]⟩

end ThreadPool

/-- C25: `schedule` appends at the tail of the single queue and `executeTask` removes its
head, so in every state a constructed pool reaches by steps without `clear()` the sequence
of tasks popped so far is a prefix of the sequence of tasks scheduled: tasks are handed to
the workers in submission order.  While the pool is live the rest of the scheduled sequence
is the queue. -/
theorem C25_fifo_order (n : Nat) (s0 s : ThreadPool) (acts : List ThreadPool.Action)
    (hc : ThreadPool.create n = .ok s0) (hr : s0.run acts = some s)
    (hclear : ThreadPool.Action.clear ∉ acts) :
    (∀ (p : ThreadPool) (t : Task), (p.schedule t).taskqueue_ = p.taskqueue_ ++ [t]) ∧
    (∀ (p : ThreadPool) (k : Nat) (t : Task) (rest : List Task), p.taskqueue_ = t :: rest →
      (p.acquire k).taskqueue_ = rest ∧ (p.acquire k).popped = p.popped ++ [t]) ∧
    s.scheduled = ThreadPool.scheduledBy acts ∧
    s.popped <+: s.scheduled ∧
    (s.destructing = false → s.scheduled = s.popped ++ s.taskqueue_) := by
  obtain ⟨hq, hd, hsch, hpop, _, _, _⟩ := ThreadPool.create_history n s0 hc
  have h0 : s0.popped <+: s0.scheduled ∧
      (s0.destructing = false → s0.scheduled = s0.popped ++ s0.taskqueue_) ∧
      (s0.destructing = true → s0.taskqueue_ = []) := by
    rw [hq, hsch, hpop]
    exact ⟨List.prefix_refl _, fun _ => rfl, fun _ => rfl⟩
  obtain ⟨h1, h2, _⟩ := ThreadPool.run_in_order s0 s acts hr hclear h0
  have h3 := (ThreadPool.run_history s0 s acts hr).1
  rw [hsch, List.nil_append] at h3
  refine ⟨fun _ _ => rfl, fun p k t rest hp => ?_, h3, h1, h2⟩
  obtain ⟨g1, g2⟩ := (ThreadPool.acquire_queue p k).2 t rest hp
  exact ⟨g2, g1⟩

/-- Witness of C25: the run `exampleRun` of a pool of two threads. -/
theorem C25_fifo_order_witness :
    ∃ s, (ThreadPool.createThreads 2 ThreadPool.initial).run exampleRun = some s ∧
      s.popped <+: s.scheduled ∧ s.scheduled = [7, 8] := by
  have hr : (ThreadPool.createThreads 2 ThreadPool.initial).run exampleRun =
      some { total_ := 2, expected_ := 2, active_ := 0,
             threads_ := [WorkerState.waiting, WorkerState.waiting], taskqueue_ := [],
             destructing := false, scheduled := [7, 8], popped := [7, 8],
             executed := [8, 7] } := by decide
  have h := C25_fifo_order 2 _ _ exampleRun rfl hr (by decide)
  exact ⟨_, hr, h.2.2.2.1, rfl⟩

/-- C26: `clear()` removes every queued task, so that `isEmpty()` is true immediately
afterwards, and leaves `total_`, `expected_`, `active_` and the thread container unchanged.
A task already popped is unaffected: it stays in execution, and its completion is the same
step after the call as before it. -/
theorem C26_clear (s : ThreadPool) :
    s.clear.isEmpty = true ∧ s.clear.taskqueue_ = [] ∧
    s.clear.total_ = s.total_ ∧ s.clear.expected_ = s.expected_ ∧
    s.clear.active_ = s.active_ ∧ s.clear.threads_ = s.threads_ ∧
    s.clear.popped = s.popped ∧ s.clear.executed = s.executed ∧
    s.clear.executing = s.executing ∧
    (s.destructing = false → s.step ThreadPool.Action.clear = some s.clear) ∧
    (∀ k t, s.threads_[k]? = some (WorkerState.executing t) →
      s.clear.step (ThreadPool.Action.finish k) = some (s.finish k t).clear ∧
      s.step (ThreadPool.Action.finish k) = some (s.finish k t)) := by
  refine ⟨rfl, rfl, rfl, rfl, rfl, rfl, rfl, rfl, rfl, fun hd => ?_, fun k t hk => ⟨?_, ?_⟩⟩
  · simp [ThreadPool.step, hd]
  · have hk2 : s.clear.threads_[k]? = some (WorkerState.executing t) := hk
    simp only [ThreadPool.step, hk2]
    rfl
  · simp only [ThreadPool.step, hk]

/-- C27, the code at a concrete input: a pool of three threads whose threads are all
executing a task is shrunk to one thread.  Then `size()` is 1 and `active()` is 3, so
`active_ <= expected_` does not hold and `ready()` — the `size_t` subtraction
`expected_ - active_` — wraps around to `2^64 - 2`, which is not between 0 and `size()`. -/
theorem C27_ready_wraps :
    ∃ s0 s, ThreadPool.create 3 = .ok s0 ∧ s0.run exampleShrink = some s ∧
      s.size = 1 ∧ s.active = 3 ∧ s.executing = [1, 2, 3] ∧
      s.ready = 2 ^ 64 - 2 ∧ ¬ (s.active_ ≤ s.expected_) ∧ ¬ (s.ready ≤ s.size) := by
  refine ⟨ThreadPool.createThreads 3 ThreadPool.initial,
    { total_ := 3, expected_ := 1, active_ := 3,
      threads_ := [WorkerState.executing 1, WorkerState.executing 2, WorkerState.executing 3],
      taskqueue_ := [], destructing := false, scheduled := [1, 2, 3], popped := [1, 2, 3],
      executed := [] }, rfl, by decide, rfl, rfl, rfl, by decide, by decide, by decide⟩

/-- C28: the destructor starts in a state `s` of a live pool.  It removes every queued
task and sets `expected_` to 0.  In every state `s2` reached afterwards the queue is still
empty and no further task has been popped, so only tasks that were already popped when the
destructor started are executed; the tasks queued at its start are not (for distinct tasks
scheduled without `clear()`).  The destructor returns exactly when `total_ == 0`, and then
every thread has terminated, no task is in execution and every task that was in execution
when the destructor started has been completed. -/
theorem C28_destructor (n : Nat) (s0 s s2 : ThreadPool)
    (acts acts2 : List ThreadPool.Action)
    (hc : ThreadPool.create n = .ok s0) (hr : s0.run acts = some s)
    (hlive : s.destructing = false) (hr2 : s.destructorBegin.run acts2 = some s2) :
    s.step ThreadPool.Action.destroy = some s.destructorBegin ∧
    s.destructorBegin.taskqueue_ = [] ∧ s.destructorBegin.expected_ = 0 ∧
    s2.taskqueue_ = [] ∧ s2.expected_ = 0 ∧ s2.popped = s.popped ∧
    (∀ t ∈ s2.executed, t ∈ s.executed ∨ t ∈ s.executing) ∧
    (ThreadPool.Action.clear ∉ acts → s.scheduled.Nodup →
      ∀ t ∈ s.taskqueue_, t ∉ s2.executed) ∧
    (s2.destructorReturns ↔ s2.total_ = 0) ∧
    (s2.destructorReturns →
      (∀ w ∈ s2.threads_, w = WorkerState.terminated) ∧ s2.executing = [] ∧
      s2.active_ = 0 ∧ s2.executed.Perm (s.executed ++ s.executing)) := by
  obtain ⟨hq0, hd0, hsch0, hpop0, hex0, hexg0, _⟩ := ThreadPool.create_history n s0 hc
  -- the invariants in `s`
  have hact := ThreadPool.run_active s0 s acts (ThreadPool.create_active n s0 hc) hr
  have htot := ThreadPool.run_total s0 s acts (ThreadPool.create_total n s0 hc) hr
  have hperm : s.popped.Perm (s.executed ++ s.executing) :=
    (ThreadPool.run_history s0 s acts hr).2.1
      (by rw [hpop0, hex0, hexg0]; exact List.Perm.refl _)
  -- the invariants in `s2`
  have hact2 : s2.active_ = s2.threads_.countP WorkerState.isActive :=
    ThreadPool.run_active s.destructorBegin s2 acts2 hact hr2
  have htot2 : s2.total_ = s2.threads_.countP (fun w => !w.hasTerminated) :=
    ThreadPool.run_total s.destructorBegin s2 acts2 htot hr2
  have hperm2 : s2.popped.Perm (s2.executed ++ s2.executing) :=
    (ThreadPool.run_history s.destructorBegin s2 acts2 hr2).2.1 hperm
  obtain ⟨_, hq2, he2, hp2⟩ := ThreadPool.run_destructing s.destructorBegin s2 acts2 hr2 rfl rfl
  have hp2s : s2.popped = s.popped := hp2
  have hexec : ∀ t ∈ s2.executed, t ∈ s.popped := by
    intro t ht
    rw [← hp2s]
    exact hperm2.symm.subset (List.mem_append_left _ ht)
  have hret : s2.destructorReturns ↔ s2.total_ = 0 := by
    unfold ThreadPool.destructorReturns ThreadPool.destructorBlocks
    simp
  refine ⟨by simp [ThreadPool.step, hlive], rfl, rfl, hq2, he2, hp2s, ?_, ?_, hret, ?_⟩
  · intro t ht
    exact List.mem_append.mp (hperm.subset (hexec t ht))
  · intro hclear hnodup t htq htex
    have hsplit := (ThreadPool.run_history s0 s acts hr).2.2 hclear
      (fun _ => by rw [hsch0, hpop0, hq0]; rfl) hlive
    rw [hsplit] at hnodup
    exact (List.nodup_append.mp hnodup).2.2 (hexec t htex) htq
  · intro hdone
    have h0 : s2.threads_.countP (fun w => !w.hasTerminated) = 0 := by
      rw [← htot2]; exact hret.mp hdone
    rw [List.countP_eq_zero] at h0
    have hterm : ∀ w ∈ s2.threads_, w = WorkerState.terminated := by
      intro w hw
      have := h0 w hw
      cases w <;> simp [WorkerState.hasTerminated] at this ⊢
    have hexg : s2.executing = [] := by
      unfold ThreadPool.executing
      rw [List.filterMap_eq_nil_iff]
      intro w hw
      rw [hterm w hw]
      rfl
    have hle := ThreadPool.active_le_total s2 hact2 htot2
    refine ⟨hterm, hexg, by rw [hret.mp hdone] at hle; omega, ?_⟩
    rw [hexg, List.append_nil, hp2s] at hperm2
    exact hperm2.symm.trans hperm

/-- Witness of C28: the run `exampleDestruction` — task 7 is in execution and tasks 8 and 9
are queued when the destructor starts; at its return only task 7 has been executed. -/
theorem C28_destructor_witness :
    ∃ s s2, (ThreadPool.createThreads 2 ThreadPool.initial).run (exampleDestruction.take 5)
        = some s ∧
      s.destructorBegin.run (exampleDestruction.drop 6) = some s2 ∧
      s.taskqueue_ = [8, 9] ∧ s.executing = [7] ∧
      s2.destructorReturns ∧ s2.executed.Perm (s.executed ++ s.executing) ∧
      s2.executed = [7] := by
  have hr : (ThreadPool.createThreads 2 ThreadPool.initial).run (exampleDestruction.take 5) =
      some { total_ := 2, expected_ := 2, active_ := 1,
             threads_ := [WorkerState.executing 7, WorkerState.waiting],
             taskqueue_ := [8, 9], destructing := false, scheduled := [7, 8, 9],
             popped := [7], executed := [] } := by decide
  have hr2 : (ThreadPool.destructorBegin
        { total_ := 2, expected_ := 2, active_ := 1,
          threads_ := [WorkerState.executing 7, WorkerState.waiting],
          taskqueue_ := [8, 9], destructing := false, scheduled := [7, 8, 9],
          popped := [7], executed := [] }).run (exampleDestruction.drop 6) =
      some { total_ := 0, expected_ := 0, active_ := 0,
             threads_ := [WorkerState.terminated, WorkerState.terminated],
             taskqueue_ := [], destructing := true, scheduled := [7, 8, 9],
             popped := [7], executed := [7] } := by decide
  have h := C28_destructor 2 _ _ _ (exampleDestruction.take 5) (exampleDestruction.drop 6)
    rfl hr rfl hr2
  exact ⟨_, _, hr, hr2, rfl, rfl, by decide, (h.2.2.2.2.2.2.2.2.2 (by decide)).2.2.2, rfl⟩

/-- C29: in every state a constructed pool reaches by steps of the step relation —
`resize`, `schedule`, `clear`, a worker popping a task, finishing it, going idle, waking or
terminating, the start of the destructor — `active_ <= total_`: `active_` counts the
threads that are about to take or are executing a task, `total_` the threads that have not
terminated.  The end of the destructor leaves both counters as they are. -/
theorem C29_active_le_total (n : Nat) (s0 s : ThreadPool) (acts : List ThreadPool.Action)
    (hc : ThreadPool.create n = .ok s0) (hr : s0.run acts = some s) :
    s.active_ ≤ s.total_ ∧
    s.active_ = s.threads_.countP WorkerState.isActive ∧
    s.total_ = s.threads_.countP (fun w => !w.hasTerminated) ∧
    s.destructorEnd.active_ ≤ s.destructorEnd.total_ := by
  have hact := ThreadPool.run_active s0 s acts (ThreadPool.create_active n s0 hc) hr
  have htot := ThreadPool.run_total s0 s acts (ThreadPool.create_total n s0 hc) hr
  have hle := ThreadPool.active_le_total s hact htot
  exact ⟨hle, hact, htot, hle⟩

/-- Witness of C29: the state after the run `exampleShrink` of a pool of three threads. -/
theorem C29_active_le_total_witness :
    ∃ s, (ThreadPool.createThreads 3 ThreadPool.initial).run exampleShrink = some s ∧
      s.active_ ≤ s.total_ ∧ s.active_ = 3 := by
  have hr : (ThreadPool.createThreads 3 ThreadPool.initial).run exampleShrink =
      some { total_ := 3, expected_ := 1, active_ := 3,
             threads_ := [WorkerState.executing 1, WorkerState.executing 2,
               WorkerState.executing 3],
             taskqueue_ := [], destructing := false, scheduled := [1, 2, 3],
             popped := [1, 2, 3], executed := [] } := by decide
  exact ⟨_, hr, (C29_active_le_total 3 _ _ exampleShrink rfl hr).1, rfl⟩

/-! ## The expression node: parallel threshold, iteration range and bulk kernels -/

/-- C31: `canSMPAssign()` returns true if and only if the result size `mat.columns()` is
strictly greater than the threshold `SMP_TSVECTDMATMULT_THRESHOLD`; for a size equal to or
below the threshold it returns false. -/
theorem C31_canSMPAssign (e : TSVecTDMatMultExpr) (threshold : Nat) :
    (e.canSMPAssign threshold = true ↔ threshold < e.mat_.columns) ∧
    (e.mat_.columns ≤ threshold → e.canSMPAssign threshold = false) ∧
    (e.mat_.columns = threshold → e.canSMPAssign threshold = false) := by
  unfold TSVecTDMatMultExpr.canSMPAssign TSVecTDMatMultExpr.size
  refine ⟨by simp, fun h => ?_, fun h => ?_⟩ <;> simp <;> omega

/-- C38, the claim as stated fails: for a matrix type that is both strictly lower and
strictly upper (and so lower and upper) and a vector with a stored entry at index 2, the
start position `x.upperBound(2)` lies after the end position `x.lowerBound(2)`. -/
theorem C38_counterexample :
    (exampleStrict.flags.IsStrictlyLower = true → exampleStrict.flags.IsLower = true) ∧
    (exampleStrict.flags.IsStrictlyUpper = true → exampleStrict.flags.IsUpper = true) ∧
    ¬ (TSVecTDMatMultExpr.startPos ⟨exampleVector, exampleStrict⟩ 2
        ≤ TSVecTDMatMultExpr.endPos ⟨exampleVector, exampleStrict⟩ 2) := by
  decide

/-- C38 (amended): for every combination of the structure flags other than the one in
which the type is both strictly lower and strictly upper (so also for a type that is both
lower and upper), every sparse vector `x` and every index `k`: the start position computed
by `operator[]` does not lie after the computed end position, and the end position is not
after `x.end()`; the element loop visits a well-formed, possibly empty, range of the stored
entries of `x`, and the element access is defined. -/
theorem C38_iteration_range (x : CompressedVector) (A : DenseMatrix) (k : Nat)
    (hstrict : ¬ (A.flags.IsLower = true ∧ A.flags.IsStrictlyLower = true ∧
      A.flags.IsUpper = true ∧ A.flags.IsStrictlyUpper = true)) :
    TSVecTDMatMultExpr.startPos ⟨x, A⟩ k ≤ TSVecTDMatMultExpr.endPos ⟨x, A⟩ k ∧
    TSVecTDMatMultExpr.endPos ⟨x, A⟩ k ≤ x.end_ ∧
    ((x.elems.drop (TSVecTDMatMultExpr.startPos ⟨x, A⟩ k)).take
      (TSVecTDMatMultExpr.endPos ⟨x, A⟩ k - TSVecTDMatMultExpr.startPos ⟨x, A⟩ k)).Sublist
        x.elems ∧
    (TSVecTDMatMultExpr.subscript ⟨x, A⟩ k).isSome = true := by
  have hlen1 := Line.lowerBound_le_length x.elems k
  have hlen2 := Line.upperBound_le_length x.elems k
  have hlu := Line.lowerBound_le_upperBound x.elems k
  have hle : TSVecTDMatMultExpr.startPos ⟨x, A⟩ k ≤ TSVecTDMatMultExpr.endPos ⟨x, A⟩ k := by
    simp only [TSVecTDMatMultExpr.startPos, TSVecTDMatMultExpr.endPos,
      CompressedVector.lowerBound, CompressedVector.upperBound, CompressedVector.begin,
      CompressedVector.end_]
    split <;> split <;> (try split) <;> (try split) <;> simp_all
  have hend : TSVecTDMatMultExpr.endPos ⟨x, A⟩ k ≤ x.end_ := by
    simp only [TSVecTDMatMultExpr.endPos, CompressedVector.lowerBound,
      CompressedVector.upperBound, CompressedVector.end_]
    split <;> (try split) <;> simp_all
  refine ⟨hle, hend, ?_, ?_⟩
  · exact (List.take_sublist _ _).trans (List.drop_sublist _ _)
  · unfold TSVecTDMatMultExpr.subscript
    simp only
    rw [if_neg (by omega)]
    rfl

/-- Witness of C38 (amended): a type that is both lower and upper, index 2. -/
theorem C38_iteration_range_witness :
    TSVecTDMatMultExpr.startPos
        ⟨exampleVector, ⟨⟨true, false, true, false⟩, 4, 4, fun _ _ => 0⟩⟩ 2
      ≤ TSVecTDMatMultExpr.endPos
        ⟨exampleVector, ⟨⟨true, false, true, false⟩, 4, 4, fun _ _ => 0⟩⟩ 2 :=
  (C38_iteration_range exampleVector ⟨⟨true, false, true, false⟩, 4, 4, fun _ _ => 0⟩ 2
    (by decide)).1

namespace TSVecTDMatMultExpr

theorem elementwise_ok (op : Int → Int → Int) (rhs : TSVecTDMatMultExpr) (f : Nat → Int)
    (h : ∀ j, rhs.subscript j = some (f j)) (y : DenseVector) (k : Nat) :
    ∃ r, elementwise op rhs k y = some r ∧ r.length = y.length ∧
      ∀ i, i < y.length → r.getD i 0 = op (y.getD i 0) (f (k + i)) := by
  induction y generalizing k with
  | nil => exact ⟨[], rfl, rfl, fun i hi => absurd hi (by simp)⟩
  | cons v rest ih =>
    obtain ⟨r, hr, hlen, hget⟩ := ih (k + 1)
    refine ⟨op v (f k) :: r, ?_, by simp [hlen], fun i hi => ?_⟩
    · simp only [elementwise, h k, hr]
    · cases i with
      | zero => simp
      | succ i =>
        have := hget i (by simpa using hi)
        simp only [List.getD_cons_succ]
        rw [this]
        congr 2
        omega

theorem zipWith_getD (op : Int → Int → Int) (a b : List Int) (k : Nat)
    (ha : k < a.length) (hb : k < b.length) :
    (List.zipWith op a b).getD k 0 = op (a.getD k 0) (b.getD k 0) := by
  induction a generalizing b k with
  | nil => simp at ha
  | cons x xs ih =>
    cases b with
    | nil => simp at hb
    | cons z zs =>
      cases k with
      | zero => simp
      | succ k =>
        simp only [List.zipWith_cons_cons, List.getD_cons_succ]
        exact ih zs k (by simpa using ha) (by simpa using hb)

theorem dotColumn_of_no_elements (x : CompressedVector) (A : DenseMatrix) (k : Nat)
    (h : x.nonZeros = 0) : dotColumn x A k = 0 := by
  have he : x.elems = [] := List.length_eq_zero.mp h
  unfold dotColumn CompressedVector.get Line.get
  rw [he]
  simp [Line.stored]

theorem map_zero_getD (y : List Int) (k : Nat) : (y.map (fun _ => (0 : Int))).getD k 0 = 0 := by
  induction y generalizing k with
  | nil => rfl
  | cons v rest ih =>
    cases k with
    | zero => rfl
    | succ k => simp

end TSVecTDMatMultExpr

/-- C33: for operands that respect their structure flags (the flags of the matrix type and
those of its evaluated type, neither with both strict flags set) and every dense target `y`
with `y.size() == size()`, each bulk kernel returns, and its result agrees with the
element-by-element evaluation through `operator[]`: `assign` sets `y[k] = (x*A)[k]`,
`addAssign` sets `y[k] = y_old[k] + (x*A)[k]`, `subAssign` sets
`y[k] = y_old[k] - (x*A)[k]` and `multAssign` sets `y[k] = y_old[k] * (x*A)[k]` for all
`k`.  This includes the fast path: when the evaluated `x` has no stored entries, `assign`
makes `y` the zero vector and `addAssign` and `subAssign` leave `y` unchanged. -/
theorem C33_bulk_kernels (e : TSVecTDMatMultExpr) (flags : StructureFlags)
    (y : DenseVector) (hx : e.vec_.WF) (hA : e.mat_.RespectsFlags)
    (hs : ¬ (e.mat_.flags.IsStrictlyLower = true ∧ e.mat_.flags.IsStrictlyUpper = true))
    (hE : (e.evaluated flags).mat_.RespectsFlags)
    (hsE : ¬ (flags.IsStrictlyLower = true ∧ flags.IsStrictlyUpper = true))
    (hy : y.length = e.size) :
    (∃ r, e.assign flags y = some r ∧ r.length = y.length ∧
      ∀ k, k < e.size → e.subscript k = some (r.getD k 0)) ∧
    (∃ r, e.addAssign flags y = some r ∧ r.length = y.length ∧
      ∀ k, k < e.size → (e.subscript k).map (fun v => y.getD k 0 + v) = some (r.getD k 0)) ∧
    (∃ r, e.subAssign flags y = some r ∧ r.length = y.length ∧
      ∀ k, k < e.size → (e.subscript k).map (fun v => y.getD k 0 - v) = some (r.getD k 0)) ∧
    (∃ r, e.multAssign flags y = some r ∧ r.length = y.length ∧
      ∀ k, k < e.size → (e.subscript k).map (fun v => y.getD k 0 * v) = some (r.getD k 0)) ∧
    (e.vec_.nonZeros = 0 →
      e.assign flags y = some (reset y) ∧ (∀ k, (reset y).getD k 0 = 0) ∧
      e.addAssign flags y = some y ∧ e.subAssign flags y = some y) := by
  have h1 : ∀ j, e.subscript j = some (dotColumn e.vec_ e.mat_ j) :=
    fun j => TSVecTDMatMultExpr.subscript_eq_dotColumn e.vec_ e.mat_ j hx hA hs
  have h2 : ∀ j, (e.evaluated flags).subscript j = some (dotColumn e.vec_ e.mat_ j) :=
    fun j => TSVecTDMatMultExpr.subscript_eq_dotColumn e.vec_ (e.evaluated flags).mat_ j
      hx hE hsE
  -- the kernel `assign` on any target
  have hassign : ∀ z : DenseVector, ∃ r, e.assign flags z = some r ∧ r.length = z.length ∧
      ∀ k, k < z.length → r.getD k 0 = dotColumn e.vec_ e.mat_ k := by
    intro z
    unfold TSVecTDMatMultExpr.assign
    by_cases hz : e.vec_.nonZeros = 0
    · simp only [if_pos hz]
      refine ⟨_, rfl, by simp [reset], fun k _ => ?_⟩
      rw [TSVecTDMatMultExpr.dotColumn_of_no_elements _ _ _ hz]
      exact TSVecTDMatMultExpr.map_zero_getD z k
    · simp only [if_neg hz]
      obtain ⟨r, hr, hlen, hget⟩ :=
        TSVecTDMatMultExpr.elementwise_ok (fun _ r => r) (e.evaluated flags) _ h2 z 0
      exact ⟨r, hr, hlen, fun k hk => by rw [hget k hk, Nat.zero_add]⟩
  have hadd : ∃ r, e.addAssign flags y = some r ∧ r.length = y.length ∧
      ∀ k, k < y.length → r.getD k 0 = y.getD k 0 + dotColumn e.vec_ e.mat_ k := by
    unfold TSVecTDMatMultExpr.addAssign
    by_cases hz : e.vec_.nonZeros = 0
    · simp only [if_pos hz]
      refine ⟨y, rfl, rfl, fun k _ => ?_⟩
      rw [TSVecTDMatMultExpr.dotColumn_of_no_elements _ _ _ hz, Int.add_zero]
    · simp only [if_neg hz]
      obtain ⟨r, hr, hlen, hget⟩ :=
        TSVecTDMatMultExpr.elementwise_ok (fun v r => v + r) (e.evaluated flags) _ h2 y 0
      exact ⟨r, hr, hlen, fun k hk => by rw [hget k hk, Nat.zero_add]⟩
  have hsub : ∃ r, e.subAssign flags y = some r ∧ r.length = y.length ∧
      ∀ k, k < y.length → r.getD k 0 = y.getD k 0 - dotColumn e.vec_ e.mat_ k := by
    unfold TSVecTDMatMultExpr.subAssign
    by_cases hz : e.vec_.nonZeros = 0
    · simp only [if_pos hz]
      refine ⟨y, rfl, rfl, fun k _ => ?_⟩
      rw [TSVecTDMatMultExpr.dotColumn_of_no_elements _ _ _ hz, Int.sub_zero]
    · simp only [if_neg hz]
      obtain ⟨r, hr, hlen, hget⟩ :=
        TSVecTDMatMultExpr.elementwise_ok (fun v r => v - r) (e.evaluated flags) _ h2 y 0
      exact ⟨r, hr, hlen, fun k hk => by rw [hget k hk, Nat.zero_add]⟩
  have hmul : ∃ r, e.multAssign flags y = some r ∧ r.length = y.length ∧
      ∀ k, k < y.length → r.getD k 0 = y.getD k 0 * dotColumn e.vec_ e.mat_ k := by
    obtain ⟨tmp, htmp, hlen, hget⟩ := hassign (List.replicate e.size 0)
    have hlen2 : tmp.length = y.length := by rw [hlen, List.length_replicate, hy]
    unfold TSVecTDMatMultExpr.multAssign
    rw [htmp]
    refine ⟨_, rfl, by simp [hlen2], fun k hk => ?_⟩
    rw [TSVecTDMatMultExpr.zipWith_getD _ _ _ _ hk (by omega),
      hget k (by rw [List.length_replicate, ← hy]; exact hk)]
  refine ⟨?_, ?_, ?_, ?_, fun hz => ?_⟩
  · obtain ⟨r, hr, hlen, hget⟩ := hassign y
    exact ⟨r, hr, hlen, fun k hk => by rw [h1 k, hget k (by omega)]⟩
  · obtain ⟨r, hr, hlen, hget⟩ := hadd
    exact ⟨r, hr, hlen, fun k hk => by rw [h1 k, hget k (by omega)]; rfl⟩
  · obtain ⟨r, hr, hlen, hget⟩ := hsub
    exact ⟨r, hr, hlen, fun k hk => by rw [h1 k, hget k (by omega)]; rfl⟩
  · obtain ⟨r, hr, hlen, hget⟩ := hmul
    exact ⟨r, hr, hlen, fun k hk => by rw [h1 k, hget k (by omega)]; rfl⟩
  · refine ⟨?_, fun k => TSVecTDMatMultExpr.map_zero_getD y k, ?_, ?_⟩
    · simp [TSVecTDMatMultExpr.assign, hz]
    · simp [TSVecTDMatMultExpr.addAssign, hz]
    · simp [TSVecTDMatMultExpr.subAssign, hz]

/-- Witness of C33: the example vector and the upper triangular example matrix, evaluated
into a matrix type without structure flags, added to the target `(1 1 1 1)`. -/
theorem C33_bulk_kernels_witness :
    ∃ r, TSVecTDMatMultExpr.addAssign ⟨false, false, false, false⟩ [1, 1, 1, 1]
        ⟨exampleVector, exampleUpper⟩ = some r ∧
      ∀ k, k < 4 →
        (TSVecTDMatMultExpr.subscript ⟨exampleVector, exampleUpper⟩ k).map
          (fun v => ([1, 1, 1, 1] : List Int).getD k 0 + v) = some (r.getD k 0) := by
  obtain ⟨r, hr, _, hget⟩ :=
    (C33_bulk_kernels ⟨exampleVector, exampleUpper⟩ ⟨false, false, false, false⟩ [1, 1, 1, 1]
      (by decide)
      ⟨(fun h => nomatch h), (fun h => nomatch h),
        (fun _ i k hik => by simp [exampleUpper, hik]), (fun h => nomatch h)⟩
      (by decide)
      ⟨(fun h => nomatch h), (fun h => nomatch h), (fun h => nomatch h),
        (fun h => nomatch h)⟩
      (by decide) rfl).2.1
  exact ⟨r, hr, hget⟩

/-- C39: `resize( n, preserve )` of the adaptor ignores its `preserve` argument: for both
values the result is the `n × n` matrix in which every element `(i,j)` with
`i, j < min( old size, n )` keeps its value and every new position reads zero;
`resize(n,false)` and `resize(n,true)` give equal matrices, and the invariant is kept. -/
theorem C39_resize_ignores_preserve (A : SymmetricMatrix) (h : A.Inv) (n : Nat)
    (preserve : Bool) :
    A.resize n preserve = A.resize n true ∧ A.resize n false = A.resize n true ∧
    (A.resize n preserve).rows = n ∧ (A.resize n preserve).columns = n ∧
    (∀ i j, i < min A.rows n → j < min A.rows n →
      (A.resize n preserve).get i j = A.get i j) ∧
    (∀ i j, i < n → j < n → (A.rows ≤ i ∨ A.rows ≤ j) →
      (A.resize n preserve).get i j = 0) ∧
    (A.resize n preserve).Inv := by
  obtain ⟨hwf, hsq, _⟩ := (SymmetricMatrix.Inv_iff A).mp h
  obtain ⟨_, hb, hc⟩ := CompressedMatrix.square_dims hwf hsq
  have hinv := SymmetricMatrix.resize_Inv h n preserve
  have hcell := (CompressedMatrix.resize_square_props hwf n).2
  have hget : ∀ i j, (A.resize n preserve).get i j
      = (if i < n ∧ j < n then A.matrix_.cell i j else none).getD 0 := by
    intro i j
    rw [SymmetricMatrix.get_eq_cell hinv]
    show ((A.matrix_.resize n n true).cell i j).getD 0 = _
    rw [hcell]
  have hrows : A.rows = A.matrix_.n := hsq
  refine ⟨rfl, rfl, rfl, rfl, fun i j hi hj => ?_, fun i j hi hj hnew => ?_, hinv⟩
  · rw [hget, if_pos ⟨by omega, by omega⟩, SymmetricMatrix.get_eq_cell h]
  · rw [hget, if_pos ⟨hi, hj⟩]
    rw [hrows] at hnew
    cases hnew with
    | inl hi2 => rw [CompressedMatrix.cell_of_line_ge hwf i j (by omega)]; rfl
    | inr hj2 => rw [CompressedMatrix.cell_of_index_ge hwf i j (by omega)]; rfl

/-- Witness of C39: the documented 5 × 5 matrix shrunk to 3 × 3 and enlarged to 7 × 7. -/
theorem C39_resize_ignores_preserve_witness :
    (docMatrix true).Inv ∧
    (docMatrix true).resize 3 false = (docMatrix true).resize 3 true ∧
    ((docMatrix true).resize 3 false).get 0 1 = (docMatrix true).get 0 1 ∧
    ((docMatrix true).resize 7 false).get 6 1 = 0 :=
  ⟨by decide,
    ((C39_resize_ignores_preserve (docMatrix true) (by decide) 3 false).1).trans
      (C39_resize_ignores_preserve (docMatrix true) (by decide) 3 true).1.symm,
    (C39_resize_ignores_preserve (docMatrix true) (by decide) 3 false).2.2.2.2.1 0 1
      (by decide) (by decide),
    (C39_resize_ignores_preserve (docMatrix true) (by decide) 7 false).2.2.2.2.2.1 6 1
      (by decide) (by decide) (by decide)⟩

/-! ## ThreadPool: construction, growth and the target size -/

namespace ThreadPool

theorem createThreads_counters (count : Nat) (s : ThreadPool) :
    (createThreads count s).threads_ = s.threads_ ++ List.replicate count WorkerState.ready ∧
    (createThreads count s).total_ = s.total_ + count ∧
    (createThreads count s).active_ = s.active_ + count := by
  induction count generalizing s with
  | zero => simp [createThreads]
  | succ c ih =>
    rw [createThreads]
    obtain ⟨h1, h2, h3⟩ := ih (createThread s)
    refine ⟨?_, ?_, ?_⟩
    · rw [h1]
      simp [createThread, List.replicate_succ]
    · rw [h2]
      simp [createThread]
      omega
    · rw [h3]
      simp [createThread]
      omega

theorem acquire_total_field (s : ThreadPool) (k : Nat) :
    (s.acquire k).total_
      = if s.taskqueue_ = [] ∧ s.total_ > s.expected_ then s.total_ - 1 else s.total_ := by
  unfold acquire
  cases hq : s.taskqueue_ with
  | nil =>
    by_cases ht : s.total_ > s.expected_
    · have hne : s.total_ ≠ 0 := by omega
      simp [ht, decrement, hne]
    · simp [ht]
  | cons t rest => simp

/-- Every step keeps `expected_ <= total_`. -/
theorem step_expected_le (s s1 : ThreadPool) (a : Action) (h : s.expected_ ≤ s.total_)
    (hs : s.step a = some s1) : s1.expected_ ≤ s1.total_ := by
  have hacq : ∀ (p : ThreadPool) (k : Nat), p.expected_ ≤ p.total_ →
      (p.acquire k).expected_ ≤ (p.acquire k).total_ := by
    intro p k hp
    rw [acquire_expected, acquire_total_field]
    split
    · rename_i hc
      omega
    · exact hp
  cases a with
  | schedule t =>
    simp only [step] at hs
    split at hs
    · exact absurd hs (by simp)
    · cases hs; exact h
  | resize n =>
    simp only [step] at hs
    split at hs
    · exact absurd hs (by simp)
    · cases hs
      unfold resizeLocked
      split
      · rw [createThreads_expected, (createThreads_counters _ _).2.1]
        omega
      · rename_i hn
        show n ≤ s.total_
        omega
  | join =>
    simp only [step] at hs
    cases hs
    exact h
  | clear =>
    simp only [step] at hs
    split at hs
    · exact absurd hs (by simp)
    · cases hs; exact h
  | acquire k =>
    simp only [step] at hs
    split at hs
    · cases hs
      exact hacq s k h
    · exact absurd hs (by simp)
  | wake k =>
    simp only [step] at hs
    split at hs
    · cases hs
      exact hacq { s with active_ := s.active_ + 1 } k h
    · exact absurd hs (by simp)
  | finish k =>
    simp only [step] at hs
    split at hs
    · cases hs
      exact h
    · exact absurd hs (by simp)
  | destroy =>
    simp only [step] at hs
    split at hs
    · exact absurd hs (by simp)
    · cases hs
      exact Nat.zero_le _

theorem run_expected_le (s s1 : ThreadPool) (acts : List Action) (h : s.expected_ ≤ s.total_)
    (hr : s.run acts = some s1) : s1.expected_ ≤ s1.total_ := by
  induction acts generalizing s with
  | nil => simp only [run] at hr; cases hr; exact h
  | cons a rest ih =>
    simp only [run] at hr
    cases hstep : s.step a with
    | none => rw [hstep] at hr; exact absurd hr (by simp)
    | some s2 =>
      rw [hstep] at hr
      exact ih s2 (step_expected_le s s2 a h hstep) hr

/-- The state of a constructed pool. -/
theorem create_state (n : Nat) (s0 : ThreadPool) (hc : create n = .ok s0) :
    n ≠ 0 ∧ s0.total_ = n ∧ s0.expected_ = n ∧ s0.active_ = n ∧
    s0.threads_ = List.replicate n WorkerState.ready ∧ s0.taskqueue_ = [] := by
  obtain ⟨hn, rfl⟩ := create_ok n s0 hc
  have hpos : n > initial.expected_ := Nat.pos_of_ne_zero hn
  obtain ⟨h1, h2, h3⟩ := createThreads_counters (n - initial.expected_) initial
  have h4 := createThreads_expected (n - initial.expected_) initial
  have h5 := (createThreads_history (n - initial.expected_) initial).1
  have hsub : n - initial.expected_ = n := rfl
  simp only [joinTerminated, resizeLocked, if_pos hpos]
  rw [h1, h2, h3, h4, h5, hsub]
  refine ⟨hn, by simp [initial], by simp [initial], by simp [initial], ?_, rfl⟩
  simp only [initial, List.nil_append]
  rw [List.filter_eq_self]
  intro w hw
  rw [List.eq_of_mem_replicate hw]
  rfl

end ThreadPool

namespace ThreadPool

theorem getElem?_set_of_some {α : Type} (l : List α) (k : Nat) (w w' : α)
    (h : l[k]? = some w) : (l.set k w')[k]? = some w' := by
  induction l generalizing k with
  | nil => simp at h
  | cons x xs ih =>
    cases k with
    | zero => simp
    | succ k =>
      simp only [List.getElem?_cons_succ] at h
      simp only [List.set_cons_succ, List.getElem?_cons_succ]
      exact ih k h

theorem acquire_active_field (s : ThreadPool) (k : Nat) :
    (s.acquire k).active_ = if s.taskqueue_ = [] then decrement s.active_ else s.active_ := by
  unfold acquire
  cases hq : s.taskqueue_ with
  | nil => by_cases ht : s.total_ > s.expected_ <;> simp [ht]
  | cons t rest => simp

/-- The state of thread `k` after it has evaluated the loop of `executeTask()`. -/
theorem acquire_thread (s : ThreadPool) (k : Nat) (w : WorkerState)
    (hk : s.threads_[k]? = some w) :
    (s.acquire k).threads_[k]? = some
      (match s.taskqueue_ with
        | [] => if s.total_ > s.expected_ then WorkerState.terminated else WorkerState.waiting
        | t :: _ => WorkerState.executing t) := by
  unfold acquire
  cases hq : s.taskqueue_ with
  | nil =>
    by_cases ht : s.total_ > s.expected_
    · simp only [if_pos ht]
      exact getElem?_set_of_some _ _ _ _ hk
    · simp only [if_neg ht]
      exact getElem?_set_of_some _ _ _ _ hk
  | cons t rest => exact getElem?_set_of_some _ _ _ _ hk

theorem acquire_thread_cons (s : ThreadPool) (k : Nat) (w : WorkerState) (t : Task)
    (rest : List Task) (hk : s.threads_[k]? = some w) (hq : s.taskqueue_ = t :: rest) :
    (s.acquire k).threads_[k]? = some (WorkerState.executing t) := by
  have h := acquire_thread s k w hk
  rw [hq] at h
  exact h

theorem isActive_iff (w : WorkerState) :
    w.isActive = (!w.hasTerminated && w != WorkerState.waiting) := by
  cases w <;> rfl

end ThreadPool

/-- C32, the claim as stated fails: after a pool of three threads with three tasks in
execution has been shrunk to one thread, `size()` is 1 while three worker threads are
live (`total_ == 3`). -/
theorem C32_counterexample :
    ∃ s, ThreadPool.create 3 = .ok (ThreadPool.createThreads 3 ThreadPool.initial) ∧
      (ThreadPool.createThreads 3 ThreadPool.initial).run exampleShrink = some s ∧
      ¬ (s.size = s.total_) :=
  ⟨{ total_ := 3, expected_ := 1, active_ := 3,
     threads_ := [WorkerState.executing 1, WorkerState.executing 2, WorkerState.executing 3],
     taskqueue_ := [], destructing := false, scheduled := [1, 2, 3], popped := [1, 2, 3],
     executed := [] }, rfl, by decide, by decide⟩

/-- C32 (amended): `size()` returns the expected number of threads of the pool: in every
reachable pool state `size()` equals `expected_`, which is at most the number of live
worker threads `total_`; the two are equal in a newly constructed pool. -/
theorem C32_size_is_expected (n : Nat) (s0 s : ThreadPool) (acts : List ThreadPool.Action)
    (hc : ThreadPool.create n = .ok s0) (hr : s0.run acts = some s) :
    s.size = s.expected_ ∧ s.size ≤ s.total_ ∧ s0.size = s0.total_ := by
  obtain ⟨_, h1, h2, _⟩ := ThreadPool.create_state n s0 hc
  refine ⟨rfl, ThreadPool.run_expected_le s0 s acts (by omega) hr, ?_⟩
  show s0.expected_ = s0.total_
  omega

/-- Witness of C32 (amended): the state after the run `exampleShrink`. -/
theorem C32_size_is_expected_witness :
    ∃ s, (ThreadPool.createThreads 3 ThreadPool.initial).run exampleShrink = some s ∧
      s.size = 1 ∧ s.size ≤ s.total_ := by
  have hr : (ThreadPool.createThreads 3 ThreadPool.initial).run exampleShrink =
      some { total_ := 3, expected_ := 1, active_ := 3,
             threads_ := [WorkerState.executing 1, WorkerState.executing 2,
               WorkerState.executing 3],
             taskqueue_ := [], destructing := false, scheduled := [1, 2, 3],
             popped := [1, 2, 3], executed := [] } := by decide
  exact ⟨_, hr, rfl, (C32_size_is_expected 3 _ _ exampleShrink rfl hr).2.1⟩

/-- C34: for every pool state and every `n > expected_`, `resize(n)` returns and creates
exactly `n - expected_` new workers, each ready to take a task; `total_`, `expected_` and
`active_` each increase by exactly `n - expected_`, and the task queue is unchanged.  The
housekeeping at the end of `resize` changes none of the counters. -/
theorem C34_resize_grows (s : ThreadPool) (n : Nat) (h : n > s.expected_) :
    s.resize n = Outcome.ok (s.resizeLocked n).joinTerminated ∧
    (s.resizeLocked n).threads_
      = s.threads_ ++ List.replicate (n - s.expected_) WorkerState.ready ∧
    (s.resizeLocked n).threads_.length = s.threads_.length + (n - s.expected_) ∧
    (s.resize n).state.total_ = s.total_ + (n - s.expected_) ∧
    (s.resize n).state.expected_ = s.expected_ + (n - s.expected_) ∧
    (s.resize n).state.expected_ = n ∧
    (s.resize n).state.active_ = s.active_ + (n - s.expected_) ∧
    (s.resize n).state.taskqueue_ = s.taskqueue_ := by
  have hn : n ≠ 0 := by omega
  have hres : s.resize n = Outcome.ok (s.resizeLocked n).joinTerminated := by
    simp [ThreadPool.resize, hn]
  obtain ⟨h1, h2, h3⟩ := ThreadPool.createThreads_counters (n - s.expected_) s
  have h4 := ThreadPool.createThreads_expected (n - s.expected_) s
  have h5 := (ThreadPool.createThreads_history (n - s.expected_) s).1
  have hlocked : s.resizeLocked n = ThreadPool.createThreads (n - s.expected_) s := by
    simp [ThreadPool.resizeLocked, h]
  rw [hres, hlocked]
  refine ⟨rfl, h1, by rw [h1]; simp, h2, h4, by rw [show (Outcome.ok
    (ThreadPool.createThreads (n - s.expected_) s).joinTerminated).state.expected_
      = (ThreadPool.createThreads (n - s.expected_) s).expected_ from rfl, h4]; omega, h3, h5⟩

/-- Witness of C34: a pool of one idle thread grown to four threads. -/
theorem C34_resize_grows_witness :
    (ThreadPool.resize
      { total_ := 1, expected_ := 1, active_ := 0, threads_ := [WorkerState.waiting],
        taskqueue_ := [5], destructing := false, scheduled := [5], popped := [],
        executed := [] } 4).state.total_ = 1 + (4 - 1) :=
  (C34_resize_grows
    { total_ := 1, expected_ := 1, active_ := 0, threads_ := [WorkerState.waiting],
      taskqueue_ := [5], destructing := false, scheduled := [5], popped := [],
      executed := [] } 4 (by decide)).2.2.2.1

/-- C35: a worker in `executeTask` that finds the queue empty terminates — decrements
`total_` by one and returns `false` — if and only if `total_ > expected_` at that moment;
otherwise it blocks waiting for a task and `total_` is unchanged.  With a task in the queue
it pops the head and executes it, and `executeTask` returns `true` — the step `finish` —
only for a thread that is executing a task it has popped, which is then completed once. -/
theorem C35_execute_task (s : ThreadPool) (k : Nat) (w : WorkerState)
    (hk : s.threads_[k]? = some w) :
    (s.taskqueue_ = [] →
      ((s.acquire k).threads_[k]? = some WorkerState.terminated ↔ s.total_ > s.expected_) ∧
      (s.total_ > s.expected_ → (s.acquire k).total_ = s.total_ - 1 ∧ 0 < s.total_) ∧
      (¬ s.total_ > s.expected_ →
        (s.acquire k).threads_[k]? = some WorkerState.waiting ∧
        (s.acquire k).total_ = s.total_)) ∧
    (∀ t rest, s.taskqueue_ = t :: rest →
      (s.acquire k).threads_[k]? = some (WorkerState.executing t) ∧
      (s.acquire k).taskqueue_ = rest ∧ (s.acquire k).popped = s.popped ++ [t] ∧
      (s.acquire k).total_ = s.total_) ∧
    (∀ s1, s.step (ThreadPool.Action.finish k) = some s1 →
      ∃ t, w = WorkerState.executing t ∧ s1.executed = s.executed ++ [t] ∧
        s1.threads_[k]? = some WorkerState.ready) ∧
    (∀ n s0 acts, ThreadPool.create n = .ok s0 → s0.run acts = some s →
      ∀ t, w = WorkerState.executing t → t ∈ s.popped) := by
  have hthread := ThreadPool.acquire_thread s k w hk
  have htotal := ThreadPool.acquire_total_field s k
  refine ⟨fun hq => ?_, fun t rest hq => ?_, fun s1 hs => ?_, fun n s0 acts hc hr t hw => ?_⟩
  · rw [hq] at hthread
    simp only [hq, true_and] at htotal
    by_cases ht : s.total_ > s.expected_
    · simp only [if_pos ht] at hthread htotal
      exact ⟨⟨fun _ => ht, fun _ => hthread⟩, fun _ => ⟨htotal, by omega⟩,
        fun hn => absurd ht hn⟩
    · simp only [if_neg ht] at hthread htotal
      refine ⟨⟨fun h2 => ?_, fun h2 => absurd h2 ht⟩, fun h2 => absurd h2 ht,
        fun _ => ⟨hthread, htotal⟩⟩
      rw [hthread] at h2
      exact absurd h2 (by simp)
  · rw [hq] at hthread
    obtain ⟨g1, g2⟩ := (ThreadPool.acquire_queue s k).2 t rest hq
    refine ⟨hthread, g2, g1, ?_⟩
    rw [htotal, if_neg (by simp [hq])]
  · simp only [ThreadPool.step, hk] at hs
    cases w with
    | executing t =>
      simp only at hs
      cases hs
      exact ⟨t, rfl, rfl, ThreadPool.getElem?_set_of_some _ _ _ _ hk⟩
    | ready => simp at hs
    | waiting => simp at hs
    | terminated => simp at hs
  · obtain ⟨_, _, _, hpop0, hex0, hexg0, _⟩ := ThreadPool.create_history n s0 hc
    have hperm := (ThreadPool.run_history s0 s acts hr).2.1
      (by rw [hpop0, hex0, hexg0]; exact List.Perm.refl _)
    apply hperm.symm.subset
    apply List.mem_append_right
    unfold ThreadPool.executing
    rw [List.mem_filterMap]
    obtain ⟨a, b, hsplit, _⟩ := ThreadPool.set_split s.threads_ k w w hk
    exact ⟨w, by rw [hsplit]; simp, by rw [hw]; rfl⟩

/-- Witness of C35: the two threads of a pool shrunk from two to one find the queue empty;
the first one terminates. -/
theorem C35_execute_task_witness :
    (ThreadPool.acquire
      { total_ := 2, expected_ := 1, active_ := 2,
        threads_ := [WorkerState.ready, WorkerState.ready], taskqueue_ := [],
        destructing := false, scheduled := [], popped := [], executed := [] } 0).threads_[0]?
      = some WorkerState.terminated :=
  ((C35_execute_task
    { total_ := 2, expected_ := 1, active_ := 2,
      threads_ := [WorkerState.ready, WorkerState.ready], taskqueue_ := [],
      destructing := false, scheduled := [], popped := [], executed := [] } 0
    WorkerState.ready rfl).1 rfl).1.mpr (by decide)

/-- C36: in every state a constructed pool reaches by steps of the step relation `active_`
equals the number of live workers that are not blocked waiting for a task.  A worker that
finds the queue empty decrements `active_` before it blocks or terminates, and this
decrement is applied to a positive value: to `active_ >= 1` for a worker that was counted,
and to the value it has just incremented for a worker that was woken. -/
theorem C36_active_counts (n : Nat) (s0 s : ThreadPool) (acts : List ThreadPool.Action)
    (hc : ThreadPool.create n = .ok s0) (hr : s0.run acts = some s) :
    s.active_
      = (s.threads_.filter (fun w => !w.hasTerminated && w != WorkerState.waiting)).length ∧
    (∀ k : Nat, s.threads_[k]? = some WorkerState.ready → 0 < s.active_) ∧
    (∀ k : Nat, s.threads_[k]? = some WorkerState.ready → s.taskqueue_ = [] →
      (s.acquire k).active_ = s.active_ - 1 ∧
      ((s.acquire k).threads_[k]? = some WorkerState.waiting ∨
        (s.acquire k).threads_[k]? = some WorkerState.terminated)) ∧
    (∀ k : Nat, s.threads_[k]? = some WorkerState.waiting → s.taskqueue_ = [] →
      (s.wake k).active_ = s.active_) ∧
    (∀ (k : Nat) (t : Task) (rest : List Task),
      s.threads_[k]? = some WorkerState.waiting → s.taskqueue_ = t :: rest →
      (s.wake k).active_ = s.active_ + 1 ∧
      (s.wake k).threads_[k]? = some (WorkerState.executing t)) := by
  have hact := ThreadPool.run_active s0 s acts (ThreadPool.create_active n s0 hc) hr
  have hpos : ∀ k : Nat, s.threads_[k]? = some WorkerState.ready → 0 < s.active_ := by
    intro k hk
    obtain ⟨a, b, h1, _⟩ := ThreadPool.set_split s.threads_ k _ WorkerState.ready hk
    rw [hact, h1]
    simp [List.countP_append, List.countP_cons, WorkerState.isActive]
  refine ⟨?_, hpos, fun k hk hq => ⟨?_, ?_⟩, fun k hk hq => ?_, fun k t rest hk hq => ⟨?_, ?_⟩⟩
  · rw [hact, List.countP_eq_length_filter]
    congr 1
    apply List.filter_congr
    intro w _
    exact ThreadPool.isActive_iff w
  · have hne : s.active_ ≠ 0 := Nat.pos_iff_ne_zero.mp (hpos k hk)
    rw [ThreadPool.acquire_active_field, if_pos hq]
    simp [ThreadPool.decrement, hne]
  · have hthread := ThreadPool.acquire_thread s k _ hk
    rw [hq] at hthread
    by_cases ht : s.total_ > s.expected_
    · simp only [if_pos ht] at hthread
      exact Or.inr hthread
    · simp only [if_neg ht] at hthread
      exact Or.inl hthread
  · unfold ThreadPool.wake
    rw [ThreadPool.acquire_active_field, if_pos hq]
    simp [ThreadPool.decrement]
  · unfold ThreadPool.wake
    rw [ThreadPool.acquire_active_field, if_neg (by simp [hq])]
  · unfold ThreadPool.wake
    exact ThreadPool.acquire_thread_cons { s with active_ := s.active_ + 1 } k _ t rest hk hq

/-- Witness of C36: the state after the run `exampleRun` of a pool of two threads. -/
theorem C36_active_counts_witness :
    ∃ s, (ThreadPool.createThreads 2 ThreadPool.initial).run exampleRun = some s ∧
      s.active_
        = (s.threads_.filter
            (fun w => !w.hasTerminated && w != WorkerState.waiting)).length := by
  have hr : (ThreadPool.createThreads 2 ThreadPool.initial).run exampleRun =
      some { total_ := 2, expected_ := 2, active_ := 0,
             threads_ := [WorkerState.waiting, WorkerState.waiting], taskqueue_ := [],
             destructing := false, scheduled := [7, 8], popped := [7, 8],
             executed := [8, 7] } := by decide
  exact ⟨_, hr, (C36_active_counts 2 _ _ exampleRun rfl hr).1⟩

/-- C37: in every state a constructed pool reaches by steps of the step relation
`expected_ <= total_`: a worker terminates only while `total_ > expected_`, growing raises
both counters together, and shrinking and destruction only lower `expected_`. -/
theorem C37_expected_le_total (n : Nat) (s0 s : ThreadPool) (acts : List ThreadPool.Action)
    (hc : ThreadPool.create n = .ok s0) (hr : s0.run acts = some s) :
    s.expected_ ≤ s.total_ ∧
    (∀ k, (s.acquire k).total_ < s.total_ → s.total_ > s.expected_) ∧
    (∀ m, m > s.expected_ →
      (s.resizeLocked m).expected_ = s.expected_ + (m - s.expected_) ∧
      (s.resizeLocked m).total_ = s.total_ + (m - s.expected_)) ∧
    (∀ m, ¬ m > s.expected_ →
      (s.resizeLocked m).expected_ ≤ s.expected_ ∧ (s.resizeLocked m).total_ = s.total_) ∧
    (s.destructorBegin.expected_ = 0 ∧ s.destructorBegin.total_ = s.total_) := by
  obtain ⟨_, h1, h2, _⟩ := ThreadPool.create_state n s0 hc
  refine ⟨ThreadPool.run_expected_le s0 s acts (by omega) hr, fun k hlt => ?_,
    fun m hm => ?_, fun m hm => ?_, rfl, rfl⟩
  · rw [ThreadPool.acquire_total_field] at hlt
    split at hlt
    · rename_i hc2
      exact hc2.2
    · omega
  · simp only [ThreadPool.resizeLocked, if_pos hm]
    exact ⟨ThreadPool.createThreads_expected _ _, (ThreadPool.createThreads_counters _ _).2.1⟩
  · unfold ThreadPool.resizeLocked
    rw [if_neg hm]
    exact ⟨Nat.le_of_not_gt hm, rfl⟩

/-- Witness of C37: the state after the run `exampleDestruction` up to the start of the
destructor. -/
theorem C37_expected_le_total_witness :
    ∃ s, (ThreadPool.createThreads 2 ThreadPool.initial).run (exampleDestruction.take 6)
        = some s ∧ s.expected_ ≤ s.total_ ∧ s.expected_ = 0 ∧ s.total_ = 2 := by
  have hr : (ThreadPool.createThreads 2 ThreadPool.initial).run (exampleDestruction.take 6) =
      some { total_ := 2, expected_ := 0, active_ := 1,
             threads_ := [WorkerState.executing 7, WorkerState.waiting],
             taskqueue_ := [], destructing := true, scheduled := [7, 8, 9],
             popped := [7], executed := [] } := by decide
  exact ⟨_, hr, (C37_expected_le_total 2 _ _ (exampleDestruction.take 6) rfl hr).1, rfl, rfl⟩

/-- C40: constructing a `ThreadPool` with `n == 0` throws `std::invalid_argument` (the
constructor delegates to `resize(n)`); constructing it with `n >= 1` yields the state
`total_ == expected_ == active_ == n` with `n` threads ready to take a task and an empty
task queue, so that `size() == n` and `ready() == 0`. -/
theorem C40_constructor (n : Nat) :
    (n = 0 →
      ThreadPool.create n = .error (Exception.invalid_argument "Invalid number of threads") ∧
      (ThreadPool.initial.resize n).threw = true) ∧
    (1 ≤ n → ∃ s0, ThreadPool.create n = .ok s0 ∧
      s0.total_ = n ∧ s0.expected_ = n ∧ s0.active_ = n ∧
      s0.threads_ = List.replicate n WorkerState.ready ∧ s0.taskqueue_ = [] ∧
      s0.isEmpty = true ∧ s0.size = n ∧ s0.active = n ∧ s0.ready = 0) := by
  refine ⟨fun h0 => ?_, fun h1 => ?_⟩
  · subst h0
    exact ⟨rfl, rfl⟩
  · have hn : n ≠ 0 := by omega
    have hc : ThreadPool.create n
        = .ok (ThreadPool.initial.resizeLocked n).joinTerminated := by
      simp [ThreadPool.create, ThreadPool.resize, hn]
    obtain ⟨_, g1, g2, g3, g4, g5⟩ := ThreadPool.create_state n _ hc
    refine ⟨_, hc, g1, g2, g3, g4, g5, ?_, g2, g3, ?_⟩
    · simp [ThreadPool.isEmpty, g5]
    · unfold ThreadPool.ready
      rw [g2, g3]
      have : n + 2 ^ 64 - n = 2 ^ 64 := by omega
      rw [this, Nat.mod_self]
end blaze
